import Mathlib

/-!
Verification of the configkit `transform` module (configkit/transform.py).

Strings are modelled as `List Char`.  The external Tcl interpreter (an
external collaborator per the design document) is modelled by a pure
state (`TclState`) together with a fueled evaluator for the restricted
word grammar that the module emits (`tclEvalWord`), a Tcl list splitter
(`tclSplitList`) and the canonical Tcl list representation
(`tclListRepr`).  Python numeric literals are modelled by plain decimal
forms (optional sign, digits, optional single dot); exponent forms,
`inf`/`nan` and underscore separators are outside the model.  Python
floats are modelled by their decimal digit strings (sign, integer
digits, fractional digits), i.e. by their `repr`; this is exact for the
round-trip properties considered here.
-/

set_option maxHeartbeats 1000000

abbrev Str := List Char

/-- Convert a Lean string literal to the `List Char` representation. -/
def chars (s : String) : Str := s.data

/-- The opening brace character, written via its code point. -/
def braceL : Char := Char.ofNat 123

/-- The closing brace character, written via its code point. -/
def braceR : Char := Char.ofNat 125

/-- The backslash character. -/
def bslash : Char := Char.ofNat 92

/-- The double-quote character. -/
def dquote : Char := Char.ofNat 34

/-- Python `str.split()` whitespace characters (the ones relevant here). -/
def isPyWs (c : Char) : Bool := c = ' ' || c = '\t' || c = '\n' || c = '\r'

/-- The special characters of `value_format_py2tcl` (line 105 of the
source): space, tab, newline, carriage return, both braces, both
brackets, dollar, double quote, backslash. -/
def pySpecialChars : List Char :=
  [' ', '\t', '\n', '\r', braceL, braceR, '[', ']', '$', dquote, bslash]

/-- `s` contains at least one of the characters in `cs`. -/
def containsAny (s : Str) (cs : List Char) : Bool := s.any (fun c => cs.contains c)

/-- Substring test, modelling Python's `in` on strings. -/
def strInfix (needle hay : Str) : Bool :=
  match hay with
  | [] => needle.isEmpty
  | _ :: t => needle.isPrefixOf hay || strInfix needle t

/-- Lower-casing, modelling Python `str.lower` on ASCII data. -/
def strLower (s : Str) : Str := s.map Char.toLower

/-- Python `str.split()` : split on whitespace runs, dropping empties. -/
def pySplitWs : Str → List Str
  | [] => []
  | c :: t =>
    if isPyWs c then pySplitWs t
    else
      match pySplitWs t with
      | [] => [[c]]
      | w :: ws =>
        match t with
        | [] => [[c]]
        | c' :: _ => if isPyWs c' then [c] :: w :: ws else (c :: w) :: ws

/-- Python `str.split(sep)` for a single-character separator: split on
every occurrence, keeping empty fields. -/
def splitOnChar (sep : Char) : Str → List Str
  | [] => [[]]
  | c :: t =>
    if c = sep then [] :: splitOnChar sep t
    else
      match splitOnChar sep t with
      | [] => [[c]]
      | w :: ws => (c :: w) :: ws

/-- Join with a single-character separator (Python `sep.join`). -/
def joinWithChar (sep : Char) : List Str → Str
  | [] => []
  | [w] => w
  | w :: ws => w ++ sep :: joinWithChar sep ws

/-- Python `str.strip()` (whitespace strip on both ends). -/
def pyStrip (s : Str) : Str :=
  ((s.dropWhile isPyWs).reverse.dropWhile isPyWs).reverse

/-- Decimal digit character for a digit value. -/
def digitChar (d : Nat) : Char := Char.ofNat (48 + d)

/-- Digit value of a character, when it is a decimal digit. -/
def digitVal (c : Char) : Option Nat :=
  if 48 ≤ c.toNat && c.toNat ≤ 57 then some (c.toNat - 48) else none

/-- Little-endian decimal digits with explicit fuel (kept structural so
that concrete values reduce inside the kernel). -/
def natDigitsRev : Nat → Nat → List Nat
  | 0, _ => []
  | fuel + 1, n => if n = 0 then [] else n % 10 :: natDigitsRev fuel (n / 10)

/-- Decimal rendering of a natural number, modelling Python `str`. -/
def natStr (n : Nat) : Str :=
  if n = 0 then ['0'] else ((natDigitsRev n n).reverse.map digitChar)

/-- Decimal rendering of an integer, modelling Python `str` on `int`. -/
def intStr (n : Int) : Str :=
  if n < 0 then '-' :: natStr n.natAbs else natStr n.natAbs

/-- Parse a nonempty all-digit string into a natural number. -/
def parseDigits (s : Str) : Option Nat :=
  if s.isEmpty then none
  else
    s.foldlM (fun a c => (digitVal c).map (fun d => a * 10 + d)) 0

/-- Python `int(s)` on plain decimal forms: optional sign, digits. -/
def pyParseInt (s : Str) : Option Int :=
  match s with
  | [] => none
  | c :: t =>
    if c = '-' then (parseDigits t).map (fun n => -(n : Int))
    else if c = '+' then (parseDigits t).map (fun n => (n : Int))
    else (parseDigits (c :: t)).map (fun n => (n : Int))

/-- Model of a Python float by its decimal digits: sign, integer-part
digits, fractional-part digits (its `repr` string).  Exponent-form
floats are outside the model. -/
structure PyFloat where
  neg : Bool
  ip : List Nat
  fp : List Nat
deriving DecidableEq, Repr

/-- Rendering of a model float, modelling Python `str` on `float`. -/
def floatStr (f : PyFloat) : Str :=
  (if f.neg then ['-'] else []) ++ f.ip.map digitChar ++ '.' :: f.fp.map digitChar

/-- Digit-list extraction for the float parser: leading digits and rest. -/
def spanDigits : Str → List Nat × Str
  | [] => ([], [])
  | c :: t =>
    match digitVal c with
    | some d => let (ds, r) := spanDigits t; (d :: ds, r)
    | none => ([], c :: t)

/-- Digits-with-optional-dot part of the float grammar, after the sign. -/
def pyParseFloatAux (sgn : Bool) (rest : Str) : Option PyFloat :=
  let (ip, r1) := spanDigits rest
  match r1 with
  | [] => if ip.isEmpty then none else some ⟨sgn, ip, []⟩
  | '.' :: r2 =>
    let (fp, r3) := spanDigits r2
    if r3.isEmpty && !(ip.isEmpty && fp.isEmpty) then some ⟨sgn, ip, fp⟩ else none
  | _ => none

/-- Python `float(s)` on plain decimal forms: optional sign, digits with
an optional single dot, at least one digit overall.  Exponent forms,
`inf`/`nan` and underscores are outside the model. -/
def pyParseFloat (s : Str) : Option PyFloat :=
  match s with
  | [] => pyParseFloatAux false []
  | c :: t =>
    if c = '-' then pyParseFloatAux true t
    else if c = '+' then pyParseFloatAux false t
    else pyParseFloatAux false (c :: t)

/-- Python `float(s)` succeeds (within the plain-decimal model). -/
def pyFloatOk (s : Str) : Bool := (pyParseFloat s).isSome

/-- Structured values: the Python data model of the module (null, bool,
int, float, str, list, dict with string keys in insertion order). -/
inductive PyVal where
  | vnone : PyVal
  | vbool (b : Bool) : PyVal
  | vint (n : Int) : PyVal
  | vfloat (f : PyFloat) : PyVal
  | vstr (s : Str) : PyVal
  | vlist (l : List PyVal) : PyVal
  | vdict (m : List (Str × PyVal)) : PyVal
deriving Repr

/-- A Python dictionary: association list in insertion order. -/
abbrev PyDict := List (Str × PyVal)

mutual
/-- Boolean equality on `PyVal` (structural). -/
def PyVal.beq : PyVal → PyVal → Bool
  | .vnone, .vnone => true
  | .vbool a, .vbool b => a = b
  | .vint a, .vint b => a = b
  | .vfloat a, .vfloat b => a = b
  | .vstr a, .vstr b => a = b
  | .vlist a, .vlist b => PyVal.beqList a b
  | .vdict a, .vdict b => PyVal.beqDict a b
  | _, _ => false

/-- Boolean equality on lists of `PyVal`. -/
def PyVal.beqList : List PyVal → List PyVal → Bool
  | [], [] => true
  | a :: as', b :: bs => PyVal.beq a b && PyVal.beqList as' bs
  | _, _ => false

/-- Boolean equality on dictionaries. -/
def PyVal.beqDict : List (Str × PyVal) → List (Str × PyVal) → Bool
  | [], [] => true
  | (k, v) :: as', (k', v') :: bs => k = k' && PyVal.beq v v' && PyVal.beqDict as' bs
  | _, _ => false
end

mutual
theorem PyVal.eq_of_beq : ∀ {a b : PyVal}, PyVal.beq a b = true → a = b
  | .vnone, .vnone, _ => rfl
  | .vbool _, .vbool _, h => by
      simp only [PyVal.beq, decide_eq_true_eq] at h; exact congrArg _ h
  | .vint _, .vint _, h => by
      simp only [PyVal.beq, decide_eq_true_eq] at h; exact congrArg _ h
  | .vfloat _, .vfloat _, h => by
      simp only [PyVal.beq, decide_eq_true_eq] at h; exact congrArg _ h
  | .vstr _, .vstr _, h => by
      simp only [PyVal.beq, decide_eq_true_eq] at h; exact congrArg _ h
  | .vlist _, .vlist _, h => by
      simp only [PyVal.beq] at h; exact congrArg _ (PyVal.eqList_of_beq h)
  | .vdict _, .vdict _, h => by
      simp only [PyVal.beq] at h; exact congrArg _ (PyVal.eqDict_of_beq h)

theorem PyVal.eqList_of_beq : ∀ {a b : List PyVal}, PyVal.beqList a b = true → a = b
  | [], [], _ => rfl
  | a :: as', b :: bs, h => by
      simp only [PyVal.beqList, Bool.and_eq_true] at h
      exact by rw [PyVal.eq_of_beq h.1, PyVal.eqList_of_beq h.2]

theorem PyVal.eqDict_of_beq : ∀ {a b : List (Str × PyVal)}, PyVal.beqDict a b = true → a = b
  | [], [], _ => rfl
  | (k, v) :: as', (k', v') :: bs, h => by
      simp only [PyVal.beqDict, Bool.and_eq_true, decide_eq_true_eq] at h
      exact by rw [h.1.1, PyVal.eq_of_beq h.1.2, PyVal.eqDict_of_beq h.2]
end

mutual
theorem PyVal.beq_rfl : ∀ (a : PyVal), PyVal.beq a a = true
  | .vnone => rfl
  | .vbool _ => by simp [PyVal.beq]
  | .vint _ => by simp [PyVal.beq]
  | .vfloat _ => by simp [PyVal.beq]
  | .vstr _ => by simp [PyVal.beq]
  | .vlist l => by simp only [PyVal.beq]; exact PyVal.beqList_rfl l
  | .vdict m => by simp only [PyVal.beq]; exact PyVal.beqDict_rfl m

theorem PyVal.beqList_rfl : ∀ (a : List PyVal), PyVal.beqList a a = true
  | [] => rfl
  | a :: as' => by
      simp only [PyVal.beqList, Bool.and_eq_true]
      exact ⟨PyVal.beq_rfl a, PyVal.beqList_rfl as'⟩

theorem PyVal.beqDict_rfl : ∀ (a : List (Str × PyVal)), PyVal.beqDict a a = true
  | [] => rfl
  | (k, v) :: as' => by
      simp [PyVal.beqDict, PyVal.beq_rfl v, PyVal.beqDict_rfl as']
end

instance : DecidableEq PyVal := fun a b =>
  if h : PyVal.beq a b = true then isTrue (PyVal.eq_of_beq h)
  else isFalse (fun he => h (he ▸ PyVal.beq_rfl a))

/-- String case of `value_format_py2tcl` (lines 101-108): return the
string verbatim unless it contains a special character, in which case
wrap it in one pair of braces. -/
def pyStrEncode (s : Str) : Str :=
  if containsAny s pySpecialChars then braceL :: s ++ [braceR] else s

mutual
/-- `value_format_py2tcl` (transform.py lines 75-108): encode a Python
value as a Tcl literal word. -/
def value_format_py2tcl : PyVal → Str
  | .vnone => [dquote, dquote]
  | .vbool b => if b then ['1'] else ['0']
  | .vint n => intStr n
  | .vfloat f => floatStr f
  | .vlist l =>
    chars "[list " ++ joinWithChar ' ' (py2tclElems l) ++ [']']
  | .vdict m =>
    chars "[dict create " ++ joinWithChar ' ' (py2tclPairs m) ++ [']']
  | .vstr s => pyStrEncode s

/-- Element-wise encoding of a Python list (line 93). -/
def py2tclElems : List PyVal → List Str
  | [] => []
  | v :: t => value_format_py2tcl v :: py2tclElems t

/-- Pair-wise encoding of a Python dict (lines 97-99); string keys go
through the same encoder's string case. -/
def py2tclPairs : List (Str × PyVal) → List Str
  | [] => []
  | (k, v) :: t => (pyStrEncode k ++ ' ' :: value_format_py2tcl v) :: py2tclPairs t
end

theorem py2tclElems_eq_map (l : List PyVal) :
    py2tclElems l = l.map value_format_py2tcl := by
  induction l with
  | nil => rfl
  | cons v t ih => simp [py2tclElems, ih]

/-- The list-hint substrings of `detect_tcl_list` (line 138). -/
def listHintNames : List Str :=
  [chars "list", chars "array", chars "items", chars "elements", chars "values"]

/-- `detect_tcl_list` (transform.py lines 111-162): heuristic for
whether a bare Tcl string should be read as a list. -/
def detect_tcl_list (tcl_value : Str) (var_name : Str) : Bool :=
  if (chars "[list ").isPrefixOf tcl_value && [']'].isSuffixOf tcl_value then false
  else if [braceL].isPrefixOf tcl_value && [braceR].isSuffixOf tcl_value then false
  else if !(tcl_value.contains ' ') then false
  else
    let is_likely_list_by_name :=
      !var_name.isEmpty && listHintNames.any (fun h => strInfix h (strLower var_name))
    let items := pySplitWs tcl_value
    let all_numbers := items.all pyFloatOk
    if all_numbers && items.length > 1 then true
    else if is_likely_list_by_name && items.length > 1 then true
    else false

/-- Association lookup (first match), modelling Python `dict` access. -/
def assocLookup {α β : Type} [DecidableEq α] (l : List (α × β)) (k : α) : Option β :=
  match l with
  | [] => none
  | (k', v) :: t => if k' = k then some v else assocLookup t k

/-- Association update-or-append, modelling Python `d[k] = v`: an
existing key keeps its position, a new key is appended. -/
def assocUpd {α β : Type} [DecidableEq α] (l : List (α × β)) (k : α) (v : β) : List (α × β) :=
  match l with
  | [] => [(k, v)]
  | (k', v') :: t => if k' = k then (k', v) :: t else (k', v') :: assocUpd t k v

/-- Scan a brace-quoted span: the input follows an opening brace; return
the content up to the matching closing brace and the remainder.  `d` is
the current nesting depth of further open braces. -/
def braceSpan : Str → Nat → Option (Str × Str)
  | [], _ => none
  | c :: t, d =>
    if c = braceR then
      if d = 0 then some ([], t)
      else (braceSpan t (d - 1)).map (fun p => (c :: p.1, p.2))
    else if c = braceL then (braceSpan t (d + 1)).map (fun p => (c :: p.1, p.2))
    else (braceSpan t d).map (fun p => (c :: p.1, p.2))

/-- Scan a bracket-quoted span (command substitution): the input follows
an opening bracket; return the content up to the matching closing
bracket and the remainder.  Brace-quoted stretches inside are opaque. -/
def bracketSpan : Nat → Str → Nat → Option (Str × Str)
  | 0, _, _ => none
  | _ + 1, [], _ => none
  | fuel + 1, c :: t, d =>
    if c = ']' then
      if d = 0 then some ([], t)
      else (bracketSpan fuel t (d - 1)).map (fun p => (c :: p.1, p.2))
    else if c = '[' then (bracketSpan fuel t (d + 1)).map (fun p => (c :: p.1, p.2))
    else if c = braceL then
      match braceSpan t 0 with
      | some (inner, rest) =>
        (bracketSpan fuel rest d).map (fun p => (braceL :: inner ++ braceR :: p.1, p.2))
      | none => none
    else (bracketSpan fuel t d).map (fun p => (c :: p.1, p.2))

/-- Scan to an unescaped closing double quote (escapes unmodelled). -/
def scanToQuote : Str → Option (Str × Str)
  | [] => none
  | c :: t =>
    if c = dquote then some ([], t)
    else if c = bslash then none
    else (scanToQuote t).map (fun p => (c :: p.1, p.2))

/-- Split a Tcl command string into its raw words (delimiters kept).
Models the word layer of the external interpreter's command parser for
the restricted grammar the module emits. -/
def splitCmdWords : Nat → Str → Option (List Str)
  | 0, _ => none
  | fuel + 1, s =>
    let s := s.dropWhile isPyWs
    match s with
    | [] => some []
    | c :: t =>
      if c = braceL then
        match braceSpan t 0 with
        | some (inner, rest) =>
          if rest.isEmpty || isPyWs (rest.headD ' ') then
            (splitCmdWords fuel rest).map (fun ws => (braceL :: inner ++ [braceR]) :: ws)
          else none
        | none => none
      else if c = '[' then
        match bracketSpan (t.length + 1) t 0 with
        | some (inner, rest) =>
          if rest.isEmpty || isPyWs (rest.headD ' ') then
            (splitCmdWords fuel rest).map (fun ws => ('[' :: inner ++ [']']) :: ws)
          else none
        | none => none
      else if c = dquote then
        match scanToQuote t with
        | some (inner, rest) =>
          if rest.isEmpty || isPyWs (rest.headD ' ') then
            (splitCmdWords fuel rest).map (fun ws => (dquote :: inner ++ [dquote]) :: ws)
          else none
        | none => none
      else
        let word := s.takeWhile (fun c => !isPyWs c)
        (splitCmdWords fuel (s.dropWhile (fun c => !isPyWs c))).map (fun ws => word :: ws)

/-- Characters that make a bare (unquoted) word unsafe to evaluate
without substitution; such words are outside the model. -/
def bareWordSpecials : List Char :=
  [' ', '\t', '\n', '\r', braceL, braceR, '[', ']', '$', dquote, bslash, ';']

/-- Characters forcing brace-quoting of an element in the canonical Tcl
list representation. -/
def reprSpecials : List Char :=
  [' ', '\t', '\n', '\r', braceL, braceR, '[', ']', '$', dquote, bslash, ';']

/-- Brace balance check (never dips negative, ends at zero depth). -/
def braceBalAux : Str → Nat → Bool
  | [], d => d = 0
  | c :: t, d =>
    if c = braceL then braceBalAux t (d + 1)
    else if c = braceR then
      match d with
      | 0 => false
      | d' + 1 => braceBalAux t d'
    else braceBalAux t d

/-- Quote one element for the canonical Tcl list representation. -/
def tclQuoteElem (e : Str) : Option Str :=
  if e.isEmpty then some [braceL, braceR]
  else if containsAny e reprSpecials then
    if braceBalAux e 0 && !(e.contains bslash) then some (braceL :: e ++ [braceR])
    else none
  else some e

/-- Canonical Tcl list representation of a sequence of elements (the
string produced by the `list` command). -/
def tclListRepr (elems : List Str) : Option Str :=
  (elems.mapM tclQuoteElem).map (joinWithChar ' ')

/-- Assemble `dict create` arguments into key/value pairs (later
duplicates override in place, insertion order kept). -/
def assembleDict (acc : List (Str × Str)) : List Str → Option (List (Str × Str))
  | [] => some acc
  | [_] => none
  | k :: v :: t => assembleDict (assocUpd acc k v) t

/-- Canonical Tcl dict value (list representation of the flat pairs). -/
def tclDictRepr (items : List Str) : Option Str := do
  let m ← assembleDict [] items
  tclListRepr (m.flatMap (fun p => [p.1, p.2]))

/-- Evaluate one Tcl word as the external interpreter would: strip one
level of quoting (braces or quotes), run `list` / `dict create` command
substitutions, return bare safe words verbatim.  Unmodelled or erroneous
words give `none` (a raised `TclError`). -/
def tclEvalWord : Nat → Str → Option Str
  | 0, _ => none
  | fuel + 1, w =>
    match w with
    | [] => none
    | c :: t =>
      if c = dquote then
        match t.getLast? with
        | some c' =>
          if c' = dquote then
            let mid := t.dropLast
            if containsAny mid [bslash, '$', '[', dquote] then none else some mid
          else none
        | none => none
      else if c = braceL then
        match braceSpan t 0 with
        | some (inner, rest) =>
          if rest.isEmpty && !(inner.contains bslash) then some inner else none
        | none => none
      else if c = '[' then
        match t.getLast? with
        | some ']' =>
          let inner := t.dropLast
          match splitCmdWords (inner.length + 1) inner with
          | some ws =>
            match ws.mapM (tclEvalWord fuel) with
            | some (cmd :: args) =>
              if cmd = chars "list" then tclListRepr args
              else if cmd = chars "dict" then
                match args with
                | sub :: rest => if sub = chars "create" then tclDictRepr rest else none
                | [] => none
              else none
            | _ => none
          | none => none
        | _ => none
      else if containsAny w bareWordSpecials then none
      else some w

/-- Split a string into Tcl list elements (`interp.splitlist`); braces
and quotes are special only at the start of an element; backslash
processing is outside the model. -/
def tclSplitList : Nat → Str → Option (List Str)
  | 0, _ => none
  | fuel + 1, s =>
    let s := s.dropWhile isPyWs
    match s with
    | [] => some []
    | c :: t =>
      if c = braceL then
        match braceSpan t 0 with
        | some (inner, rest) =>
          if rest.isEmpty || isPyWs (rest.headD ' ') then
            if inner.contains bslash then none
            else (tclSplitList fuel rest).map (fun es => inner :: es)
          else none
        | none => none
      else if c = dquote then
        match scanToQuote t with
        | some (inner, rest) =>
          if rest.isEmpty || isPyWs (rest.headD ' ') then
            (tclSplitList fuel rest).map (fun es => inner :: es)
          else none
        | none => none
      else
        let el := s.takeWhile (fun c => !isPyWs c)
        if el.contains bslash then none
        else (tclSplitList fuel (s.dropWhile (fun c => !isPyWs c))).map (fun es => el :: es)

/-- Fold alternating key/value items into a Python dict, modelling the
loop of lines 226-239.  Decoded keys that are not strings fall back to
the raw item text (the model keeps dict keys as strings). -/
def pyDictPairsWith (recur : Str → Option PyVal) :
    List (Str × PyVal) → List Str → Option (List (Str × PyVal))
  | acc, [] => some acc
  | acc, [_] => some acc
  | acc, k :: v :: t => do
    let pk ← recur k
    let pv ← recur v
    let key := match pk with | .vstr s => s | _ => k
    pyDictPairsWith recur (assocUpd acc key pv) t

/-- `value_format_tcl2py` (transform.py lines 165-246): decode a Tcl
value string into a Python value.  The fuel bounds the recursion depth
through nested list/dict literals; `none` models a raised exception. -/
def value_format_tcl2py : Nat → Str → Option PyVal
  | 0, _ => none
  | fuel + 1, v =>
    let recur := value_format_tcl2py fuel
    if v.isEmpty || v = [dquote, dquote] then some .vnone
    else
      match (if v.contains '.' then (pyParseFloat v).map PyVal.vfloat
             else (pyParseInt v).map PyVal.vint) with
      | some pv => some pv
      | none =>
        if v = ['1'] || strLower v = chars "true" then some (.vbool true)
        else if v = ['0'] || strLower v = chars "false" then some (.vbool false)
        else if (chars "[list ").isPrefixOf v && [']'].isSuffixOf v then
          let list_content := pyStrip ((v.drop 6).dropLast)
          if list_content.isEmpty then some (.vlist [])
          else do
            let r ← tclEvalWord (v.length + 1) v
            let items ← tclSplitList (r.length + 1) r
            let pvs ← items.mapM recur
            some (.vlist pvs)
        else if detect_tcl_list v [] then do
          let items ← tclSplitList (v.length + 1) v
          let pvs ← items.mapM recur
          some (.vlist pvs)
        else if (chars "[dict create ").isPrefixOf v && [']'].isSuffixOf v then
          let dict_content := pyStrip ((v.drop 12).dropLast)
          if dict_content.isEmpty then some (.vdict [])
          else
            match (do
              let r ← tclEvalWord (v.length + 1) v
              let items ← tclSplitList (r.length + 1) r
              pyDictPairsWith recur [] items) with
            | some m => some (.vdict m)
            | none => some (.vstr v)
        else some (.vstr v)

/-- The conversion modes of `tclinterp2dict`. -/
inductive ConvMode where
  | auto : ConvMode
  | mstr : ConvMode
  | mlist : ConvMode
deriving DecidableEq, Repr

/-- `convert_value` (transform.py lines 702-778): convert a Tcl value
string using explicit type information when present, the mode otherwise. -/
def convert_value (fuel : Nat) (mode : ConvMode) (value : Str)
    (var_type : Str) (var_name : Str) : Option PyVal :=
  if var_type ≠ chars "unknown" then
    if var_type = chars "list" then
      if (chars "[list ").isPrefixOf value && [']'].isSuffixOf value then
        value_format_tcl2py fuel value
      else if [braceL].isPrefixOf value && [braceR].isSuffixOf value then do
        let items ← tclSplitList (value.length + 1) ((value.drop 1).dropLast)
        let pvs ← items.mapM (value_format_tcl2py fuel)
        some (.vlist pvs)
      else do
        let items ← tclSplitList (value.length + 1) value
        let pvs ← items.mapM (value_format_tcl2py fuel)
        some (.vlist pvs)
    else if var_type = chars "bool" then
      some (.vbool (value = ['1'] || strLower value = chars "true"))
    else if var_type = chars "none" then some .vnone
    else if var_type = chars "number" then
      match (if value.contains '.' then (pyParseFloat value).map PyVal.vfloat
             else (pyParseInt value).map PyVal.vint) with
      | some pv => some pv
      | none => some (.vstr value)
    else some (.vstr value)
  else
    match mode with
    | .mstr => some (.vstr value)
    | .mlist =>
      if value.contains ' ' && !([braceL].isPrefixOf value && [braceR].isSuffixOf value) then do
        let items ← tclSplitList (value.length + 1) value
        let pvs ← items.mapM (value_format_tcl2py fuel)
        some (.vlist pvs)
      else value_format_tcl2py fuel value
    | .auto =>
      if (chars "[list ").isPrefixOf value && [']'].isSuffixOf value then
        value_format_tcl2py fuel value
      else if [braceL].isPrefixOf value && [braceR].isSuffixOf value then
        some (.vstr ((value.drop 1).dropLast))
      else if !(value.contains ' ') then value_format_tcl2py fuel value
      else
        let items := pySplitWs value
        let all_numbers := items.all pyFloatOk
        if all_numbers && items.length > 1 then
          (items.mapM (fun (it : Str) =>
            if it.contains '.' then (pyParseFloat it).map PyVal.vfloat
            else (pyParseInt it).map PyVal.vint)).map PyVal.vlist
        else if !var_name.isEmpty &&
            listHintNames.any (fun h => strInfix h (strLower var_name)) &&
            items.length > 1 then
          some (.vlist (items.map PyVal.vstr))
        else some (.vstr value)

/-- An interpreter variable: a scalar textual value or an array (index
string to scalar textual value). -/
inductive TclVar where
  | scalar (v : Str) : TclVar
  | arrayVar (entries : List (Str × Str)) : TclVar
deriving DecidableEq, Repr

/-- The interpreter namespace: defined variables in insertion order
(the model fixes `info vars` enumeration to insertion order). -/
structure TclState where
  vars : List (Str × TclVar)
deriving DecidableEq, Repr

/-- The reserved name of the type-metadata array. -/
def typesName : Str := chars "__configkit_types__"

/-- `set name value` for a scalar: error when the name holds an array. -/
def tclSetScalar (st : TclState) (name : Str) (v : Str) : Option TclState :=
  match assocLookup st.vars name with
  | some (.arrayVar _) => none
  | _ => some ⟨assocUpd st.vars name (.scalar v)⟩

/-- `set name(idx) value`: error when the name holds a scalar. -/
def tclSetArrayEntry (st : TclState) (name idx : Str) (v : Str) : Option TclState :=
  match assocLookup st.vars name with
  | some (.scalar _) => none
  | some (.arrayVar es) => some ⟨assocUpd st.vars name (.arrayVar (assocUpd es idx v))⟩
  | none => some ⟨st.vars ++ [(name, .arrayVar [(idx, v)])]⟩

/-- `array set name {}` (line 265): create the array when absent; error
when the name holds a scalar. -/
def tclArraySetEmpty (st : TclState) (name : Str) : Option TclState :=
  match assocLookup st.vars name with
  | some (.scalar _) => none
  | some (.arrayVar _) => some st
  | none => some ⟨st.vars ++ [(name, .arrayVar [])]⟩

/-- The type tag recorded for a value (lines 284-293); a dict never
reaches this point because `_set_tcl_var` recurses through dicts. -/
def pyTypeTag : PyVal → Str
  | .vlist _ => chars "list"
  | .vbool _ => chars "bool"
  | .vnone => chars "none"
  | .vint _ => chars "number"
  | .vfloat _ => chars "number"
  | _ => chars "string"

mutual
/-- `_set_tcl_var` (transform.py lines 267-301): flatten one value into
the namespace, recording its type tag in the metadata array. -/
def set_tcl_var (st : TclState) (name : Str) : PyVal → List Str → Option TclState
  | .vdict m, parents => set_tcl_var_entries st name m parents
  | v, parents => do
    let w := value_format_py2tcl v
    let tkey := if parents.isEmpty then name
                else name ++ '(' :: joinWithChar ',' parents ++ [')']
    let st1 ← tclSetArrayEntry st typesName tkey (pyTypeTag v)
    let sv ← tclEvalWord (w.length + 1) w
    if parents.isEmpty then tclSetScalar st1 name sv
    else tclSetArrayEntry st1 name (joinWithChar ',' parents) sv

/-- Iterate `_set_tcl_var` over the items of a nested dict (line 272). -/
def set_tcl_var_entries (st : TclState) (name : Str) :
    List (Str × PyVal) → List Str → Option TclState
  | [], _ => some st
  | (k, v) :: t, parents => do
    let st1 ← set_tcl_var st name v (parents ++ [k])
    set_tcl_var_entries st1 name t parents
end

/-- Iterate `_set_tcl_var` over the top-level items (lines 303-304). -/
def dict2tclinterpLoop (st : TclState) : PyDict → Option TclState
  | [] => some st
  | (k, v) :: t => do
    let st1 ← set_tcl_var st k v []
    dict2tclinterpLoop st1 t

/-- `dict2tclinterp` (transform.py lines 249-306). -/
def dict2tclinterp (data : PyDict) (st0 : TclState) : Option TclState := do
  let st1 ← tclArraySetEmpty st0 typesName
  dict2tclinterpLoop st1 data

/-- The empty interpreter state (a fresh interpreter; the built-in Tcl
variables of a real interpreter are omitted — they all match the
exclusion filter or are never produced by this module). -/
def emptyTclState : TclState := ⟨[]⟩

/-- Exact exclusion names of lines 572-573 and 782-783. -/
def excludedVarNames : List Str :=
  [chars "errorInfo", chars "errorCode", chars "env", chars "argv0",
   chars "_tkinter_skip_tk_init", chars "__configkit_types__"]

/-- The skip test for interpreter-internal/system variables. -/
def isExcludedVar (n : Str) : Bool :=
  (chars "tcl_").isPrefixOf n || (chars "auto_").isPrefixOf n ||
    excludedVarNames.contains n

/-- `get_var_type` (lines 688-699): the recorded type tag for a metadata
key, `"unknown"` when the metadata array or the entry is absent. -/
def lookupTypeTag (st : TclState) (key : Str) : Str :=
  match assocLookup st.vars typesName with
  | some (.arrayVar es) =>
    match assocLookup es key with
    | some t => t
    | none => chars "unknown"
  | _ => chars "unknown"

/-- Nested placement of one decoded array entry (lines 807-820): each
comma-separated index segment is one level of nesting; an intermediate
non-dict value is silently replaced by a fresh dict. -/
def insertPath (d : PyDict) : List Str → PyVal → PyDict
  | [], _ => d
  | [k], v => assocUpd d k v
  | k :: ks, v =>
    let sub := match assocLookup d k with
      | some (.vdict m) => m
      | _ => []
    assocUpd d k (.vdict (insertPath sub ks v))

/-- Decode the entries of one array into a nested dict (lines 795-825);
an entry whose conversion fails is skipped. -/
def convertArrayEntries (st : TclState) (mode : ConvMode) (var : Str) :
    PyDict → List (Str × Str) → PyDict
  | vd, [] => vd
  | vd, (idx, v) :: t =>
    let key := var ++ '(' :: idx ++ [')']
    let var_type := lookupTypeTag st key
    match convert_value (v.length + 1) mode v var_type key with
    | none => convertArrayEntries st mode var vd t
    | some pv =>
      let vd' := if idx.contains ',' then insertPath vd (splitOnChar ',' idx) pv
                 else assocUpd vd idx pv
      convertArrayEntries st mode var vd' t

/-- The variable walk of `tclinterp2dict` (lines 780-842). -/
def tclinterp2dictLoop (st : TclState) (mode : ConvMode) :
    List (Str × TclVar) → PyDict → PyDict
  | [], acc => acc
  | (name, var) :: t, acc =>
    if isExcludedVar name then tclinterp2dictLoop st mode t acc
    else
      match var with
      | .scalar v =>
        match convert_value (v.length + 1) mode v (lookupTypeTag st name) name with
        | some pv => tclinterp2dictLoop st mode t (acc ++ [(name, pv)])
        | none => tclinterp2dictLoop st mode t acc
      | .arrayVar es =>
        let vd := convertArrayEntries st mode name [] es
        if vd.isEmpty then tclinterp2dictLoop st mode t acc
        else tclinterp2dictLoop st mode t (acc ++ [(name, .vdict vd)])

/-- `tclinterp2dict` (transform.py lines 664-842). -/
def tclinterp2dict (st : TclState) (mode : ConvMode) : PyDict :=
  tclinterp2dictLoop st mode st.vars []

/-- Brace-quote a value for the serialized file when it contains a space
or a special character (lines 588 and 604). -/
def quoteForFile (v : Str) : Str :=
  if v.contains ' ' || containsAny v [braceL, braceR, '[', ']', '$', dquote, bslash] then
    braceL :: v ++ [braceR]
  else v

/-- Serialized assignment lines for a list of variables, without the
exclusion filter. -/
def writeMainVars : List (Str × TclVar) → List Str
  | [] => []
  | (name, .scalar v) :: t =>
    (chars "set " ++ name ++ ' ' :: quoteForFile v) :: writeMainVars t
  | (name, .arrayVar es) :: t =>
    es.map (fun p => chars "set " ++ name ++ '(' :: p.1 ++ ')' :: ' ' :: quoteForFile p.2)
      ++ writeMainVars t

/-- The regular-variable section of `_write_tcl_vars_to_file` (lines
567-610): skip excluded names, write one assignment per scalar and per
array index. -/
def writeMainSection : List (Str × TclVar) → List Str
  | [] => []
  | (name, var) :: t =>
    if isExcludedVar name then writeMainSection t
    else
      match var with
      | .scalar v => (chars "set " ++ name ++ ' ' :: quoteForFile v) :: writeMainSection t
      | .arrayVar es =>
        es.map (fun p => chars "set " ++ name ++ '(' :: p.1 ++ ')' :: ' ' :: quoteForFile p.2)
          ++ writeMainSection t

/-- The type-information section of `_write_tcl_vars_to_file` (lines
612-634): present only when the metadata array exists, under its own
header comment. -/
def writeTypeSection (st : TclState) : List Str :=
  match assocLookup st.vars typesName with
  | some (.arrayVar es) =>
    [] :: chars "# Type information for configkit"
       :: (chars "array set __configkit_types__ " ++ [braceL, braceR])
       :: es.map (fun p =>
            chars "set __configkit_types__(" ++ quoteForFile p.1 ++ ')' :: ' ' :: p.2)
  | _ => []

/-- `_write_tcl_vars_to_file` (transform.py lines 564-634), modelled as
the list of lines written. -/
def write_tcl_vars_to_file (st : TclState) : List Str :=
  writeMainSection st.vars ++ writeTypeSection st

mutual
/-- `merge_dict` (transform.py lines 15-44): recursive merge; dict
conflicts merge recursively, list conflicts concatenate, anything else
takes the second operand's value. -/
def merge_dict (d1 : PyDict) : PyDict → PyDict
  | [] => d1
  | (k, v) :: t => merge_dict (mergeOne d1 k v) t

/-- One item of the merge loop (lines 29-42): dict/dict conflicts merge
recursively, list/list conflicts concatenate, anything else takes the
second operand's value; a fresh key is appended. -/
def mergeOne (d1 : PyDict) (k : Str) : PyVal → PyDict
  | .vdict m2 =>
    match assocLookup d1 k with
    | some (.vdict m1) => assocUpd d1 k (.vdict (merge_dict m1 m2))
    | some _ => assocUpd d1 k (.vdict m2)
    | none => d1 ++ [(k, .vdict m2)]
  | v =>
    match assocLookup d1 k with
    | some old =>
      match old, v with
      | .vlist l1, .vlist l2 => assocUpd d1 k (.vlist (l1 ++ l2))
      | _, _ => assocUpd d1 k v
    | none => d1 ++ [(k, v)]
end

/-- Content of a file as seen after the external parser/loader ran: a
YAML file parses to a mapping, sourcing a Tcl file yields an interpreter
state.  The filesystem and the external parsers are modelled abstractly
(they are external collaborators per the design document). -/
inductive FileContent where
  | yamlFile (d : PyDict) : FileContent
  | tclFile (st : TclState) : FileContent
deriving Repr

/-- The modelled filesystem: existing paths with their parsed content. -/
abbrev FileSys := List (Str × FileContent)

/-- `os.path.exists` over the modelled filesystem. -/
def pathExists (fs : FileSys) (p : Str) : Bool := (assocLookup fs p).isSome

/-- Lower-cased extension of a path, modelling
`os.path.splitext(p)[1].lower()` for ordinary names. -/
def fileExt (p : Str) : Str :=
  let revAfter := p.reverse.takeWhile (fun c => !(c = '.' || c = '/'))
  match p.reverse.drop revAfter.length with
  | '.' :: _ => strLower ('.' :: revAfter.reverse)
  | _ => []

/-- Error conditions of `files2dict`. -/
inductive FileErr where
  | fileNotFound (p : Str) : FileErr
  | parseErr (p : Str) : FileErr
  | noInput : FileErr
deriving DecidableEq, Repr

/-- The per-path step of `files2dict` (lines 500-529): missing path is a
file-not-found error; a YAML path merges its parsed mapping (empty files
skipped); a Tcl path merges `tclinterp2dict` of its loaded state; other
extensions contribute nothing. -/
def files2dictStep (fs : FileSys) (mode : ConvMode) (acc : PyDict) (p : Str) :
    Except FileErr PyDict :=
  match assocLookup fs p with
  | none => .error (.fileNotFound p)
  | some content =>
    let ext := fileExt p
    if ext = chars ".yaml" || ext = chars ".yml" then
      match content with
      | .yamlFile d => .ok (if d.isEmpty then acc else merge_dict acc d)
      | _ => .error (.parseErr p)
    else if ext = chars ".tcl" || ext = chars ".tk" then
      match content with
      | .tclFile st => .ok (merge_dict acc (tclinterp2dict st mode))
      | _ => .error (.parseErr p)
    else .ok acc

/-- The path loop of `files2dict`: with `skip_errors` a failing path is
silently dropped, otherwise the error is raised. -/
def files2dictLoop (fs : FileSys) (mode : ConvMode) (skip_errors : Bool) :
    PyDict → List Str → Except FileErr PyDict
  | acc, [] => .ok acc
  | acc, p :: t =>
    match files2dictStep fs mode acc p with
    | .ok acc' => files2dictLoop fs mode skip_errors acc' t
    | .error e =>
      if skip_errors then files2dictLoop fs mode skip_errors acc t
      else .error e

/-- `files2dict` (transform.py lines 475-534). -/
def files2dict (fs : FileSys) (paths : List Str) (mode : ConvMode)
    (skip_errors : Bool) : Except FileErr PyDict :=
  if paths.isEmpty then .error .noInput
  else files2dictLoop fs mode skip_errors [] paths

/-- A Python heap object for the frame analysis of `merge_dict`: a dict
maps keys to addresses, a list holds element addresses, anything else is
an immutable atom. -/
inductive HObj where
  | hdict (entries : List (Str × Nat)) : HObj
  | hlist (elems : List Nat) : HObj
  | hatom (v : PyVal) : HObj
deriving DecidableEq, Repr

/-- A heap: the next fresh address and the allocated objects. -/
structure Heap where
  next : Nat
  objs : List (Nat × HObj)
deriving DecidableEq, Repr

/-- Object held at an address. -/
def heapGet (h : Heap) (a : Nat) : Option HObj := assocLookup h.objs a

/-- Allocate a new object at a fresh address. -/
def heapAlloc (h : Heap) (o : HObj) : Heap × Nat :=
  (⟨h.next + 1, h.objs ++ [(h.next, o)]⟩, h.next)

/-- Overwrite the object at an existing address (in-place mutation). -/
def heapSet (h : Heap) (a : Nat) (o : HObj) : Heap :=
  ⟨h.next, assocUpd h.objs a o⟩

/-- Heap well-formedness: every allocated address is below `next`. -/
def heapWfB (h : Heap) : Bool := h.objs.all (fun p => p.1 < h.next)

/-- The item loop of `merge_dict` over the heap: `r` is the address of
the freshly allocated result dict, `mergeRec` the recursive merge for
nested dict/dict conflicts. -/
def merge_dict_heapLoop (mergeRec : Heap → Nat → Nat → Option (Heap × Nat)) :
    Heap → Nat → List (Str × Nat) → Option (Heap × Nat)
  | h, r, [] => some (h, r)
  | h, r, (k, v2) :: t =>
    match heapGet h r with
    | some (.hdict resEntries) =>
      match assocLookup resEntries k with
      | some v1 =>
        match heapGet h v1, heapGet h v2 with
        | some (.hdict _), some (.hdict _) =>
          match mergeRec h v1 v2 with
          | some (h1, m) =>
            match heapGet h1 r with
            | some (.hdict es) =>
              merge_dict_heapLoop mergeRec (heapSet h1 r (.hdict (assocUpd es k m))) r t
            | _ => none
          | none => none
        | some (.hlist l1), some (.hlist l2) =>
          let p := heapAlloc h (.hlist (l1 ++ l2))
          match heapGet p.1 r with
          | some (.hdict es) =>
            merge_dict_heapLoop mergeRec (heapSet p.1 r (.hdict (assocUpd es k p.2))) r t
          | _ => none
        | _, _ =>
          merge_dict_heapLoop mergeRec (heapSet h r (.hdict (assocUpd resEntries k v2))) r t
      | none =>
        merge_dict_heapLoop mergeRec (heapSet h r (.hdict (assocUpd resEntries k v2))) r t
    | _ => none

/-- `merge_dict` over an explicit heap with object identities
(transform.py lines 15-44): `result = dict1.copy()` allocates a fresh
dict, each conflict resolution assigns into that fresh dict only. -/
def merge_dict_heap : Nat → Heap → Nat → Nat → Option (Heap × Nat)
  | 0, _, _, _ => none
  | fuel + 1, h, a1, a2 =>
    match heapGet h a1, heapGet h a2 with
    | some (.hdict es1), some (.hdict es2) =>
      let p := heapAlloc h (.hdict es1)
      merge_dict_heapLoop (merge_dict_heap fuel) p.1 p.2 es2
    | _, _ => none

/-- Well-formedness of a model float: nonempty integer and fractional
digit lists, digits below ten (the shape `str` of a plain float has). -/
def wfFloat (f : PyFloat) : Bool :=
  !f.ip.isEmpty && !f.fp.isEmpty && f.ip.all (· < 10) && f.fp.all (· < 10)

/-- The value is a Python dict. -/
def isDictV : PyVal → Bool | .vdict _ => true | _ => false

/-- The value is a Python list. -/
def isListV : PyVal → Bool | .vlist _ => true | _ => false

/-- Wrapper/whitespace/token conditions of claim C2, following the
claim's words (for comparison with the code's `detect_tcl_list`): not an
explicit list or mapping wrapper, not brace-wrapped, contains
whitespace, and all-numeric tokens or a name hint with two or more
tokens. -/
def detect_claimed (v n : Str) : Bool :=
  !(((chars "[list ").isPrefixOf v && [']'].isSuffixOf v) ||
    ((chars "[dict create ").isPrefixOf v && [']'].isSuffixOf v)) &&
  !([braceL].isPrefixOf v && [braceR].isSuffixOf v) &&
  v.any isPyWs &&
  (((pySplitWs v).all pyFloatOk && (pySplitWs v).length ≥ 2) ||
   (listHintNames.any (fun h => strInfix h (strLower n)) && (pySplitWs v).length ≥ 2))

/-- The nested mapping of the C6 example. -/
def c6dict : PyDict :=
  [(chars "a", .vdict [(chars "b", .vint 1), (chars "c", .vdict [(chars "d", .vint 2)])])]

/-- The namespace the C6 example flattens to. -/
def c6state : TclState :=
  ⟨[(typesName, .arrayVar [(chars "a(b)", chars "number"), (chars "a(c,d)", chars "number")]),
    (chars "a", .arrayVar [(chars "b", chars "1"), (chars "c,d", chars "2")])]⟩

/-- A path whose extension and parsed content agree (no parse error). -/
def stepClean (fs : FileSys) (p : Str) : Bool :=
  match assocLookup fs p with
  | none => true
  | some c =>
    let ext := fileExt p
    if ext = chars ".yaml" || ext = chars ".yml" then
      match c with | .yamlFile _ => true | _ => false
    else if ext = chars ".tcl" || ext = chars ".tk" then
      match c with | .tclFile _ => true | _ => false
    else true

/-- The exclusion set claim C8 names: the metadata array name, the
`tcl_`/`auto_` prefixes, and the four listed system names. -/
def isExcludedOutB (k : Str) : Bool :=
  k = typesName || (chars "tcl_").isPrefixOf k || (chars "auto_").isPrefixOf k ||
    [chars "errorInfo", chars "errorCode", chars "env", chars "argv0"].contains k


/-- A character that a bare Tcl word may safely contain. -/
def plainBareChar (c : Char) : Bool := !(bareWordSpecials.contains c)

/-- A string usable as a list element token: nonempty, only plain
characters, not numeric, not a boolean literal. -/
def safeStrToken (s : Str) : Bool :=
  !s.isEmpty && s.all plainBareChar &&
  (if s.contains '.' then !(pyParseFloat s).isSome else !(pyParseInt s).isSome) &&
  !(strLower s = chars "true") && !(strLower s = chars "false")

/-- List elements that survive the round trip: ints, well-formed
floats, and safe string tokens. -/
def safeListElem : PyVal → Bool
  | .vint _ => true
  | .vfloat f => wfFloat f
  | .vstr s => safeStrToken s
  | _ => false

/-- A string leaf that survives storage: nonempty, free of braces,
backslash and semicolon (space and the other special characters are
handled by brace-quoting). -/
def safeLeafStr (s : Str) : Bool :=
  !s.isEmpty && s.all (fun c => !(c = braceL || c = braceR || c = bslash || c = ';'))

/-- Characters allowed in a mapping key (variable name / index segment). -/
def safeKeyChar (c : Char) : Bool := c.isAlpha || c.isDigit || c = '_' || c = '-'

/-- A safe mapping key. -/
def safeKey (k : Str) : Bool := !k.isEmpty && k.all safeKeyChar

/-- A safe top-level key: additionally not an excluded variable name. -/
def safeTopKey (k : Str) : Bool := safeKey k && !(isExcludedVar k)

/-- Key lists without duplicates. -/
def nodupKeysB : List Str → Bool
  | [] => true
  | k :: t => !(t.contains k) && nodupKeysB t

mutual
/-- Values for which the typed round trip is exact: nested dicts are
nonempty with safe, duplicate-free keys; list elements are scalars of
the safe kinds; strings avoid the characters that break storage. -/
def safeVal : PyVal → Bool
  | .vnone => true
  | .vbool _ => true
  | .vint _ => true
  | .vfloat f => wfFloat f
  | .vstr s => safeLeafStr s
  | .vlist l => l.all safeListElem
  | .vdict m => !m.isEmpty && nodupKeysB (m.map Prod.fst) && safeEntries m

/-- Entry-wise safety of a nested dict. -/
def safeEntries : List (Str × PyVal) → Bool
  | [] => true
  | (k, v) :: t => safeKey k && safeVal v && safeEntries t
end

/-- A safe root mapping: duplicate-free safe top keys, safe values. -/
def safeRootDict (d : PyDict) : Bool :=
  nodupKeysB (d.map Prod.fst) && d.all (fun kv => safeTopKey kv.1 && safeVal kv.2)

mutual
/-- The scalar text the interpreter stores for a safe leaf or list
value (the evaluation of its encoded word). -/
def storedVal : PyVal → Str
  | .vnone => []
  | .vbool b => if b then ['1'] else ['0']
  | .vint n => intStr n
  | .vfloat f => floatStr f
  | .vstr s => s
  | .vlist l => joinWithChar ' ' (storedElems l)
  | .vdict _ => []

/-- Stored texts of list elements. -/
def storedElems : List PyVal → List Str
  | [] => []
  | v :: t => storedVal v :: storedElems t
end

mutual
/-- Leaves of a value with their key paths (empty path for a non-dict). -/
def leafPaths : PyVal → List (List Str × PyVal)
  | .vdict m => leafPathsEntries m
  | v => [([], v)]

/-- Leaves of a dict's entries with their key paths. -/
def leafPathsEntries : List (Str × PyVal) → List (List Str × PyVal)
  | [] => []
  | (k, v) :: t => (leafPaths v).map (fun p => (k :: p.1, p.2)) ++ leafPathsEntries t
end

/-- The metadata key recorded for a path under a variable name. -/
def typeKeyOf (name : Str) (path : List Str) : Str :=
  if path.isEmpty then name else name ++ '(' :: joinWithChar ',' path ++ [')']

/-- All metadata entries recorded for one top-level entry. -/
def typeEntriesFor (name : Str) (v : PyVal) : List (Str × Str) :=
  (leafPaths v).map (fun p => (typeKeyOf name p.1, pyTypeTag p.2))

/-- The variable one top-level entry flattens to. -/
def varFor : PyVal → TclVar
  | .vdict m => .arrayVar ((leafPathsEntries m).map
      (fun p => (joinWithChar ',' p.1, storedVal p.2)))
  | v => .scalar (storedVal v)

/-- The interpreter state `dict2tclinterp` builds from a safe mapping. -/
def expectedState (d : PyDict) : TclState :=
  ⟨(typesName, .arrayVar (d.flatMap (fun kv => typeEntriesFor kv.1 kv.2))) ::
    d.map (fun kv => (kv.1, varFor kv.2))⟩


def flattenOps (name : Str) : TclState → List (Str × Str × Str × Str) → Option TclState
  | st, [] => some st
  | st, o :: rest => do
    let st1 ← tclSetArrayEntry st typesName o.1 o.2.1
    let st2 ← tclSetArrayEntry st1 name o.2.2.1 o.2.2.2
    flattenOps name st2 rest

def opOf (name : Str) (parents : List Str) (q : List Str × PyVal) : Str × Str × Str × Str :=
  (typeKeyOf name (parents ++ q.1), pyTypeTag q.2,
    joinWithChar ',' (parents ++ q.1), storedVal q.2)

def insertLeaves (vd : PyDict) : List (List Str × PyVal) → PyDict
  | [] => vd
  | q :: t => insertLeaves (insertPath vd q.1 q.2) t

/-- A representative safe mapping exercising every leaf kind and a
nested sub-mapping, used to witness the amended round-trip theorem. -/
def c1SafeDict : PyDict :=
  [(chars "alpha", .vint 42),
   (chars "beta", .vdict [(chars "x", .vbool true),
     (chars "y", .vdict [(chars "z", .vstr (chars "hello world"))])]),
   (chars "gamma", .vlist [.vint 1, .vint 2]),
   (chars "delta", .vnone)]

theorem digitVal_digitChar (d : Nat) (h : d < 10) : digitVal (digitChar d) = some d := by
  interval_cases d <;> rfl

theorem digitChar_ne_signs (d : Nat) (h : d < 10) :
    digitChar d ≠ '-' ∧ digitChar d ≠ '+' ∧ digitChar d ≠ '.' := by
  interval_cases d <;> exact ⟨by decide, by decide, by decide⟩

theorem natDigitsRev_lt (fuel n : Nat) : ∀ d ∈ natDigitsRev fuel n, d < 10 := by
  induction fuel generalizing n with
  | zero => intro d hd; simp [natDigitsRev] at hd
  | succ f ih =>
    intro d hd
    by_cases h0 : n = 0
    · simp [natDigitsRev, h0] at hd
    · simp only [natDigitsRev, if_neg h0, List.mem_cons] at hd
      rcases hd with rfl | hd
      · omega
      · exact ih _ d hd

theorem natDigitsRev_ne_nil (fuel n : Nat) (h : n ≤ fuel) (h0 : n ≠ 0) :
    natDigitsRev fuel n ≠ [] := by
  cases fuel with
  | zero => omega
  | succ f => simp [natDigitsRev, h0]

theorem foldl_natDigitsRev (fuel : Nat) : ∀ n a : Nat, n ≤ fuel →
    ((natDigitsRev fuel n).reverse).foldl (fun a d => a * 10 + d) a =
      a * 10 ^ (natDigitsRev fuel n).length + n := by
  induction fuel with
  | zero => intro n a h; interval_cases n; simp [natDigitsRev]
  | succ f ih =>
    intro n a h
    by_cases h0 : n = 0
    · simp [natDigitsRev, h0]
    · simp only [natDigitsRev, if_neg h0, List.reverse_cons, List.foldl_append,
        List.length_cons]
      rw [ih (n / 10) a (by omega)]
      simp only [List.foldl_cons, List.foldl_nil]
      have hmod := Nat.div_add_mod n 10
      ring_nf
      omega

theorem foldlM_digitChars (ds : List Nat) (h : ∀ d ∈ ds, d < 10) : ∀ a : Nat,
    List.foldlM (fun a c => (digitVal c).map (fun d => a * 10 + d)) a (ds.map digitChar) =
      some (ds.foldl (fun a d => a * 10 + d) a) := by
  induction ds with
  | nil => intro a; rfl
  | cons d t ih =>
    intro a
    have hd : d < 10 := h d (List.mem_cons_self d t)
    simp only [List.map_cons, List.foldlM_cons, digitVal_digitChar d hd, Option.map_some',
      Option.bind_some, List.foldl_cons]
    exact ih (fun x hx => h x (List.mem_cons_of_mem _ hx)) (a * 10 + d)

theorem parseDigits_natStr (n : Nat) : parseDigits (natStr n) = some n := by
  by_cases h0 : n = 0
  · subst h0; rfl
  · have hne := natDigitsRev_ne_nil n n le_rfl h0
    have hlt := natDigitsRev_lt n n
    unfold natStr parseDigits
    rw [if_neg h0]
    have hlt' : ∀ d ∈ (natDigitsRev n n).reverse, d < 10 := by
      intro d hd; exact hlt d (List.mem_reverse.mp hd)
    rw [if_neg (by simp; exact hne)]
    rw [foldlM_digitChars _ hlt' 0, foldl_natDigitsRev n n 0 le_rfl]
    simp

theorem natStr_head_digit (m : Nat) :
    ∃ d t, d < 10 ∧ natStr m = digitChar d :: t := by
  by_cases h0 : m = 0
  · exact ⟨0, [], by omega, by simp [h0, natStr]; rfl⟩
  · have hne := natDigitsRev_ne_nil m m le_rfl h0
    have hlt := natDigitsRev_lt m m
    unfold natStr
    rw [if_neg h0]
    rcases hrev : (natDigitsRev m m).reverse with _ | ⟨d, t⟩
    · exact absurd (by simpa using congrArg List.reverse hrev) hne
    · refine ⟨d, t.map digitChar, ?_, by simp⟩
      exact hlt d (List.mem_reverse.mp (hrev ▸ List.mem_cons_self d t))

theorem pyParseInt_intStr (n : Int) : pyParseInt (intStr n) = some n := by
  obtain ⟨d, t, hd, hnat⟩ := natStr_head_digit n.natAbs
  have hsigns := digitChar_ne_signs d hd
  by_cases hneg : n < 0
  · unfold intStr
    rw [if_pos hneg]
    have hred : pyParseInt ('-' :: natStr n.natAbs) =
        (parseDigits (natStr n.natAbs)).map (fun m => -(m : Int)) := by
      simp [pyParseInt]
    rw [hred, parseDigits_natStr]
    simp
    rw [abs_of_neg hneg]
    ring
  · unfold intStr
    rw [if_neg hneg, hnat]
    have hred : pyParseInt (digitChar d :: t) =
        (parseDigits (digitChar d :: t)).map (fun m => (m : Int)) := by
      simp [pyParseInt, hsigns.1, hsigns.2.1]
    rw [hred, ← hnat, parseDigits_natStr]
    simp
    omega

theorem spanDigits_append (ds : List Nat) (r : Str) (h : ∀ d ∈ ds, d < 10)
    (hr : r = [] ∨ ∃ c t, r = c :: t ∧ digitVal c = none) :
    spanDigits (ds.map digitChar ++ r) = (ds, r) := by
  induction ds with
  | nil =>
    rcases hr with rfl | ⟨c, t, rfl, hc⟩
    · rfl
    · simp [spanDigits, hc]
  | cons d t ih =>
    have hd : d < 10 := h d (List.mem_cons_self d t)
    simp [List.map_cons, List.cons_append, spanDigits,
      digitVal_digitChar d hd, ih (fun x hx => h x (List.mem_cons_of_mem _ hx))]

theorem pyParseFloatAux_digits (sgn : Bool) (ip fp : List Nat) (hip : ip ≠ [])
    (hiplt : ∀ d ∈ ip, d < 10) (hfplt : ∀ d ∈ fp, d < 10) :
    pyParseFloatAux sgn (ip.map digitChar ++ '.' :: fp.map digitChar) =
      some ⟨sgn, ip, fp⟩ := by
  have hspan1 : spanDigits (ip.map digitChar ++ '.' :: fp.map digitChar) =
      (ip, '.' :: fp.map digitChar) :=
    spanDigits_append ip _ hiplt (Or.inr ⟨'.', _, rfl, rfl⟩)
  have hspan2 : spanDigits (fp.map digitChar) = (fp, []) := by
    simpa using spanDigits_append fp [] hfplt (Or.inl rfl)
  simp only [pyParseFloatAux]
  rw [hspan1]
  simp only [hspan2]
  simp [hip]

theorem pyParseFloat_floatStr (f : PyFloat) (hwf : wfFloat f = true) :
    pyParseFloat (floatStr f) = some f := by
  obtain ⟨neg, ip, fp⟩ := f
  simp only [wfFloat, Bool.and_eq_true, Bool.not_eq_true', List.isEmpty_eq_false,
    List.all_eq_true, decide_eq_true_eq] at hwf
  obtain ⟨⟨⟨hip, hfp⟩, hiplt⟩, hfplt⟩ := hwf
  cases hneg : neg with
  | true =>
    show pyParseFloat ('-' :: (ip.map digitChar ++ '.' :: fp.map digitChar)) = _
    rw [show pyParseFloat ('-' :: (ip.map digitChar ++ '.' :: fp.map digitChar)) =
      pyParseFloatAux true (ip.map digitChar ++ '.' :: fp.map digitChar) from by
        simp [pyParseFloat]]
    exact pyParseFloatAux_digits true ip fp hip hiplt hfplt
  | false =>
    rcases hip2 : ip with _ | ⟨d, ipt⟩
    · exact absurd hip2 hip
    · have hd : d < 10 := hiplt d (by rw [hip2]; exact List.mem_cons_self d ipt)
      have hsigns := digitChar_ne_signs d hd
      show pyParseFloat ((d :: ipt).map digitChar ++ '.' :: fp.map digitChar) = _
      rw [show pyParseFloat ((d :: ipt).map digitChar ++ '.' :: fp.map digitChar) =
        pyParseFloatAux false ((d :: ipt).map digitChar ++ '.' :: fp.map digitChar) from by
          simp [pyParseFloat, hsigns.1, hsigns.2.1]]
      rw [← hip2]
      exact pyParseFloatAux_digits false ip fp hip hiplt hfplt

theorem assocLookup_upd_self {α β : Type} [DecidableEq α] (l : List (α × β)) (k : α) (v : β) :
    assocLookup (assocUpd l k v) k = some v := by
  induction l with
  | nil => simp [assocUpd, assocLookup]
  | cons p t ih =>
    obtain ⟨k', v'⟩ := p
    by_cases h : k' = k <;> simp [assocUpd, assocLookup, h, ih]

theorem assocLookup_upd_ne {α β : Type} [DecidableEq α] (l : List (α × β)) (k' : α) (v : β)
    (k : α) (h : k' ≠ k) : assocLookup (assocUpd l k' v) k = assocLookup l k := by
  induction l with
  | nil => simp [assocUpd, assocLookup, h]
  | cons p t ih =>
    obtain ⟨k0, v0⟩ := p
    by_cases h0 : k0 = k' <;> simp [assocUpd, assocLookup, h0, ih]
    subst h0; simp [h]

theorem assocLookup_append_ne {α β : Type} [DecidableEq α] (l : List (α × β)) (k' : α) (v : β)
    (k : α) (h : k' ≠ k) : assocLookup (l ++ [(k', v)]) k = assocLookup l k := by
  induction l with
  | nil => simp [assocLookup, h]
  | cons p t ih =>
    obtain ⟨k0, v0⟩ := p
    by_cases h0 : k0 = k <;> simp [assocLookup, h0, ih]

theorem merge_dict_cons (d1 : PyDict) (k : Str) (v : PyVal) (t : PyDict) :
    merge_dict d1 ((k, v) :: t) = merge_dict (mergeOne d1 k v) t := by
  cases v <;> rfl

theorem mergeOne_lookup_ne (d1 : PyDict) (k0 : Str) (v0 : PyVal) (k : Str) (h : k0 ≠ k) :
    assocLookup (mergeOne d1 k0 v0) k = assocLookup d1 k := by
  cases v0 <;> simp only [mergeOne] <;> split <;>
    first
      | exact assocLookup_append_ne _ _ _ _ h
      | exact assocLookup_upd_ne _ _ _ _ h
      | (split <;> exact assocLookup_upd_ne _ _ _ _ h)

theorem merge_dict_lookup_notin (d2 : PyDict) (d1 : PyDict) (k : Str)
    (h : k ∉ d2.map Prod.fst) :
    assocLookup (merge_dict d1 d2) k = assocLookup d1 k := by
  induction d2 generalizing d1 with
  | nil => rfl
  | cons p t ih =>
    obtain ⟨k0, v0⟩ := p
    simp only [List.map_cons, List.mem_cons] at h
    push_neg at h
    rw [merge_dict_cons, ih _ h.2]
    exact mergeOne_lookup_ne d1 k0 v0 k (fun hc => h.1 hc.symm)

theorem mergeOne_override (d1 : PyDict) (k : Str) (v1 v2 : PyVal)
    (h1 : assocLookup d1 k = some v1)
    (hd : ¬(isDictV v1 = true ∧ isDictV v2 = true))
    (hl : ¬(isListV v1 = true ∧ isListV v2 = true)) :
    mergeOne d1 k v2 = assocUpd d1 k v2 := by
  cases v1 <;> cases v2 <;> simp only [mergeOne] <;> rw [h1] <;>
    first
      | rfl
      | simp_all [isDictV, isListV]

theorem merge_dict_override (d2 : PyDict) (d1 : PyDict) (k : Str) (v1 v2 : PyVal)
    (hnd : (d2.map Prod.fst).Nodup)
    (h1 : assocLookup d1 k = some v1) (h2 : assocLookup d2 k = some v2)
    (hd : ¬(isDictV v1 = true ∧ isDictV v2 = true))
    (hl : ¬(isListV v1 = true ∧ isListV v2 = true)) :
    assocLookup (merge_dict d1 d2) k = some v2 := by
  induction d2 generalizing d1 with
  | nil => simp [assocLookup] at h2
  | cons p t ih =>
    obtain ⟨k0, v0⟩ := p
    simp only [List.map_cons, List.nodup_cons] at hnd
    rw [merge_dict_cons]
    by_cases hk : k0 = k
    · subst hk
      have hv0 : v0 = v2 := by simpa [assocLookup] using h2
      subst hv0
      rw [merge_dict_lookup_notin t _ k0 hnd.1, mergeOne_override d1 k0 v1 v0 h1 hd hl,
        assocLookup_upd_self]
    · have h2t : assocLookup t k = some v2 := by
        rw [← h2]; simp [assocLookup, hk]
      exact ih _ hnd.2 (by rw [mergeOne_lookup_ne _ _ _ _ hk]; exact h1) h2t

theorem py2tclPairs_eq_map (m : List (Str × PyVal)) :
    py2tclPairs m =
      m.map (fun kv => value_format_py2tcl (.vstr kv.1) ++ ' ' :: value_format_py2tcl kv.2) := by
  induction m with
  | nil => rfl
  | cons p t ih =>
    obtain ⟨k, v⟩ := p
    show (pyStrEncode k ++ ' ' :: value_format_py2tcl v) :: py2tclPairs t = _
    simp only [List.map_cons, ih]
    rfl

theorem isEmpty_false_iff {α : Type} (l : List α) : l.isEmpty = false ↔ l ≠ [] := by
  cases l <;> simp

/-- C2 (counterexample): the claim requires rejecting explicit mapping
wrappers, but the code only rejects `[list ...]` wrappers: on the value
`[dict create a b]` with the hint-bearing name `myvalues`,
`detect_tcl_list` returns true while the claimed characterization is
false. -/
theorem detect_tcl_list_claim_cx :
    detect_tcl_list (chars "[dict create a b]") (chars "myvalues") = true ∧
    detect_claimed (chars "[dict create a b]") (chars "myvalues") = false :=
  ⟨rfl, rfl⟩

/-- C2 (amended): `detect_tcl_list value name` returns true iff value is
not a `[list ...]` wrapper, is not brace-wrapped, contains a space
character, and either every whitespace-separated token parses as a
number with at least two tokens, or the name is nonempty, contains a
hint substring, and there are at least two tokens. -/
theorem detect_tcl_list_amended (v n : Str) :
    detect_tcl_list v n = true ↔
      (¬((chars "[list ").isPrefixOf v = true ∧ [']'].isSuffixOf v = true) ∧
       ¬([braceL].isPrefixOf v = true ∧ [braceR].isSuffixOf v = true) ∧
       v.contains ' ' = true ∧
       (((pySplitWs v).all pyFloatOk = true ∧ 2 ≤ (pySplitWs v).length) ∨
        (n ≠ [] ∧ (listHintNames.any (fun h => strInfix h (strLower n))) = true ∧
          2 ≤ (pySplitWs v).length))) := by
  unfold detect_tcl_list
  split
  · next h => simp_all [Bool.and_eq_true]
  · split
    · next h => simp_all [Bool.and_eq_true]
    · split
      · next h1 h2 h3 => simp_all [Bool.and_eq_true]
      · next h1 h2 h3 =>
        simp only [Bool.and_eq_true, Bool.not_eq_true'] at h1 h2 h3 ⊢
        simp only [Bool.not_eq_false] at h3
        constructor
        · intro h
          refine ⟨?_, ?_, h3, ?_⟩
          · intro hc; rcases hc with ⟨ha, hb⟩; simp [ha, hb] at h1
          · intro hc; rcases hc with ⟨ha, hb⟩; simp [ha, hb] at h2
          · split at h
            · next hn =>
              simp only [Bool.and_eq_true, decide_eq_true_eq] at hn
              exact Or.inl ⟨hn.1, hn.2⟩
            · split at h
              · next hm =>
                simp only [Bool.and_eq_true, decide_eq_true_eq] at hm
                exact Or.inr ⟨(isEmpty_false_iff n).1 hm.1.1, hm.1.2, hm.2⟩
              · exact absurd h (by simp)
        · intro ⟨ha, hb, hc, hd⟩
          have hgt : (pySplitWs v).length > 1 := by
            rcases hd with ⟨_, hlen⟩ | ⟨_, _, hlen⟩ <;> omega
          rcases hd with ⟨hall, hlen⟩ | ⟨hne, hhint, hlen⟩
          · simp [hall, hgt]
          · have hne' : n.isEmpty = false := (isEmpty_false_iff n).2 hne
            by_cases hall2 : (pySplitWs v).all pyFloatOk = true
            · simp [hall2, hgt]
            · simp [hall2, hne', hhint, hgt]

/-- C3: `value_format_tcl2py` on the literal string `1` returns the
integer 1 and never a boolean, for any recursion fuel (the numeric
parse intercepts `1` before the boolean check). -/
theorem tcl2py_one_is_int :
    (∀ fuel : Nat, value_format_tcl2py (fuel + 1) (chars "1") = some (.vint 1)) ∧
    (∀ (fuel : Nat) (b : Bool), value_format_tcl2py fuel (chars "1") ≠ some (.vbool b)) := by
  constructor
  · intro fuel; rfl
  · intro fuel b h
    cases fuel with
    | zero => simp [value_format_tcl2py] at h
    | succ n =>
      rw [show value_format_tcl2py (n + 1) (chars "1") = some (.vint 1) from rfl] at h
      simp at h

/-- C4: without type metadata, `1 2 3` converts to the list [1,2,3]
under mode auto, to the string under mode str, to the list under mode
list; `apple banana` (variable name `words`, no hint) converts to the
string under auto and to the two-string list under mode list. -/
theorem convert_value_modes :
    convert_value 8 .auto (chars "1 2 3") (chars "unknown") (chars "numbers")
      = some (.vlist [.vint 1, .vint 2, .vint 3]) ∧
    convert_value 8 .mstr (chars "1 2 3") (chars "unknown") (chars "numbers")
      = some (.vstr (chars "1 2 3")) ∧
    convert_value 8 .mlist (chars "1 2 3") (chars "unknown") (chars "numbers")
      = some (.vlist [.vint 1, .vint 2, .vint 3]) ∧
    convert_value 8 .auto (chars "apple banana") (chars "unknown") (chars "words")
      = some (.vstr (chars "apple banana")) ∧
    convert_value 8 .mlist (chars "apple banana") (chars "unknown") (chars "words")
      = some (.vlist [.vstr (chars "apple"), .vstr (chars "banana")]) :=
  ⟨rfl, rfl, rfl, rfl, rfl⟩

/-- C5: `value_format_py2tcl` encodes None as the two-character `""`;
True as 1, False as 0; ints and floats as their decimal text; lists as
`[list e1 e2 ...]` with elements recursively encoded; dicts as
`[dict create k1 v1 ...]` with keys and values recursively encoded; and
a string verbatim exactly when it has no special character, otherwise
wrapped in one pair of braces. -/
theorem value_format_py2tcl_encodes :
    value_format_py2tcl .vnone = [dquote, dquote] ∧
    (∀ b, value_format_py2tcl (.vbool b) = if b then ['1'] else ['0']) ∧
    (∀ n, value_format_py2tcl (.vint n) = intStr n) ∧
    (∀ f, value_format_py2tcl (.vfloat f) = floatStr f) ∧
    (∀ l, value_format_py2tcl (.vlist l) =
      chars "[list " ++ joinWithChar ' ' (l.map value_format_py2tcl) ++ [']']) ∧
    (∀ m, value_format_py2tcl (.vdict m) =
      chars "[dict create " ++
        joinWithChar ' '
          (m.map (fun kv =>
            value_format_py2tcl (.vstr kv.1) ++ ' ' :: value_format_py2tcl kv.2)) ++ [']']) ∧
    (∀ s, containsAny s pySpecialChars = false → value_format_py2tcl (.vstr s) = s) ∧
    (∀ s, containsAny s pySpecialChars = true →
      value_format_py2tcl (.vstr s) = braceL :: s ++ [braceR]) := by
  refine ⟨rfl, fun b => rfl, fun n => rfl, fun f => rfl, fun l => ?_, fun m => ?_,
    fun s hs => ?_, fun s hs => ?_⟩
  · rw [show value_format_py2tcl (.vlist l) =
      chars "[list " ++ joinWithChar ' ' (py2tclElems l) ++ [']'] from rfl,
      py2tclElems_eq_map]
  · rw [show value_format_py2tcl (.vdict m) =
      chars "[dict create " ++ joinWithChar ' ' (py2tclPairs m) ++ [']'] from rfl,
      py2tclPairs_eq_map]
  · show pyStrEncode s = s
    simp [pyStrEncode, hs]
  · show pyStrEncode s = braceL :: s ++ [braceR]
    simp [pyStrEncode, hs]

/-- C5 witness: the string clauses applied at `hello` (no special
characters, kept verbatim) and `a b` (space forces bracing). -/
theorem value_format_py2tcl_encodes_witness :
    containsAny (chars "hello") pySpecialChars = false ∧
    value_format_py2tcl (.vstr (chars "hello")) = chars "hello" ∧
    containsAny (chars "a b") pySpecialChars = true ∧
    value_format_py2tcl (.vstr (chars "a b")) = braceL :: chars "a b" ++ [braceR] :=
  ⟨by decide,
   value_format_py2tcl_encodes.2.2.2.2.2.2.1 (chars "hello") (by decide),
   by decide,
   value_format_py2tcl_encodes.2.2.2.2.2.2.2 (chars "a b") (by decide)⟩

/-- C6: flattening `{a: {b: 1, c: {d: 2}}}` produces the array `a` with
index `b` holding `1` and index `c,d` holding `2` (plus the metadata
array), and converting that namespace back reconstructs the identical
nested mapping. -/
theorem dict2tclinterp_nested_roundtrip :
    dict2tclinterp c6dict emptyTclState = some c6state ∧
    tclinterp2dict c6state .auto = c6dict :=
  ⟨rfl, rfl⟩

/-- C7: merging `{a:[1,2]}` with `{a:[3,4]}` concatenates to
`{a:[1,2,3,4]}`; merging `{a:{x:1}}` with `{a:{y:2}}` merges to
`{a:{x:1,y:2}}`; and whenever the two values under a shared key are
neither both lists nor both dicts, the second operand's value wins. -/
theorem merge_dict_law :
    merge_dict [(chars "a", .vlist [.vint 1, .vint 2])]
        [(chars "a", .vlist [.vint 3, .vint 4])] =
      [(chars "a", .vlist [.vint 1, .vint 2, .vint 3, .vint 4])] ∧
    merge_dict [(chars "a", .vdict [(chars "x", .vint 1)])]
        [(chars "a", .vdict [(chars "y", .vint 2)])] =
      [(chars "a", .vdict [(chars "x", .vint 1), (chars "y", .vint 2)])] ∧
    (∀ (d1 d2 : PyDict) (k : Str) (v1 v2 : PyVal),
      (d2.map Prod.fst).Nodup →
      assocLookup d1 k = some v1 → assocLookup d2 k = some v2 →
      ¬(isDictV v1 = true ∧ isDictV v2 = true) →
      ¬(isListV v1 = true ∧ isListV v2 = true) →
      assocLookup (merge_dict d1 d2) k = some v2) :=
  ⟨rfl, rfl, fun d1 d2 k v1 v2 hnd h1 h2 hd hl => merge_dict_override d2 d1 k v1 v2 hnd h1 h2 hd hl⟩

/-- C7 witness: the scalar-override clause applied to
`merge({a:1}, {a:"x"})`. -/
theorem merge_dict_law_witness :
    ([(chars "a", PyVal.vstr (chars "x"))].map Prod.fst).Nodup ∧
    assocLookup (merge_dict [(chars "a", PyVal.vint 1)]
        [(chars "a", PyVal.vstr (chars "x"))]) (chars "a") = some (.vstr (chars "x")) :=
  ⟨by simp,
   merge_dict_law.2.2 [(chars "a", PyVal.vint 1)] [(chars "a", PyVal.vstr (chars "x"))]
     (chars "a") (.vint 1) (.vstr (chars "x")) (by simp) rfl rfl
     (by simp [isDictV]) (by simp [isListV])⟩

theorem assocLookup_some_mem {α β : Type} [DecidableEq α] (l : List (α × β)) (k : α) (v : β)
    (h : assocLookup l k = some v) : (k, v) ∈ l := by
  induction l with
  | nil => simp [assocLookup] at h
  | cons p t ih =>
    obtain ⟨k', v'⟩ := p
    by_cases hk : k' = k
    · subst hk
      rw [assocLookup, if_pos rfl] at h
      injection h with h
      subst h
      exact List.mem_cons_self _ _
    · rw [assocLookup, if_neg hk] at h
      exact List.mem_cons_of_mem _ (ih h)

theorem assocLookup_append_some {α β : Type} [DecidableEq α] (l l2 : List (α × β)) (k : α)
    (v : β) (h : assocLookup l k = some v) : assocLookup (l ++ l2) k = some v := by
  induction l with
  | nil => simp [assocLookup] at h
  | cons p t ih =>
    obtain ⟨k', v'⟩ := p
    by_cases hk : k' = k
    · subst hk
      rw [assocLookup, if_pos rfl] at h
      rw [List.cons_append, assocLookup, if_pos rfl]
      exact h
    · rw [assocLookup, if_neg hk] at h
      rw [List.cons_append, assocLookup, if_neg hk]
      exact ih h

theorem assocLookup_append_none {α β : Type} [DecidableEq α] (l : List (α × β)) (k : α)
    (v : β) (h : assocLookup l k = none) : assocLookup (l ++ [(k, v)]) k = some v := by
  induction l with
  | nil => simp [assocLookup]
  | cons p t ih =>
    obtain ⟨k', v'⟩ := p
    by_cases hk : k' = k
    · rw [assocLookup, if_pos hk] at h; cases h
    · rw [List.cons_append, assocLookup, if_neg hk] at *
      exact ih h

theorem assocUpd_all {α β : Type} [DecidableEq α] (P : α × β → Bool) (l : List (α × β))
    (k : α) (v : β) (hl : l.all P = true) (hkv : P (k, v) = true) :
    (assocUpd l k v).all P = true := by
  induction l with
  | nil => simp [assocUpd, hkv]
  | cons p t ih =>
    obtain ⟨k', v'⟩ := p
    simp only [List.all_cons, Bool.and_eq_true] at hl
    by_cases hk : k' = k
    · subst hk
      rw [assocUpd, if_pos rfl]
      simp only [List.all_cons, Bool.and_eq_true]
      exact ⟨hkv, hl.2⟩
    · rw [assocUpd, if_neg hk]
      simp only [List.all_cons, Bool.and_eq_true]
      exact ⟨hl.1, ih hl.2⟩

theorem heapGet_none_of_ge (h : Heap) (a : Nat) (hwf : heapWfB h = true)
    (ha : h.next ≤ a) : heapGet h a = none := by
  rcases hg : heapGet h a with _ | o
  · rfl
  · have hmem := assocLookup_some_mem h.objs a o hg
    have := (List.all_eq_true.mp hwf) _ hmem
    simp at this
    omega

theorem heapAlloc_preserves (h : Heap) (o : HObj) (a : Nat) (o' : HObj)
    (hg : heapGet h a = some o') : heapGet (heapAlloc h o).1 a = some o' :=
  assocLookup_append_some _ _ _ _ hg

theorem heapAlloc_new (h : Heap) (o : HObj) (hwf : heapWfB h = true) :
    heapGet (heapAlloc h o).1 h.next = some o :=
  assocLookup_append_none _ _ _ (heapGet_none_of_ge h h.next hwf le_rfl)

theorem heapAlloc_wf (h : Heap) (o : HObj) (hwf : heapWfB h = true) :
    heapWfB (heapAlloc h o).1 = true := by
  simp only [heapWfB, heapAlloc, List.all_append, Bool.and_eq_true, List.all_cons,
    List.all_nil, Bool.and_true]
  constructor
  · refine List.all_eq_true.mpr (fun p hp => ?_)
    have := (List.all_eq_true.mp hwf) _ hp
    simp at this ⊢
    omega
  · simp

theorem heapSet_get_ne (h : Heap) (r : Nat) (o : HObj) (a : Nat) (hne : a ≠ r) :
    heapGet (heapSet h r o) a = heapGet h a :=
  assocLookup_upd_ne _ _ _ _ (fun hc => hne hc.symm)

theorem heapSet_wf (h : Heap) (r : Nat) (o : HObj) (hwf : heapWfB h = true)
    (hr : r < h.next) : heapWfB (heapSet h r o) = true := by
  exact assocUpd_all _ _ _ _ hwf (by simp [heapSet, hr])

theorem merge_dict_heapLoop_frame
    (mergeRec : Heap → Nat → Nat → Option (Heap × Nat))
    (hrec : ∀ h a1 a2 h' r, heapWfB h = true → mergeRec h a1 a2 = some (h', r) →
      (∀ a o, heapGet h a = some o → heapGet h' a = some o) ∧
      heapWfB h' = true ∧ h.next ≤ h'.next) :
    ∀ (l : List (Str × Nat)) (h : Heap) (r : Nat) (h' : Heap) (r' : Nat),
      heapWfB h = true → r < h.next →
      merge_dict_heapLoop mergeRec h r l = some (h', r') →
      r' = r ∧ (∀ a o, a ≠ r → heapGet h a = some o → heapGet h' a = some o) ∧
      heapWfB h' = true ∧ h.next ≤ h'.next := by
  intro l
  induction l with
  | nil =>
    intro h r h' r' hwf hr heq
    simp only [merge_dict_heapLoop, Option.some.injEq, Prod.mk.injEq] at heq
    obtain ⟨rfl, rfl⟩ := heq
    exact ⟨rfl, fun a o _ ho => ho, hwf, le_rfl⟩
  | cons p t ih =>
    intro h r h' r' hwf hr heq
    obtain ⟨k, v2⟩ := p
    simp only [merge_dict_heapLoop] at heq
    split at heq
    case _ resEntries hget =>
      split at heq
      case _ v1 hlk =>
        split at heq
        case _ m1 m2 hg1 hg2 =>
          split at heq
          case _ h1 m hm =>
            obtain ⟨hpres1, hwf1, hnext1⟩ := hrec h v1 v2 h1 m hwf hm
            split at heq
            case _ es hes =>
              have hr1 : r < h1.next := by omega
              have hwf2 : heapWfB (heapSet h1 r (.hdict (assocUpd es k m))) = true :=
                heapSet_wf h1 r _ hwf1 hr1
              have hr2 : r < (heapSet h1 r (.hdict (assocUpd es k m))).next := by
                simpa [heapSet] using hr1
              obtain ⟨he1, he2, he3, he4⟩ := ih _ r h' r' hwf2 hr2 heq
              refine ⟨he1, ?_, he3, ?_⟩
              · intro a o hne ho
                exact he2 a o hne (by
                  rw [heapSet_get_ne _ _ _ _ hne]
                  exact hpres1 a o ho)
              · have : (heapSet h1 r (.hdict (assocUpd es k m))).next = h1.next := rfl
                omega
            case _ hne2 => cases heq
          case _ => cases heq
        case _ l1 l2 hg1 hg2 =>
          split at heq
          case _ es hes =>
            have hwfa : heapWfB (heapAlloc h (.hlist (l1 ++ l2))).1 = true :=
              heapAlloc_wf h _ hwf
            have hna : (heapAlloc h (.hlist (l1 ++ l2))).1.next = h.next + 1 := rfl
            have hr1 : r < (heapAlloc h (.hlist (l1 ++ l2))).1.next := by omega
            have hwf2 : heapWfB (heapSet (heapAlloc h (.hlist (l1 ++ l2))).1 r
                (.hdict (assocUpd es k (heapAlloc h (.hlist (l1 ++ l2))).2))) = true :=
              heapSet_wf _ r _ hwfa hr1
            have hr2 : r < (heapSet (heapAlloc h (.hlist (l1 ++ l2))).1 r
                (.hdict (assocUpd es k (heapAlloc h (.hlist (l1 ++ l2))).2))).next := by
              simpa [heapSet] using hr1
            obtain ⟨he1, he2, he3, he4⟩ := ih _ r h' r' hwf2 hr2 heq
            refine ⟨he1, ?_, he3, ?_⟩
            · intro a o hne ho
              exact he2 a o hne (by
                rw [heapSet_get_ne _ _ _ _ hne]
                exact heapAlloc_preserves h _ a o ho)
            · have : (heapSet (heapAlloc h (.hlist (l1 ++ l2))).1 r
                  (.hdict (assocUpd es k (heapAlloc h (.hlist (l1 ++ l2))).2))).next =
                  h.next + 1 := rfl
              omega
          case _ => cases heq
        case _ hd1 hd2 =>
          have hwf2 : heapWfB (heapSet h r (.hdict (assocUpd resEntries k v2))) = true :=
            heapSet_wf h r _ hwf hr
          have hr2 : r < (heapSet h r (.hdict (assocUpd resEntries k v2))).next := by
            simpa [heapSet] using hr
          obtain ⟨he1, he2, he3, he4⟩ := ih _ r h' r' hwf2 hr2 heq
          refine ⟨he1, ?_, he3, ?_⟩
          · intro a o hne ho
            exact he2 a o hne (by rw [heapSet_get_ne _ _ _ _ hne]; exact ho)
          · have : (heapSet h r (.hdict (assocUpd resEntries k v2))).next = h.next := rfl
            omega
      case _ hlk =>
        have hwf2 : heapWfB (heapSet h r (.hdict (assocUpd resEntries k v2))) = true :=
          heapSet_wf h r _ hwf hr
        have hr2 : r < (heapSet h r (.hdict (assocUpd resEntries k v2))).next := by
          simpa [heapSet] using hr
        obtain ⟨he1, he2, he3, he4⟩ := ih _ r h' r' hwf2 hr2 heq
        refine ⟨he1, ?_, he3, ?_⟩
        · intro a o hne ho
          exact he2 a o hne (by rw [heapSet_get_ne _ _ _ _ hne]; exact ho)
        · have : (heapSet h r (.hdict (assocUpd resEntries k v2))).next = h.next := rfl
          omega
    case _ hget => cases heq

theorem merge_dict_heap_frame : ∀ (fuel : Nat) (h : Heap) (a1 a2 : Nat) (h' : Heap) (r : Nat),
    heapWfB h = true → merge_dict_heap fuel h a1 a2 = some (h', r) →
    (∀ a o, heapGet h a = some o → heapGet h' a = some o) ∧
    heapGet h r = none ∧ heapWfB h' = true ∧ h.next ≤ h'.next := by
  intro fuel
  induction fuel with
  | zero => intro h a1 a2 h' r hwf heq; simp [merge_dict_heap] at heq
  | succ f ih =>
    intro h a1 a2 h' r hwf heq
    simp only [merge_dict_heap] at heq
    split at heq
    case _ es1 es2 hg1 hg2 =>
      have hrec : ∀ hh b1 b2 hh' rr, heapWfB hh = true →
          merge_dict_heap f hh b1 b2 = some (hh', rr) →
          (∀ a o, heapGet hh a = some o → heapGet hh' a = some o) ∧
          heapWfB hh' = true ∧ hh.next ≤ hh'.next := by
        intro hh b1 b2 hh' rr hw he
        obtain ⟨f1, _, f3, f4⟩ := ih hh b1 b2 hh' rr hw he
        exact ⟨f1, f3, f4⟩
      have hwfa : heapWfB (heapAlloc h (.hdict es1)).1 = true := heapAlloc_wf h _ hwf
      have hra : (heapAlloc h (.hdict es1)).2 < (heapAlloc h (.hdict es1)).1.next := by
        simp [heapAlloc]
      obtain ⟨he1, he2, he3, he4⟩ :=
        merge_dict_heapLoop_frame (merge_dict_heap f) hrec es2 _ _ h' r hwfa hra heq
      have hrn : r = h.next := by simpa [heapAlloc] using he1
      refine ⟨?_, ?_, he3, ?_⟩
      · intro a o ho
        have hmem := assocLookup_some_mem h.objs a o ho
        have hlt : a < h.next := by
          have := (List.all_eq_true.mp hwf) _ hmem
          simpa using this
        refine he2 a o ?_ (heapAlloc_preserves h _ a o ho)
        omega
      · exact heapGet_none_of_ge h r hwf (by omega)
      · have : (heapAlloc h (.hdict es1)).1.next = h.next + 1 := rfl
        omega
    case _ => cases heq

/-- C10: `merge_dict` over the heap model never mutates existing
objects: every address bound before the call keeps its object, so both
arguments are structurally unchanged, and the returned dict lives at a
fresh address (a new object). -/
theorem merge_dict_no_mutation (fuel : Nat) (h : Heap) (a1 a2 : Nat) (h' : Heap) (r : Nat)
    (hwf : heapWfB h = true) (heq : merge_dict_heap fuel h a1 a2 = some (h', r)) :
    (∀ a o, heapGet h a = some o → heapGet h' a = some o) ∧ heapGet h r = none :=
  ⟨(merge_dict_heap_frame fuel h a1 a2 h' r hwf heq).1,
   (merge_dict_heap_frame fuel h a1 a2 h' r hwf heq).2.1⟩

/-- C10 witness: merging `{a:1}` (address 0) with `{a:2}` (address 2)
leaves address 0 unchanged and returns the fresh address 4. -/
theorem merge_dict_no_mutation_witness :
    heapWfB ⟨4, [(0, .hdict [(chars "a", 1)]), (1, .hatom (.vint 1)),
      (2, .hdict [(chars "a", 3)]), (3, .hatom (.vint 2))]⟩ = true ∧
    heapGet ⟨5, [(0, HObj.hdict [(chars "a", 1)]), (1, .hatom (.vint 1)),
        (2, .hdict [(chars "a", 3)]), (3, .hatom (.vint 2)),
        (4, .hdict [(chars "a", 3)])]⟩ 0 = some (.hdict [(chars "a", 1)]) ∧
    heapGet ⟨4, [(0, HObj.hdict [(chars "a", 1)]), (1, .hatom (.vint 1)),
      (2, .hdict [(chars "a", 3)]), (3, .hatom (.vint 2))]⟩ 4 = none := by
  refine ⟨by decide, ?_, ?_⟩
  · exact (merge_dict_no_mutation 5 ⟨4, [(0, .hdict [(chars "a", 1)]), (1, .hatom (.vint 1)),
      (2, .hdict [(chars "a", 3)]), (3, .hatom (.vint 2))]⟩ 0 2
      ⟨5, [(0, .hdict [(chars "a", 1)]), (1, .hatom (.vint 1)),
        (2, .hdict [(chars "a", 3)]), (3, .hatom (.vint 2)),
        (4, .hdict [(chars "a", 3)])]⟩ 4 (by decide) (by decide)).1 0 _ (by decide)
  · exact (merge_dict_no_mutation 5 ⟨4, [(0, .hdict [(chars "a", 1)]), (1, .hatom (.vint 1)),
      (2, .hdict [(chars "a", 3)]), (3, .hatom (.vint 2))]⟩ 0 2
      ⟨5, [(0, .hdict [(chars "a", 1)]), (1, .hatom (.vint 1)),
        (2, .hdict [(chars "a", 3)]), (3, .hatom (.vint 2)),
        (4, .hdict [(chars "a", 3)])]⟩ 4 (by decide) (by decide)).2

theorem contains_of_mem (l : List Char) (c : Char) (h : c ∈ l) : l.contains c = true :=
  List.elem_iff.mpr h

theorem contains_eq_false_of_ne (s : Str) (c : Char) (h : ∀ x ∈ s, x ≠ c) :
    s.contains c = false := by
  induction s with
  | nil => rfl
  | cons x t ih =>
    have hx : (c == x) = false :=
      beq_eq_false_iff_ne.mpr (fun he => (h x (List.mem_cons_self x t)) he.symm)
    simp only [List.contains_cons, hx, Bool.false_or]
    exact ih (fun y hy => h y (List.mem_cons_of_mem _ hy))

theorem plain_not_special (c : Char) (hc : plainBareChar c = true) (x : Char)
    (hx : x ∈ bareWordSpecials) : c ≠ x := by
  intro h
  subst h
  rw [plainBareChar, contains_of_mem _ _ hx] at hc
  simp at hc

theorem containsAny_false_of_plain (s : Str) (h : s.all plainBareChar = true)
    (cs : List Char) (hsub : ∀ x ∈ cs, x ∈ bareWordSpecials) :
    containsAny s cs = false := by
  rw [containsAny, List.any_eq_false]
  intro c hc
  have hcp := List.all_eq_true.mp h c hc
  have : ∀ x ∈ cs, x ≠ c := fun x hx he =>
    plain_not_special c hcp x (hsub x hx) he.symm
  simpa using contains_eq_false_of_ne cs c (fun x hx => this x hx)

theorem pySpecial_sub_bare : ∀ x ∈ pySpecialChars, x ∈ bareWordSpecials := by decide

theorem plain_no_dquote (s : Str) (h : s.all plainBareChar = true) :
    s ≠ [dquote, dquote] := by
  intro he
  subst he
  have := List.all_eq_true.mp h dquote (List.mem_cons_self _ _)
  simp [plainBareChar, bareWordSpecials] at this

theorem plain_not_ws (c : Char) (hc : plainBareChar c = true) : isPyWs c = false := by
  have h1 := plain_not_special c hc ' ' (by decide)
  have h2 := plain_not_special c hc '\t' (by decide)
  have h3 := plain_not_special c hc '\n' (by decide)
  have h4 := plain_not_special c hc '\r' (by decide)
  simp [isPyWs, h1, h2, h3, h4]

theorem digitChar_plain (d : Nat) (h : d < 10) : plainBareChar (digitChar d) = true := by
  interval_cases d <;> rfl

theorem natStr_chars (m : Nat) : ∀ c ∈ natStr m, ∃ d, d < 10 ∧ c = digitChar d := by
  intro c hc
  by_cases h0 : m = 0
  · subst h0
    simp [natStr] at hc
    exact ⟨0, by omega, hc.trans (by rfl)⟩
  · rw [natStr, if_neg h0] at hc
    obtain ⟨d, hd, rfl⟩ := List.mem_map.mp hc
    exact ⟨d, natDigitsRev_lt m m d (List.mem_reverse.mp hd), rfl⟩

theorem natStr_plain (m : Nat) : (natStr m).all plainBareChar = true := by
  refine List.all_eq_true.mpr (fun c hc => ?_)
  obtain ⟨d, hd, rfl⟩ := natStr_chars m c hc
  exact digitChar_plain d hd

theorem intStr_plain (n : Int) : (intStr n).all plainBareChar = true := by
  by_cases hneg : n < 0
  · rw [intStr, if_pos hneg]
    simp only [List.all_cons, Bool.and_eq_true]
    exact ⟨by decide, natStr_plain _⟩
  · rw [intStr, if_neg hneg]
    exact natStr_plain _

theorem intStr_ne_nil (n : Int) : intStr n ≠ [] := by
  by_cases hneg : n < 0
  · rw [intStr, if_pos hneg]; simp
  · rw [intStr, if_neg hneg]
    by_cases h0 : n.natAbs = 0
    · simp [natStr, h0]
    · rw [natStr, if_neg h0]
      have hne := natDigitsRev_ne_nil n.natAbs n.natAbs le_rfl h0
      simp [hne]

theorem intStr_no_dot (n : Int) : (intStr n).contains '.' = false := by
  refine contains_eq_false_of_ne _ _ (fun x hx => ?_)
  by_cases hneg : n < 0
  · rw [intStr, if_pos hneg] at hx
    rcases List.mem_cons.mp hx with rfl | hx2
    · decide
    · obtain ⟨d, hd, rfl⟩ := natStr_chars _ x hx2
      exact (digitChar_ne_signs d hd).2.2
  · rw [intStr, if_neg hneg] at hx
    obtain ⟨d, hd, rfl⟩ := natStr_chars _ x hx
    exact (digitChar_ne_signs d hd).2.2

theorem floatStr_chars (f : PyFloat) (hwf : wfFloat f = true) :
    ∀ c ∈ floatStr f, (∃ d, d < 10 ∧ c = digitChar d) ∨ c = '-' ∨ c = '.' := by
  intro c hc
  obtain ⟨neg, ip, fp⟩ := f
  simp only [wfFloat, Bool.and_eq_true, List.all_eq_true, decide_eq_true_eq] at hwf
  simp only [floatStr, List.mem_append, List.mem_cons] at hc
  rcases hc with (hs | hip) | (hdot | hfp)
  · cases neg <;> simp at hs
    exact Or.inr (Or.inl hs)
  · obtain ⟨d, hd, rfl⟩ := List.mem_map.mp hip
    exact Or.inl ⟨d, hwf.1.2 d hd, rfl⟩
  · exact Or.inr (Or.inr hdot)
  · obtain ⟨d, hd, rfl⟩ := List.mem_map.mp hfp
    exact Or.inl ⟨d, hwf.2 d hd, rfl⟩

theorem floatStr_plain (f : PyFloat) (hwf : wfFloat f = true) :
    (floatStr f).all plainBareChar = true := by
  refine List.all_eq_true.mpr (fun c hc => ?_)
  rcases floatStr_chars f hwf c hc with ⟨d, hd, rfl⟩ | rfl | rfl
  · exact digitChar_plain d hd
  · rfl
  · rfl

theorem floatStr_ne_nil (f : PyFloat) : floatStr f ≠ [] := by
  obtain ⟨neg, ip, fp⟩ := f
  cases neg <;> simp [floatStr]

theorem floatStr_has_dot (f : PyFloat) : (floatStr f).contains '.' = true := by
  refine contains_of_mem _ _ ?_
  obtain ⟨neg, ip, fp⟩ := f
  simp [floatStr]

theorem tclEvalWord_bare (fuel : Nat) (w : Str) (hne : w ≠ [])
    (hp : w.all plainBareChar = true) : tclEvalWord (fuel + 1) w = some w := by
  rcases w with _ | ⟨c, t⟩
  · exact absurd rfl hne
  · have hc := List.all_eq_true.mp hp c (List.mem_cons_self c t)
    have h1 : c ≠ dquote := plain_not_special c hc dquote (by decide)
    have h2 : c ≠ braceL := plain_not_special c hc braceL (by decide)
    have h3 : c ≠ '[' := plain_not_special c hc '[' (by decide)
    have h4 : containsAny (c :: t) bareWordSpecials = false :=
      containsAny_false_of_plain _ hp _ (fun x hx => hx)
    simp only [tclEvalWord, if_neg h1, if_neg h2, if_neg h3, h4, Bool.false_eq_true,
      if_false]

theorem braceSpan_no_braces (s : Str) (rest : Str)
    (h : ∀ c ∈ s, ¬(c = braceL ∨ c = braceR)) :
    braceSpan (s ++ braceR :: rest) 0 = some (s, rest) := by
  induction s with
  | nil => simp [braceSpan]
  | cons c t ih =>
    have hc := h c (List.mem_cons_self c t)
    push_neg at hc
    simp only [List.cons_append, braceSpan, if_neg hc.2, if_neg hc.1]
    rw [show t.append (braceR :: rest) = t ++ braceR :: rest from rfl,
      ih (fun x hx => h x (List.mem_cons_of_mem _ hx))]
    rfl

theorem takeWhile_append_stop (p : Char → Bool) (xs : Str) (y : Char) (r : Str)
    (hxs : xs.all p = true) (hy : p y = false) :
    (xs ++ y :: r).takeWhile p = xs ∧ (xs ++ y :: r).dropWhile p = y :: r := by
  induction xs with
  | nil => simp [List.takeWhile, List.dropWhile, hy]
  | cons c t ih =>
    simp only [List.all_cons, Bool.and_eq_true] at hxs
    have := ih hxs.2
    simp [List.takeWhile_cons, List.dropWhile_cons, hxs.1, this.1, this.2]

theorem takeWhile_all (p : Char → Bool) (xs : Str) (hxs : xs.all p = true) :
    xs.takeWhile p = xs ∧ xs.dropWhile p = [] := by
  induction xs with
  | nil => simp
  | cons c t ih =>
    simp only [List.all_cons, Bool.and_eq_true] at hxs
    have := ih hxs.2
    simp [List.takeWhile_cons, List.dropWhile_cons, hxs.1, this.1, this.2]

theorem joinSpace_length_ge (toks : List Str) (h : ∀ t ∈ toks, t ≠ []) :
    toks.length ≤ (joinWithChar ' ' toks).length := by
  induction toks with
  | nil => simp
  | cons w ws ih =>
    have hw : w ≠ [] := h w (List.mem_cons_self w ws)
    have hwl : 1 ≤ w.length := by
      cases w
      · exact absurd rfl hw
      · simp
    rcases ws with _ | ⟨w2, ws2⟩
    · simpa [joinWithChar] using hwl
    · have := ih (fun t ht => h t (List.mem_cons_of_mem _ ht))
      simp only [joinWithChar, List.length_cons, List.length_append]
      simp at this ⊢
      omega

theorem plain_all_not_ws (w : Str) (hp : w.all plainBareChar = true) :
    w.all (fun c => !isPyWs c) = true := by
  refine List.all_eq_true.mpr (fun c hc => ?_)
  simp [plain_not_ws c (List.all_eq_true.mp hp c hc)]

theorem splitCmdWords_cons_ws (f : Nat) (x : Str) :
    splitCmdWords (f + 1) (' ' :: x) = splitCmdWords (f + 1) x := by
  simp only [splitCmdWords, List.dropWhile_cons, show isPyWs ' ' = true from rfl, if_true]

theorem splitCmdWords_tokens : ∀ (toks : List Str) (fuel : Nat),
    toks.length + 1 ≤ fuel →
    (∀ t ∈ toks, t ≠ [] ∧ t.all plainBareChar = true) →
    splitCmdWords fuel (joinWithChar ' ' toks) = some toks := by
  intro toks
  induction toks with
  | nil =>
    intro fuel hf _
    rcases fuel with _ | f
    · omega
    · rfl
  | cons w ws ih =>
    intro fuel hf h
    rcases fuel with _ | f
    · omega
    obtain ⟨hwne, hwp⟩ := h w (List.mem_cons_self w ws)
    obtain ⟨c, t, rfl⟩ : ∃ c t, w = c :: t := by
      rcases w with _ | ⟨c, t⟩
      · exact absurd rfl hwne
      · exact ⟨c, t, rfl⟩
    have hc := List.all_eq_true.mp hwp c (List.mem_cons_self c t)
    have h1 : ¬(c = braceL) := plain_not_special c hc braceL (by decide)
    have h2 : ¬(c = '[') := plain_not_special c hc '[' (by decide)
    have h3 : ¬(c = dquote) := plain_not_special c hc dquote (by decide)
    have hws : isPyWs c = false := plain_not_ws c hc
    have hnws := plain_all_not_ws _ hwp
    rcases ws with _ | ⟨w2, ws2⟩
    · show splitCmdWords (f + 1) (c :: t) = some [c :: t]
      have htw := takeWhile_all (fun c => !isPyWs c) (c :: t) hnws
      simp only [splitCmdWords, List.dropWhile_cons, hws, Bool.false_eq_true, if_false,
        if_neg h1, if_neg h2, if_neg h3, htw.1, htw.2]
      rcases f with _ | f2
      · simp at hf
      · rfl
    · have hj : joinWithChar ' ' ((c :: t) :: w2 :: ws2) =
          (c :: t) ++ ' ' :: joinWithChar ' ' (w2 :: ws2) := rfl
      rw [hj]
      have htw := takeWhile_append_stop (fun c => !isPyWs c) (c :: t) ' '
        (joinWithChar ' ' (w2 :: ws2)) hnws (by rfl)
      have htw1 := htw.1
      have htw2 := htw.2
      simp only [List.cons_append] at htw1 htw2
      simp only [splitCmdWords, List.cons_append, List.dropWhile_cons, hws,
        Bool.false_eq_true, if_false, if_neg h1, if_neg h2, if_neg h3, htw1, htw2]
      rcases f with _ | f2
      · simp at hf
      rw [splitCmdWords_cons_ws f2 (joinWithChar ' ' (w2 :: ws2))]
      rw [ih (f2 + 1) (by simp at hf ⊢; omega) (fun x hx => h x (List.mem_cons_of_mem _ hx))]
      rfl

theorem tclSplitList_cons_ws (f : Nat) (x : Str) :
    tclSplitList (f + 1) (' ' :: x) = tclSplitList (f + 1) x := by
  simp only [tclSplitList, List.dropWhile_cons, show isPyWs ' ' = true from rfl, if_true]

theorem tclSplitList_tokens : ∀ (toks : List Str) (fuel : Nat),
    toks.length + 1 ≤ fuel →
    (∀ t ∈ toks, t ≠ [] ∧ t.all plainBareChar = true) →
    tclSplitList fuel (joinWithChar ' ' toks) = some toks := by
  intro toks
  induction toks with
  | nil =>
    intro fuel hf _
    rcases fuel with _ | f
    · omega
    · rfl
  | cons w ws ih =>
    intro fuel hf h
    rcases fuel with _ | f
    · omega
    obtain ⟨hwne, hwp⟩ := h w (List.mem_cons_self w ws)
    obtain ⟨c, t, rfl⟩ : ∃ c t, w = c :: t := by
      rcases w with _ | ⟨c, t⟩
      · exact absurd rfl hwne
      · exact ⟨c, t, rfl⟩
    have hc := List.all_eq_true.mp hwp c (List.mem_cons_self c t)
    have h1 : ¬(c = braceL) := plain_not_special c hc braceL (by decide)
    have h3 : ¬(c = dquote) := plain_not_special c hc dquote (by decide)
    have hws : isPyWs c = false := plain_not_ws c hc
    have hnws := plain_all_not_ws _ hwp
    have hbs : (c :: t).contains bslash = false := by
      refine contains_eq_false_of_ne _ _ (fun x hx => ?_)
      exact plain_not_special x (List.all_eq_true.mp hwp x hx) bslash (by decide)
    rcases ws with _ | ⟨w2, ws2⟩
    · show tclSplitList (f + 1) (c :: t) = some [c :: t]
      have htw := takeWhile_all (fun c => !isPyWs c) (c :: t) hnws
      simp only [tclSplitList, List.dropWhile_cons, hws, Bool.false_eq_true, if_false,
        if_neg h1, if_neg h3, htw.1, htw.2, hbs]
      rcases f with _ | f2
      · simp at hf
      · rfl
    · have hj : joinWithChar ' ' ((c :: t) :: w2 :: ws2) =
          (c :: t) ++ ' ' :: joinWithChar ' ' (w2 :: ws2) := rfl
      rw [hj]
      have htw := takeWhile_append_stop (fun c => !isPyWs c) (c :: t) ' '
        (joinWithChar ' ' (w2 :: ws2)) hnws (by rfl)
      have htw1 := htw.1
      have htw2 := htw.2
      simp only [List.cons_append] at htw1 htw2
      have hbs2 : (((c :: t) ++ ' ' :: joinWithChar ' ' (w2 :: ws2)).takeWhile
          (fun c => !isPyWs c)).contains bslash = false := by
        rw [htw.1]; exact hbs
      simp only [List.cons_append] at hbs2
      simp only [tclSplitList, List.cons_append, List.dropWhile_cons, hws,
        Bool.false_eq_true, if_false, if_neg h1, if_neg h3, htw1, htw2, hbs2]
      rcases f with _ | f2
      · simp at hf
      rw [tclSplitList_cons_ws f2 (joinWithChar ' ' (w2 :: ws2))]
      rw [ih (f2 + 1) (by simp at hf ⊢; omega) (fun x hx => h x (List.mem_cons_of_mem _ hx))]
      simp [hbs]
      refine ⟨fun he => ?_, fun hm => ?_⟩
      · exact plain_not_special c hc bslash (by decide) he.symm
      · have hmm := List.all_eq_true.mp hwp bslash (List.mem_cons_of_mem _ hm)
        simp [plainBareChar, bareWordSpecials] at hmm

theorem mapM_evalWord (fuel : Nat) (toks : List Str)
    (h : ∀ t ∈ toks, t ≠ [] ∧ t.all plainBareChar = true) :
    toks.mapM (tclEvalWord (fuel + 1)) = some toks := by
  induction toks with
  | nil => rfl
  | cons w ws ih =>
    obtain ⟨hwne, hwp⟩ := h w (List.mem_cons_self w ws)
    rw [List.mapM_cons, tclEvalWord_bare fuel w hwne hwp,
      ih (fun x hx => h x (List.mem_cons_of_mem _ hx))]
    rfl

theorem reprSpecials_eq : reprSpecials = bareWordSpecials := rfl

theorem tclListRepr_plain (toks : List Str)
    (h : ∀ t ∈ toks, t ≠ [] ∧ t.all plainBareChar = true) :
    tclListRepr toks = some (joinWithChar ' ' toks) := by
  have hmap : toks.mapM tclQuoteElem = some toks := by
    induction toks with
    | nil => rfl
    | cons w ws ih =>
      obtain ⟨hwne, hwp⟩ := h w (List.mem_cons_self w ws)
      have hq : tclQuoteElem w = some w := by
        have hca : containsAny w reprSpecials = false := by
          rw [reprSpecials_eq]
          exact containsAny_false_of_plain w hwp _ (fun x hx => hx)
        rw [tclQuoteElem, if_neg (by simp [hwne]), hca]
        simp
      rw [List.mapM_cons, hq, ih (fun x hx => h x (List.mem_cons_of_mem _ hx))]
      rfl
  rw [tclListRepr, hmap]
  rfl

theorem bareWordSpecials_split : bareWordSpecials = pySpecialChars ++ [';'] := rfl

theorem not_mem_contains_false (cs : List Char) (c : Char) (h : c ∉ cs) :
    cs.contains c = false := by
  by_cases hc : cs.contains c = true
  · exact absurd (List.elem_iff.mp hc) h
  · simpa using hc

theorem safeLeafStr_bare_plain (s : Str) (hs : safeLeafStr s = true)
    (hca : containsAny s pySpecialChars = false) : s.all plainBareChar = true := by
  refine List.all_eq_true.mpr (fun c hc => ?_)
  have h1 : ¬(c ∈ pySpecialChars) := by
    rw [containsAny, List.any_eq_false] at hca
    intro hm
    have := hca c hc
    rw [contains_of_mem _ _ hm] at this
    simp at this
  simp only [safeLeafStr, Bool.and_eq_true, List.all_eq_true] at hs
  have h2 := hs.2 c hc
  simp only [Bool.not_eq_true', Bool.or_eq_false_iff, decide_eq_false_iff_not] at h2
  rw [plainBareChar, bareWordSpecials_split]
  refine (Bool.not_eq_true' _).mpr (not_mem_contains_false _ _ ?_)
  intro hm
  rcases List.mem_append.mp hm with hm1 | hm2
  · exact h1 hm1
  · simp only [List.mem_singleton] at hm2
    subst hm2
    tauto

theorem storedElems_spec (l : List PyVal) (h : l.all safeListElem = true) :
    py2tclElems l = storedElems l ∧
    (∀ tok ∈ storedElems l, tok ≠ [] ∧ tok.all plainBareChar = true) := by
  induction l with
  | nil => exact ⟨rfl, by simp [storedElems]⟩
  | cons v t ih =>
    simp only [List.all_cons, Bool.and_eq_true] at h
    obtain ⟨ihe, iht⟩ := ih h.2
    have hv := h.1
    have hhead : value_format_py2tcl v = storedVal v ∧
        storedVal v ≠ [] ∧ (storedVal v).all plainBareChar = true := by
      cases v with
      | vint n => exact ⟨rfl, intStr_ne_nil n, intStr_plain n⟩
      | vfloat f =>
        exact ⟨rfl, floatStr_ne_nil f, floatStr_plain f (by simpa [safeListElem] using hv)⟩
      | vstr s =>
        have hst : safeStrToken s = true := by simpa [safeListElem] using hv
        simp only [safeStrToken, Bool.and_eq_true, Bool.not_eq_true',
          List.isEmpty_eq_false] at hst
        have hplain : s.all plainBareChar = true := hst.1.1.1.2
        have hne : s ≠ [] := hst.1.1.1.1
        have hca : containsAny s pySpecialChars = false :=
          containsAny_false_of_plain s hplain _ pySpecial_sub_bare
        refine ⟨?_, hne, hplain⟩
        show pyStrEncode s = s
        simp [pyStrEncode, hca]
      | vnone => simp [safeListElem] at hv
      | vbool b => simp [safeListElem] at hv
      | vlist l2 => simp [safeListElem] at hv
      | vdict m => simp [safeListElem] at hv
    refine ⟨?_, ?_⟩
    · show value_format_py2tcl v :: py2tclElems t = storedVal v :: storedElems t
      rw [hhead.1, ihe]
    · intro tok htok
      rcases List.mem_cons.mp htok with rfl | hmem
      · exact hhead.2
      · exact iht tok hmem

theorem tclEvalWord_lbracket (fuel : Nat) (t inner : Str)
    (hlast : t.getLast? = some ']') (hdrop : t.dropLast = inner) :
    tclEvalWord (fuel + 1) ('[' :: t) =
      (match splitCmdWords (inner.length + 1) inner with
       | some ws =>
         match ws.mapM (tclEvalWord fuel) with
         | some (cmd :: args) =>
           if cmd = chars "list" then tclListRepr args
           else if cmd = chars "dict" then
             match args with
             | sub :: rest => if sub = chars "create" then tclDictRepr rest else none
             | [] => none
           else none
         | _ => none
       | none => none) := by
  have h1 : ¬('[' = dquote) := by decide
  have h2 : ¬('[' = braceL) := by decide
  simp only [tclEvalWord, if_neg h1, if_neg h2, if_pos (rfl : '[' = '['), hlast, hdrop]
  simp

theorem evalWord_stored (v : PyVal) (hv : safeVal v = true) (hnd : isDictV v = false)
    (fuel : Nat) :
    tclEvalWord (fuel + 2) (value_format_py2tcl v) = some (storedVal v) := by
  cases v with
  | vnone => rfl
  | vbool b => cases b <;> rfl
  | vint n =>
    exact tclEvalWord_bare (fuel + 1) (intStr n) (intStr_ne_nil n) (intStr_plain n)
  | vfloat f =>
    exact tclEvalWord_bare (fuel + 1) (floatStr f) (floatStr_ne_nil f)
      (floatStr_plain f (by simpa [safeVal] using hv))
  | vdict m => simp [isDictV] at hnd
  | vstr s =>
    have hs : safeLeafStr s = true := by simpa [safeVal] using hv
    by_cases hca : containsAny s pySpecialChars = true
    · have henc : value_format_py2tcl (.vstr s) = braceL :: (s ++ [braceR]) := by
        show pyStrEncode s = _
        simp [pyStrEncode, hca]
      rw [henc]
      have hsf := hs
      simp only [safeLeafStr, Bool.and_eq_true, List.all_eq_true] at hsf
      have hnb : ∀ c ∈ s, ¬(c = braceL ∨ c = braceR) := by
        intro c hc
        have := hsf.2 c hc
        simp only [Bool.not_eq_true', Bool.or_eq_false_iff,
          decide_eq_false_iff_not] at this
        tauto
      have hbs : s.contains bslash = false := by
        refine contains_eq_false_of_ne _ _ (fun x hx he => ?_)
        have := hsf.2 x hx
        subst he
        simp only [Bool.not_eq_true', Bool.or_eq_false_iff,
          decide_eq_false_iff_not] at this
        tauto
      have hspan : braceSpan (s ++ braceR :: []) 0 = some (s, []) :=
        braceSpan_no_braces s [] hnb
      have h1 : ¬(braceL = dquote) := by decide
      show tclEvalWord (fuel + 1 + 1) (braceL :: (s ++ [braceR])) = some s
      simp only [tclEvalWord, if_neg h1, if_pos (rfl : braceL = braceL)]
      rw [show s ++ [braceR] = s ++ braceR :: [] from rfl, hspan]
      simp [hbs]
      intro hm
      rw [contains_of_mem s bslash hm] at hbs
      simp at hbs
    · have hca2 : containsAny s pySpecialChars = false := by simpa using hca
      have henc : value_format_py2tcl (.vstr s) = s := by
        show pyStrEncode s = s
        simp [pyStrEncode, hca2]
      rw [henc]
      have hne : s ≠ [] := by
        simp only [safeLeafStr, Bool.and_eq_true, Bool.not_eq_true',
          List.isEmpty_eq_false] at hs
        exact hs.1
      exact tclEvalWord_bare (fuel + 1) s hne (safeLeafStr_bare_plain s hs hca2)
  | vlist l =>
    have hall : l.all safeListElem = true := by simpa [safeVal] using hv
    obtain ⟨heq, htoks⟩ := storedElems_spec l hall
    rcases l with _ | ⟨e, es⟩
    · rfl
    · have htne : storedElems (e :: es) ≠ [] := by
        show storedVal e :: storedElems es ≠ []
        simp
      have htokgood : ∀ t ∈ chars "list" :: storedElems (e :: es),
          t ≠ [] ∧ t.all plainBareChar = true := by
        intro t ht
        rcases List.mem_cons.mp ht with rfl | hmem
        · exact ⟨by decide, by decide⟩
        · exact htoks t hmem
      have hinner : chars "list " ++ joinWithChar ' ' (storedElems (e :: es)) =
          joinWithChar ' ' (chars "list" :: storedElems (e :: es)) := by
        rcases hse : storedElems (e :: es) with _ | ⟨k, kt⟩
        · exact absurd hse htne
        · show chars "list " ++ joinWithChar ' ' (k :: kt) =
            chars "list" ++ ' ' :: joinWithChar ' ' (k :: kt)
          rw [show chars "list " = chars "list" ++ [' '] from rfl, List.append_assoc]
          rfl
      have henc : value_format_py2tcl (.vlist (e :: es)) =
          '[' :: ((chars "list " ++ joinWithChar ' ' (storedElems (e :: es))) ++ [']']) := by
        show chars "[list " ++ joinWithChar ' ' (py2tclElems (e :: es)) ++ [']'] = _
        rw [heq, show chars "[list " = '[' :: chars "list " from rfl]
        simp only [List.cons_append, List.append_assoc]
      rw [henc]
      have hge := joinSpace_length_ge (chars "list" :: storedElems (e :: es))
        (fun t ht => (htokgood t ht).1)
      rw [← hinner] at hge
      have hsplit : splitCmdWords
          ((chars "list " ++ joinWithChar ' ' (storedElems (e :: es))).length + 1)
          (chars "list " ++ joinWithChar ' ' (storedElems (e :: es))) =
          some (chars "list" :: storedElems (e :: es)) := by
        rw [hinner]
        refine splitCmdWords_tokens _ _ ?_ htokgood
        rw [hinner] at hge
        simp only [List.length_cons] at hge ⊢
        omega
      have hmapm : (chars "list" :: storedElems (e :: es)).mapM (tclEvalWord (fuel + 1)) =
          some (chars "list" :: storedElems (e :: es)) :=
        mapM_evalWord fuel _ htokgood
      have hrepr : tclListRepr (storedElems (e :: es)) =
          some (joinWithChar ' ' (storedElems (e :: es))) :=
        tclListRepr_plain _ htoks
      rw [show (fuel + 2) = (fuel + 1) + 1 from rfl,
        tclEvalWord_lbracket (fuel + 1) _ _ (List.getLast?_concat _) List.dropLast_concat]
      rw [hsplit]
      simp only [hmapm, hrepr, if_pos (rfl : chars "list" = chars "list")]
      simp [storedVal]

theorem plain_mem_true (s : Str) (h : s.all plainBareChar = true) (c : Char) (hc : c ∈ s) :
    plainBareChar c = true := by
  rw [List.all_eq_true] at h
  exact h c hc

theorem plain_prefix_false (s pre : Str) (c : Char) (hc : c ∈ pre)
    (hspec : plainBareChar c = false) (h : s.all plainBareChar = true) :
    pre.isPrefixOf s = false := by
  by_contra hne
  have hp : pre.isPrefixOf s = true := by
    cases hx : pre.isPrefixOf s
    · exact absurd hx hne
    · rfl
  obtain ⟨t, ht⟩ := List.isPrefixOf_iff_prefix.mp hp
  have : c ∈ s := ht ▸ List.mem_append_left t hc
  rw [plain_mem_true s h c this] at hspec
  simp at hspec

theorem plain_ne_qq (s : Str) (h : s.all plainBareChar = true) : s ≠ [dquote, dquote] := by
  intro heq
  have : plainBareChar dquote = true := plain_mem_true s h dquote (by rw [heq]; simp)
  simp [plainBareChar, bareWordSpecials, dquote] at this

theorem plain_contains_space (s : Str) (h : s.all plainBareChar = true) :
    s.contains ' ' = false := by
  apply contains_eq_false_of_ne
  intro x hx hxs
  have := plain_mem_true s h x hx
  rw [hxs] at this
  simp [plainBareChar, bareWordSpecials] at this

theorem detect_plain_false (s : Str) (h : s.all plainBareChar = true) (n : Str) :
    detect_tcl_list s n = false := by
  have hc := plain_contains_space s h
  rw [detect_tcl_list]
  split
  · rfl
  split
  · rfl
  split
  · rfl
  next h3 =>
    exfalso
    rw [hc] at h3
    simp at h3

theorem tcl2py_elem (fuel : Nat) (e : PyVal) (he : safeListElem e = true) :
    value_format_tcl2py (fuel + 1) (storedVal e) = some e := by
  cases e with
  | vint n =>
    have hplain := intStr_plain n
    have hne := intStr_ne_nil n
    have hdot := intStr_no_dot n
    show value_format_tcl2py (fuel + 1) (intStr n) = some (.vint n)
    rw [value_format_tcl2py]
    rw [if_neg (by simp [List.isEmpty_eq_true, hne, plain_ne_qq _ hplain])]
    rw [hdot]
    rw [if_neg (by simp)]
    rw [pyParseInt_intStr]
    rfl
  | vfloat f =>
    have hwf : wfFloat f = true := by simpa [safeListElem] using he
    have hplain := floatStr_plain f hwf
    have hne := floatStr_ne_nil f
    have hdot := floatStr_has_dot f
    show value_format_tcl2py (fuel + 1) (floatStr f) = some (.vfloat f)
    rw [value_format_tcl2py]
    rw [if_neg (by simp [List.isEmpty_eq_true, hne, plain_ne_qq _ hplain])]
    rw [hdot]
    simp only [if_pos rfl]
    rw [pyParseFloat_floatStr f hwf]
    rfl
  | vstr s =>
    have hst : safeStrToken s = true := by simpa [safeListElem] using he
    simp only [safeStrToken, Bool.and_eq_true] at hst
    obtain ⟨⟨⟨⟨hne0, hplain⟩, hnum⟩, htrue0⟩, hfalse0⟩ := hst
    have hne : s ≠ [] := by simpa [List.isEmpty_eq_true] using hne0
    have htrue : strLower s ≠ chars "true" := by simpa using htrue0
    have hfalse : strLower s ≠ chars "false" := by simpa using hfalse0
    show value_format_tcl2py (fuel + 1) s = some (.vstr s)
    rw [value_format_tcl2py]
    rw [if_neg (by simp [List.isEmpty_eq_true, hne, plain_ne_qq _ hplain])]
    have hnumnone : (if s.contains '.' then (pyParseFloat s).map PyVal.vfloat
        else (pyParseInt s).map PyVal.vint) = none := by
      by_cases hd : s.contains '.' = true
      · rw [if_pos hd]
        rw [if_pos hd] at hnum
        simp only [Bool.not_eq_true'] at hnum
        cases hp : pyParseFloat s with
        | none => rfl
        | some x => rw [hp] at hnum; simp at hnum
      · rw [if_neg hd]
        rw [if_neg hd] at hnum
        simp only [Bool.not_eq_true'] at hnum
        cases hp : pyParseInt s with
        | none => rfl
        | some x => rw [hp] at hnum; simp at hnum
    rw [hnumnone]
    have hs1 : s ≠ ['1'] := by
      intro heq
      rw [heq] at hnum
      simp [pyParseInt, parseDigits, digitVal] at hnum
    have hs0 : s ≠ ['0'] := by
      intro heq
      rw [heq] at hnum
      simp [pyParseInt, parseDigits, digitVal] at hnum
    rw [if_neg (by simp [hs1, htrue]), if_neg (by simp [hs0, hfalse])]
    have hlp : (chars "[list ").isPrefixOf s = false :=
      plain_prefix_false s _ '[' (by simp [chars]) (by decide) hplain
    have hdp : (chars "[dict create ").isPrefixOf s = false :=
      plain_prefix_false s _ '[' (by simp [chars]) (by decide) hplain
    rw [if_neg (by simp [hlp])]
    rw [if_neg (by simp [detect_plain_false s hplain])]
    rw [if_neg (by simp [hdp])]
  | vnone => simp [safeListElem] at he
  | vbool b => simp [safeListElem] at he
  | vlist l => simp [safeListElem] at he
  | vdict m => simp [safeListElem] at he

theorem mapM_tcl2py (fuel : Nat) (l : List PyVal) (h : l.all safeListElem = true) :
    (storedElems l).mapM (value_format_tcl2py (fuel + 1)) = some l := by
  induction l with
  | nil => rfl
  | cons e t ih =>
    simp only [List.all_cons, Bool.and_eq_true] at h
    show ((storedVal e) :: storedElems t).mapM _ = _
    rw [List.mapM_cons, tcl2py_elem fuel e h.1, ih h.2]
    rfl

theorem join_cons_ex (w : Str) (ws : List Str) :
    ∃ r, joinWithChar ' ' (w :: ws) = w ++ r := by
  cases ws
  · exact ⟨[], by simp [joinWithChar]⟩
  · exact ⟨_, rfl⟩

theorem convert_value_tagged (v : PyVal) (hv : safeVal v = true) (hnd : isDictV v = false)
    (mode : ConvMode) (name : Str) :
    convert_value ((storedVal v).length + 1) mode (storedVal v) (pyTypeTag v) name = some v := by
  cases v with
  | vnone => rfl
  | vbool b => cases b <;> rfl
  | vint n =>
    show convert_value _ mode (intStr n) (chars "number") name = some (.vint n)
    rw [convert_value.eq_def, if_pos (by decide), if_neg (by decide), if_neg (by decide),
      if_neg (by decide), if_pos rfl, intStr_no_dot]
    rw [if_neg (by simp), pyParseInt_intStr]
    rfl
  | vfloat f =>
    have hwf : wfFloat f = true := by simpa [safeVal] using hv
    show convert_value _ mode (floatStr f) (chars "number") name = some (.vfloat f)
    rw [convert_value.eq_def, if_pos (by decide), if_neg (by decide), if_neg (by decide),
      if_neg (by decide), if_pos rfl, floatStr_has_dot]
    rw [if_pos rfl, pyParseFloat_floatStr f hwf]
    rfl
  | vstr s => rfl
  | vdict m => simp [isDictV] at hnd
  | vlist l =>
    have hall : l.all safeListElem = true := by simpa [safeVal] using hv
    obtain ⟨_, htoks⟩ := storedElems_spec l hall
    rcases l with _ | ⟨e, es⟩
    · rfl
    · show convert_value _ mode (joinWithChar ' ' (storedElems (e :: es)))
        (chars "list") name = some (.vlist (e :: es))
      have hsecons : storedElems (e :: es) = storedVal e :: storedElems es := rfl
      obtain ⟨hene, heplain⟩ := htoks (storedVal e) (by rw [hsecons]; exact List.mem_cons_self _ _)
      obtain ⟨c, w', hc⟩ : ∃ c w', storedVal e = c :: w' := by
        rcases hse : storedVal e with _ | ⟨c, w'⟩
        · exact absurd hse hene
        · exact ⟨c, w', rfl⟩
      have hcplain : plainBareChar c = true :=
        plain_mem_true _ heplain c (by rw [hc]; exact List.mem_cons_self _ _)
      obtain ⟨r, hr⟩ := join_cons_ex (storedVal e) (storedElems es)
      have hval : joinWithChar ' ' (storedElems (e :: es)) = c :: (w' ++ r) := by
        rw [hsecons, hr, hc]; rfl
      have hlp : (chars "[list ").isPrefixOf (joinWithChar ' ' (storedElems (e :: es))) = false := by
        rw [hval]
        have : ('[' == c) = false := by
          cases hcc : '[' == c
          · rfl
          · exfalso
            have : '[' = c := by simpa using hcc
            rw [← this] at hcplain
            simp [plainBareChar, bareWordSpecials] at hcplain
        show (('[' == c) && _) = false
        rw [this]
        rfl
      have hbp : [braceL].isPrefixOf (joinWithChar ' ' (storedElems (e :: es))) = false := by
        rw [hval]
        have : (braceL == c) = false := by
          cases hcc : braceL == c
          · rfl
          · exfalso
            have : braceL = c := by simpa using hcc
            rw [← this] at hcplain
            simp [plainBareChar, bareWordSpecials, braceL] at hcplain
        show ((braceL == c) && _) = false
        rw [this]
        rfl
      have hge := joinSpace_length_ge (storedElems (e :: es)) (fun t ht => (htoks t ht).1)
      have hsplit : tclSplitList ((joinWithChar ' ' (storedElems (e :: es))).length + 1)
          (joinWithChar ' ' (storedElems (e :: es))) = some (storedElems (e :: es)) := by
        refine tclSplitList_tokens _ _ ?_ htoks
        rw [hsecons] at hge ⊢
        simp only [List.length_cons] at hge ⊢
        omega
      have hmapm := mapM_tcl2py ((joinWithChar ' ' (storedElems (e :: es))).length) (e :: es) hall
      rw [convert_value.eq_def, if_pos (by decide), if_pos rfl]
      rw [if_neg (by simp [hlp]), if_neg (by simp [hbp])]
      rw [hsplit]
      rw [show storedVal (PyVal.vlist (e :: es)) = joinWithChar ' ' (storedElems (e :: es))
        from rfl]
      show ((storedElems (e :: es)).mapM
          (value_format_tcl2py ((joinWithChar ' ' (storedElems (e :: es))).length + 1))).bind
          (fun pvs => some (PyVal.vlist pvs)) = some (PyVal.vlist (e :: es))
      rw [hmapm]
      rfl

theorem assocLookup_none_of_not_mem {β : Type} (l : List (Str × β)) (k : Str)
    (h : k ∉ l.map Prod.fst) : assocLookup l k = none := by
  induction l with
  | nil => rfl
  | cons p t ih =>
    simp only [List.map_cons, List.mem_cons] at h
    push_neg at h
    rw [assocLookup, if_neg (Ne.symm h.1), ih h.2]

theorem assocLookup_append_left {β : Type} (xs ys : List (Str × β)) (k : Str) (b : β)
    (h : assocLookup xs k = some b) : assocLookup (xs ++ ys) k = some b := by
  induction xs with
  | nil => simp [assocLookup] at h
  | cons p t ih =>
    rw [assocLookup] at h
    rw [List.cons_append, assocLookup]
    by_cases hk : p.1 = k
    · rw [if_pos hk] at h ⊢; exact h
    · rw [if_neg hk] at h ⊢; exact ih h

theorem assocLookup_append_right {β : Type} (xs ys : List (Str × β)) (k : Str)
    (h : assocLookup xs k = none) : assocLookup (xs ++ ys) k = assocLookup ys k := by
  induction xs with
  | nil => rfl
  | cons p t ih =>
    rw [assocLookup] at h
    rw [List.cons_append, assocLookup]
    by_cases hk : p.1 = k
    · rw [if_pos hk] at h; exact absurd h (by simp)
    · rw [if_neg hk] at h ⊢; exact ih h

theorem containsStr_of_mem (l : List Str) (c : Str) (h : c ∈ l) : l.contains c = true := by
  induction l with
  | nil => simp at h
  | cons x t ih =>
    rcases List.mem_cons.mp h with rfl | hm
    · simp [List.contains_cons]
    · simp [List.contains_cons, ih hm]
      exact Or.inr hm

theorem assocLookup_of_mem_nodup {β : Type} (l : List (Str × β)) (k : Str) (b : β)
    (hmem : (k, b) ∈ l) (hnd : nodupKeysB (l.map Prod.fst) = true) :
    assocLookup l k = some b := by
  induction l with
  | nil => simp at hmem
  | cons p t ih =>
    simp only [List.map_cons, nodupKeysB, Bool.and_eq_true, Bool.not_eq_true'] at hnd
    rcases List.mem_cons.mp hmem with heq | hmem'
    · rw [← heq, assocLookup, if_pos rfl]
    · rw [assocLookup]
      have hne : p.1 ≠ k := by
        intro hk
        have : k ∈ t.map Prod.fst :=
          List.mem_map.mpr ⟨(k, b), hmem', rfl⟩
        rw [← hk] at this
        rw [containsStr_of_mem _ _ this] at hnd
        simp at hnd
      rw [if_neg hne]
      exact ih hmem' hnd.2

theorem assocUpd_absent {β : Type} (l : List (Str × β)) (k : Str) (v : β)
    (h : k ∉ l.map Prod.fst) : assocUpd l k v = l ++ [(k, v)] := by
  induction l with
  | nil => rfl
  | cons p t ih =>
    simp only [List.map_cons, List.mem_cons] at h
    push_neg at h
    rw [assocUpd, if_neg (Ne.symm h.1), ih h.2]
    rfl

theorem assocUpd_present_last {β : Type} (U0 : List (Str × β)) (k : Str) (x y : β)
    (h : k ∉ U0.map Prod.fst) : assocUpd (U0 ++ [(k, x)]) k y = U0 ++ [(k, y)] := by
  induction U0 with
  | nil => simp [assocUpd]
  | cons p t ih =>
    simp only [List.map_cons, List.mem_cons] at h
    push_neg at h
    rw [List.cons_append, assocUpd, if_neg (Ne.symm h.1), ih h.2]
    rfl

theorem assocLookup_last {β : Type} (U0 : List (Str × β)) (k : Str) (x : β)
    (h : k ∉ U0.map Prod.fst) : assocLookup (U0 ++ [(k, x)]) k = some x := by
  rw [assocLookup_append_right U0 _ k (assocLookup_none_of_not_mem U0 k h)]
  simp [assocLookup]

theorem assocUpd_self {β : Type} (l : List (Str × β)) (k : Str) (x : β)
    (h : assocLookup l k = some x) : assocUpd l k x = l := by
  induction l with
  | nil => simp [assocLookup] at h
  | cons p t ih =>
    rw [assocLookup] at h
    rw [assocUpd]
    by_cases hk : p.1 = k
    · rw [if_pos hk] at h
      rw [if_pos hk]
      obtain ⟨k', v'⟩ := p
      simp at h hk
      rw [h, hk]
    · rw [if_neg hk] at h
      rw [if_neg hk, ih h]

theorem assocUpd_upd {β : Type} (l : List (Str × β)) (k : Str) (x y : β) :
    assocUpd (assocUpd l k x) k y = assocUpd l k y := by
  induction l with
  | nil => simp [assocUpd]
  | cons p t ih =>
    rw [assocUpd]
    by_cases hk : p.1 = k
    · rw [if_pos hk, assocUpd, if_pos hk, assocUpd, if_pos hk]
    · rw [if_neg hk, assocUpd, if_neg hk, assocUpd, if_neg hk, ih]


theorem contains_append_cons_self (s r : Str) (c : Char) :
    (s ++ c :: r).contains c = true :=
  contains_of_mem _ _ (List.mem_append_right s (List.mem_cons_self c r))

theorem contains_cons_false (a c : Char) (as : Str)
    (h : (a :: as).contains c = false) : c ≠ a ∧ as.contains c = false := by
  simp only [List.contains_cons, Bool.or_eq_false_iff, beq_eq_false_iff_ne, ne_eq] at h
  exact h

theorem sep_prefix_inj (c : Char) : ∀ (s1 s2 r1 r2 : Str),
    s1.contains c = false → s2.contains c = false →
    s1 ++ c :: r1 = s2 ++ c :: r2 → s1 = s2 ∧ r1 = r2 := by
  intro s1
  induction s1 with
  | nil =>
    intro s2 r1 r2 h1 h2 heq
    cases s2 with
    | nil => simpa using heq
    | cons d t =>
      exfalso
      simp only [List.nil_append, List.cons_append, List.cons.injEq] at heq
      obtain ⟨hcd, -⟩ := contains_cons_false d c t h2
      exact hcd heq.1
  | cons a as ih =>
    intro s2 r1 r2 h1 h2 heq
    cases s2 with
    | nil =>
      exfalso
      simp only [List.nil_append, List.cons_append, List.cons.injEq] at heq
      obtain ⟨hca, -⟩ := contains_cons_false a c as h1
      exact hca heq.1.symm
    | cons d t =>
      simp only [List.cons_append, List.cons.injEq] at heq
      obtain ⟨-, h1t⟩ := contains_cons_false a c as h1
      obtain ⟨-, h2t⟩ := contains_cons_false d c t h2
      obtain ⟨hs, hr⟩ := ih t r1 r2 h1t h2t heq.2
      exact ⟨by rw [heq.1, hs], hr⟩

theorem safeKey_no (k : Str) (c : Char) (hc : safeKeyChar c = false)
    (hk : safeKey k = true) : k.contains c = false := by
  simp only [safeKey, Bool.and_eq_true] at hk
  apply contains_eq_false_of_ne
  intro x hx hxc
  have := List.all_eq_true.mp hk.2 x hx
  rw [hxc, hc] at this
  simp at this

theorem safeKey_ne_nil (k : Str) (hk : safeKey k = true) : k ≠ [] := by
  simp only [safeKey, Bool.and_eq_true] at hk
  simpa [List.isEmpty_eq_true] using hk.1

theorem joinComma_inj : ∀ (p1 p2 : List Str),
    (∀ s ∈ p1, s.contains ',' = false) → (∀ s ∈ p2, s.contains ',' = false) →
    p1 ≠ [] → p2 ≠ [] →
    joinWithChar ',' p1 = joinWithChar ',' p2 → p1 = p2 := by
  intro p1
  induction p1 with
  | nil => intro p2 _ _ hne; exact absurd rfl hne
  | cons w1 ws1 ih =>
    intro p2 h1 h2 _ hne2 heq
    rcases p2 with _ | ⟨w2, ws2⟩
    · exact absurd rfl hne2
    · rcases ws1 with _ | ⟨x1, xs1⟩
      · rcases ws2 with _ | ⟨x2, xs2⟩
        · rw [show joinWithChar ',' [w1] = w1 from rfl,
            show joinWithChar ',' [w2] = w2 from rfl] at heq
          rw [heq]
        · exfalso
          rw [show joinWithChar ',' [w1] = w1 from rfl] at heq
          have : (joinWithChar ',' (w2 :: x2 :: xs2)).contains ',' = true := by
            show (w2 ++ ',' :: joinWithChar ',' (x2 :: xs2)).contains ',' = true
            exact contains_append_cons_self _ _ _
          rw [← heq] at this
          rw [h1 w1 (List.mem_cons_self _ _)] at this
          simp at this
      · rcases ws2 with _ | ⟨x2, xs2⟩
        · exfalso
          rw [show joinWithChar ',' [w2] = w2 from rfl] at heq
          have : (joinWithChar ',' (w1 :: x1 :: xs1)).contains ',' = true := by
            show (w1 ++ ',' :: joinWithChar ',' (x1 :: xs1)).contains ',' = true
            exact contains_append_cons_self _ _ _
          rw [heq] at this
          rw [h2 w2 (List.mem_cons_self _ _)] at this
          simp at this
        · rw [show joinWithChar ',' (w1 :: x1 :: xs1) =
              w1 ++ ',' :: joinWithChar ',' (x1 :: xs1) from rfl,
            show joinWithChar ',' (w2 :: x2 :: xs2) =
              w2 ++ ',' :: joinWithChar ',' (x2 :: xs2) from rfl] at heq
          obtain ⟨hw, hrest⟩ := sep_prefix_inj ',' w1 w2 _ _
            (h1 w1 (List.mem_cons_self _ _)) (h2 w2 (List.mem_cons_self _ _)) heq
          have := ih (x2 :: xs2) (fun s hs => h1 s (List.mem_cons_of_mem _ hs))
            (fun s hs => h2 s (List.mem_cons_of_mem _ hs)) (by simp) (by simp) hrest
          rw [hw, this]

theorem typeKeyOf_name_inj (k1 k2 : Str) (p1 p2 : List Str)
    (hk1 : safeKey k1 = true) (hk2 : safeKey k2 = true) (hne : k1 ≠ k2) :
    typeKeyOf k1 p1 ≠ typeKeyOf k2 p2 := by
  have hc1 : k1.contains '(' = false := safeKey_no k1 '(' (by decide) hk1
  have hc2 : k2.contains '(' = false := safeKey_no k2 '(' (by decide) hk2
  intro heq
  rw [typeKeyOf, typeKeyOf] at heq
  simp only [List.append_assoc, List.cons_append] at heq
  by_cases he1 : p1.isEmpty = true
  · rw [if_pos he1] at heq
    by_cases he2 : p2.isEmpty = true
    · rw [if_pos he2] at heq
      exact hne heq
    · rw [if_neg he2] at heq
      rw [heq] at hc1
      rw [contains_of_mem _ '(' (by
        refine List.mem_append_right k2 ?_
        exact List.mem_cons_self _ _)] at hc1
      simp at hc1
  · rw [if_neg he1] at heq
    by_cases he2 : p2.isEmpty = true
    · rw [if_pos he2] at heq
      rw [← heq] at hc2
      rw [contains_of_mem _ '(' (by
        refine List.mem_append_right k1 ?_
        exact List.mem_cons_self _ _)] at hc2
      simp at hc2
    · rw [if_neg he2] at heq
      exact hne (sep_prefix_inj '(' k1 k2 _ _ hc1 hc2 heq).1

theorem typeKeyOf_path_inj (k : Str) (p1 p2 : List Str)
    (h1 : ∀ s ∈ p1, s.contains ',' = false) (h2 : ∀ s ∈ p2, s.contains ',' = false)
    (hne1 : p1 ≠ []) (hne2 : p2 ≠ [])
    (heq : typeKeyOf k p1 = typeKeyOf k p2) : p1 = p2 := by
  rw [typeKeyOf, typeKeyOf,
    if_neg (by simp [List.isEmpty_eq_true, hne1]),
    if_neg (by simp [List.isEmpty_eq_true, hne2])] at heq
  simp only [List.append_assoc, List.cons_append] at heq
  have heq2 : '(' :: (joinWithChar ',' p1 ++ [')']) = '(' :: (joinWithChar ',' p2 ++ [')']) :=
    List.append_cancel_left heq
  simp only [List.cons_append, List.cons.injEq, true_and] at heq2
  have heq3 : joinWithChar ',' p1 = joinWithChar ',' p2 :=
    List.append_cancel_right heq2
  exact joinComma_inj p1 p2 h1 h2 hne1 hne2 heq3

theorem splitOnChar_ne_nil (c : Char) (s : Str) : splitOnChar c s ≠ [] := by
  induction s with
  | nil => simp [splitOnChar]
  | cons x t ih =>
    rw [splitOnChar]
    by_cases hx : x = c
    · rw [if_pos hx]; simp
    · rw [if_neg hx]
      rcases hs : splitOnChar c t with _ | ⟨w, ws⟩
      · simp
      · simp

theorem splitOnChar_no_sep (c : Char) (s : Str) (h : s.contains c = false) :
    splitOnChar c s = [s] := by
  induction s with
  | nil => rfl
  | cons x t ih =>
    obtain ⟨hxc, ht⟩ := contains_cons_false x c t h
    rw [splitOnChar, if_neg (fun hh => hxc hh.symm), ih ht]

theorem splitOnChar_append_sep (c : Char) (s r : Str) (h : s.contains c = false) :
    splitOnChar c (s ++ c :: r) = s :: splitOnChar c r := by
  induction s with
  | nil => rw [List.nil_append, splitOnChar, if_pos rfl]
  | cons x t ih =>
    obtain ⟨hxc, ht⟩ := contains_cons_false x c t h
    rw [List.cons_append, splitOnChar, if_neg (fun hh => hxc hh.symm), ih ht]

theorem split_join_comma : ∀ (p : List Str), p ≠ [] →
    (∀ s ∈ p, s.contains ',' = false) →
    splitOnChar ',' (joinWithChar ',' p) = p := by
  intro p
  induction p with
  | nil => intro h; exact absurd rfl h
  | cons w ws ih =>
    intro _ h
    rcases ws with _ | ⟨w2, ws'⟩
    · exact splitOnChar_no_sep ',' w (h w (List.mem_cons_self _ _))
    · rw [show joinWithChar ',' (w :: w2 :: ws') =
        w ++ ',' :: joinWithChar ',' (w2 :: ws') from rfl]
      rw [splitOnChar_append_sep ',' w _ (h w (List.mem_cons_self _ _))]
      rw [ih (by simp) (fun s hs => h s (List.mem_cons_of_mem _ hs))]

mutual
theorem leafPaths_props (v : PyVal) (hv : safeVal v = true) :
    (∀ q ∈ leafPaths v, (∀ s ∈ q.1, safeKey s = true) ∧ safeVal q.2 = true ∧
      isDictV q.2 = false) ∧
    List.Nodup ((leafPaths v).map Prod.fst) := by
  cases v with
  | vdict m =>
    have hm : safeEntries m = true ∧ nodupKeysB (m.map Prod.fst) = true := by
      simp only [safeVal, Bool.and_eq_true] at hv
      exact ⟨hv.2, hv.1.2⟩
    have := leafPathsEntries_props m hm.1 hm.2
    exact ⟨fun q hq => ((this.1 q hq).2), this.2.1⟩
  | vnone =>
    exact ⟨fun q hq => by
        simp [leafPaths] at hq
        subst hq
        exact ⟨by simp, hv, by simp [isDictV]⟩,
      by simp [leafPaths]⟩
  | vbool b =>
    exact ⟨fun q hq => by
        simp [leafPaths] at hq
        subst hq
        exact ⟨by simp, hv, by simp [isDictV]⟩,
      by simp [leafPaths]⟩
  | vint n =>
    exact ⟨fun q hq => by
        simp [leafPaths] at hq
        subst hq
        exact ⟨by simp, hv, by simp [isDictV]⟩,
      by simp [leafPaths]⟩
  | vfloat f =>
    exact ⟨fun q hq => by
        simp [leafPaths] at hq
        subst hq
        exact ⟨by simp, hv, by simp [isDictV]⟩,
      by simp [leafPaths]⟩
  | vstr s =>
    exact ⟨fun q hq => by
        simp [leafPaths] at hq
        subst hq
        exact ⟨by simp, hv, by simp [isDictV]⟩,
      by simp [leafPaths]⟩
  | vlist l =>
    exact ⟨fun q hq => by
        simp [leafPaths] at hq
        subst hq
        exact ⟨by simp, hv, by simp [isDictV]⟩,
      by simp [leafPaths]⟩

theorem leafPathsEntries_props (m : List (Str × PyVal)) (hm : safeEntries m = true)
    (hnd : nodupKeysB (m.map Prod.fst) = true) :
    (∀ q ∈ leafPathsEntries m, q.1 ≠ [] ∧ (∀ s ∈ q.1, safeKey s = true) ∧
      safeVal q.2 = true ∧ isDictV q.2 = false) ∧
    List.Nodup ((leafPathsEntries m).map Prod.fst) ∧
    (∀ q ∈ leafPathsEntries m, ∃ k' p', k' ∈ m.map Prod.fst ∧ q.1 = k' :: p') := by
  cases m with
  | nil =>
    refine ⟨fun q hq => by simp [leafPathsEntries] at hq, by simp [leafPathsEntries],
      fun q hq => by simp [leafPathsEntries] at hq⟩
  | cons kv t =>
    obtain ⟨k, v⟩ := kv
    have hm' : safeKey k = true ∧ safeVal v = true ∧ safeEntries t = true := by
      simp only [safeEntries, Bool.and_eq_true] at hm
      exact ⟨hm.1.1, hm.1.2, hm.2⟩
    have hnd' : ((t.map Prod.fst).contains k) = false ∧ nodupKeysB (t.map Prod.fst) = true := by
      simp only [List.map_cons, nodupKeysB, Bool.and_eq_true, Bool.not_eq_true'] at hnd
      exact hnd
    have hval := leafPaths_props v hm'.2.1
    have hrest := leafPathsEntries_props t hm'.2.2 hnd'.2
    have hshape : leafPathsEntries ((k, v) :: t) =
        (leafPaths v).map (fun p => (k :: p.1, p.2)) ++ leafPathsEntries t := rfl
    refine ⟨?_, ?_, ?_⟩
    · intro q hq
      rw [hshape, List.mem_append] at hq
      rcases hq with hq | hq
      · obtain ⟨p, hp, hpe⟩ := List.mem_map.mp hq
        obtain ⟨hsegs, hsafe, hnd2⟩ := hval.1 p hp
        refine ⟨by rw [← hpe]; simp, ?_, by rw [← hpe]; exact hsafe, by rw [← hpe]; exact hnd2⟩
        intro s hs
        rw [← hpe] at hs
        simp only at hs
        rcases List.mem_cons.mp hs with rfl | hs'
        · exact hm'.1
        · exact hsegs s hs'
      · obtain ⟨h1, h2, h3, h4⟩ := hrest.1 q hq
        exact ⟨h1, h2, h3, h4⟩
    · rw [hshape, List.map_append]
      rw [List.nodup_append]
      refine ⟨?_, hrest.2.1, ?_⟩
      · rw [List.map_map]
        rw [show (Prod.fst ∘ fun p : List Str × PyVal => ((k :: p.1), p.2)) =
          (fun x => k :: x) ∘ Prod.fst from rfl, ← List.map_map]
        refine List.Nodup.map ?_ hval.2
        intro a b hab
        simpa using hab
      · intro x hx hy
        rw [List.map_map] at hx
        obtain ⟨p, hp, hpe⟩ := List.mem_map.mp hx
        obtain ⟨q, hq, hqe⟩ := List.mem_map.mp hy
        obtain ⟨k', p', hk', hq1⟩ := hrest.2.2 q hq
        have hxk : x = k :: p.1 := by rw [← hpe]; rfl
        have hxk2 : x = k' :: p' := by rw [← hqe, hq1]
        have hkk : k = k' := by
          rw [hxk] at hxk2
          exact (List.cons.injEq _ _ _ _ ▸ hxk2).1
        have hcc := containsStr_of_mem _ _ hk'
        rw [← hkk] at hcc
        rw [hcc] at hnd'
        simp at hnd'
    · intro q hq
      rw [hshape, List.mem_append] at hq
      rcases hq with hq | hq
      · obtain ⟨p, hp, hpe⟩ := List.mem_map.mp hq
        exact ⟨k, p.1, by rw [List.map_cons]; exact List.mem_cons_self _ _, by rw [← hpe]⟩
      · obtain ⟨k', p', hk', hq1⟩ := hrest.2.2 q hq
        exact ⟨k', p', by rw [List.map_cons]; exact List.mem_cons_of_mem _ hk', hq1⟩
end



theorem flattenOps_append (name : Str) : ∀ (l1 l2 : List (Str × Str × Str × Str)) (st : TclState),
    flattenOps name st (l1 ++ l2) =
      (flattenOps name st l1).bind (fun st' => flattenOps name st' l2) := by
  intro l1
  induction l1 with
  | nil => intro l2 st; rfl
  | cons o rest ih =>
    intro l2 st
    rw [List.cons_append, flattenOps, flattenOps]
    cases h1 : tclSetArrayEntry st typesName o.1 o.2.1 with
    | none => rfl
    | some st1 =>
      simp only [Option.bind_eq_bind, Option.some_bind]
      cases h2 : tclSetArrayEntry st1 name o.2.2.1 o.2.2.2 with
      | none => rfl
      | some st2 =>
        simp only [Option.bind_eq_bind, Option.some_bind]
        exact ih l2 st2

theorem value_format_ne_nil (v : PyVal) (hv : safeVal v = true) (hnd : isDictV v = false) :
    value_format_py2tcl v ≠ [] := by
  cases v with
  | vnone => simp [value_format_py2tcl]
  | vbool b => cases b <;> simp [value_format_py2tcl]
  | vint n => exact intStr_ne_nil n
  | vfloat f => exact floatStr_ne_nil f
  | vstr s =>
    have hs : safeLeafStr s = true := by simpa [safeVal] using hv
    have hne : s ≠ [] := by
      simp only [safeLeafStr, Bool.and_eq_true] at hs
      simpa [List.isEmpty_eq_true] using hs.1
    show pyStrEncode s ≠ []
    rw [pyStrEncode]
    split
    · simp
    · exact hne
  | vlist l => show chars "[list " ++ _ ++ _ ≠ []; simp [chars]
  | vdict m => simp [isDictV] at hnd

theorem evalWord_stored_len (v : PyVal) (hv : safeVal v = true) (hnd : isDictV v = false) :
    tclEvalWord ((value_format_py2tcl v).length + 1) (value_format_py2tcl v) =
      some (storedVal v) := by
  have hne := value_format_ne_nil v hv hnd
  obtain ⟨n, hn⟩ : ∃ n, (value_format_py2tcl v).length = n + 1 :=
    ⟨(value_format_py2tcl v).length - 1,
      (Nat.succ_pred_eq_of_pos (List.length_pos.mpr hne)).symm⟩
  rw [hn]
  exact evalWord_stored v hv hnd n

theorem set_tcl_var_nondict (st : TclState) (name : Str) (v : PyVal) (parents : List Str)
    (hnd : isDictV v = false) :
    set_tcl_var st name v parents = (do
      let w := value_format_py2tcl v
      let tkey := if parents.isEmpty then name
                  else name ++ '(' :: joinWithChar ',' parents ++ [')']
      let st1 ← tclSetArrayEntry st typesName tkey (pyTypeTag v)
      let sv ← tclEvalWord (w.length + 1) w
      if parents.isEmpty then tclSetScalar st1 name sv
      else tclSetArrayEntry st1 name (joinWithChar ',' parents) sv) := by
  cases v with
  | vdict m => simp [isDictV] at hnd
  | vnone => rfl
  | vbool b => rfl
  | vint n => rfl
  | vfloat f => rfl
  | vstr s => rfl
  | vlist l => rfl

mutual
theorem set_tcl_var_ops (v : PyVal) (hv : safeVal v = true) :
    ∀ (st : TclState) (name : Str) (parents : List Str), parents ≠ [] →
    set_tcl_var st name v parents =
      flattenOps name st ((leafPaths v).map (opOf name parents)) := by
  cases v with
  | vdict m =>
    intro st name parents hp
    have hm : safeEntries m = true := by
      simp only [safeVal, Bool.and_eq_true] at hv
      exact hv.2
    show set_tcl_var_entries st name m parents = _
    exact set_tcl_var_entries_ops m hm st name parents
  | vnone => exact set_tcl_var_ops_leaf .vnone hv (by simp [isDictV])
  | vbool b => exact set_tcl_var_ops_leaf (.vbool b) hv (by simp [isDictV])
  | vint n => exact set_tcl_var_ops_leaf (.vint n) hv (by simp [isDictV])
  | vfloat f => exact set_tcl_var_ops_leaf (.vfloat f) hv (by simp [isDictV])
  | vstr s => exact set_tcl_var_ops_leaf (.vstr s) hv (by simp [isDictV])
  | vlist l => exact set_tcl_var_ops_leaf (.vlist l) hv (by simp [isDictV])

theorem set_tcl_var_entries_ops (m : List (Str × PyVal)) (hm : safeEntries m = true) :
    ∀ (st : TclState) (name : Str) (parents : List Str),
    set_tcl_var_entries st name m parents =
      flattenOps name st ((leafPathsEntries m).map (opOf name parents)) := by
  cases m with
  | nil => intro st name parents; rfl
  | cons kv t =>
    obtain ⟨k, v⟩ := kv
    intro st name parents
    have hm' : safeVal v = true ∧ safeEntries t = true := by
      simp only [safeEntries, Bool.and_eq_true] at hm
      exact ⟨hm.1.2, hm.2⟩
    have hv := set_tcl_var_ops v hm'.1 st name (parents ++ [k]) (by simp)
    show (do
      let st1 ← set_tcl_var st name v (parents ++ [k])
      set_tcl_var_entries st1 name t parents) = _
    have hshape : leafPathsEntries ((k, v) :: t) =
        (leafPaths v).map (fun p => (k :: p.1, p.2)) ++ leafPathsEntries t := rfl
    rw [hshape, List.map_append, flattenOps_append]
    have hmapeq : (leafPaths v).map (opOf name (parents ++ [k])) =
        ((leafPaths v).map (fun p => (k :: p.1, p.2))).map (opOf name parents) := by
      rw [List.map_map]
      apply List.map_congr_left
      intro q hq
      simp only [Function.comp, opOf]
      rw [List.append_assoc]
      rfl
    rw [hv, hmapeq]
    cases flattenOps name st (((leafPaths v).map (fun p => (k :: p.1, p.2))).map
        (opOf name parents)) with
    | none => rfl
    | some st1 =>
      simp only [Option.some_bind]
      exact set_tcl_var_entries_ops t hm'.2 st1 name parents

theorem set_tcl_var_ops_leaf (v : PyVal) (hv : safeVal v = true) (hnd : isDictV v = false) :
    ∀ (st : TclState) (name : Str) (parents : List Str), parents ≠ [] →
    set_tcl_var st name v parents =
      flattenOps name st ((leafPaths v).map (opOf name parents)) := by
  intro st name parents hp
  rw [set_tcl_var_nondict st name v parents hnd]
  have hlp : leafPaths v = [([], v)] := by
    cases v with
    | vdict m => simp [isDictV] at hnd
    | vnone => rfl
    | vbool b => rfl
    | vint n => rfl
    | vfloat f => rfl
    | vstr s => rfl
    | vlist l => rfl
  rw [hlp]
  simp only [List.map_cons, List.map_nil, opOf, List.append_nil]
  rw [flattenOps]
  simp only [if_neg (by simp [List.isEmpty_eq_true, hp] : ¬parents.isEmpty = true)]
  rw [show typeKeyOf name parents =
    name ++ '(' :: joinWithChar ',' parents ++ [')'] from by
      rw [typeKeyOf, if_neg (by simp [List.isEmpty_eq_true, hp])]]
  cases h1 : tclSetArrayEntry st typesName
      (name ++ '(' :: joinWithChar ',' parents ++ [')']) (pyTypeTag v) with
  | none => rfl
  | some st1 =>
    simp only [Option.bind_eq_bind, Option.some_bind]
    rw [evalWord_stored_len v hv hnd]
    simp only [Option.bind_eq_bind, Option.some_bind]
    cases h2 : tclSetArrayEntry st1 name (joinWithChar ',' parents) (storedVal v) with
    | none => rfl
    | some st2 =>
      rfl
end

theorem setArray_types (T : List (Str × Str)) (U : List (Str × TclVar)) (tkey tag : Str)
    (hfresh : tkey ∉ T.map Prod.fst) :
    tclSetArrayEntry ⟨(typesName, .arrayVar T) :: U⟩ typesName tkey tag =
      some ⟨(typesName, .arrayVar (T ++ [(tkey, tag)])) :: U⟩ := by
  rw [tclSetArrayEntry]
  rw [show assocLookup ((typesName, TclVar.arrayVar T) :: U) typesName =
    some (TclVar.arrayVar T) from by rw [assocLookup, if_pos rfl]]
  show some (⟨assocUpd ((typesName, TclVar.arrayVar T) :: U) typesName
      (TclVar.arrayVar (assocUpd T tkey tag))⟩ : TclState) = _
  rw [assocUpd_absent T tkey tag hfresh]
  rw [show assocUpd ((typesName, TclVar.arrayVar T) :: U) typesName
    (TclVar.arrayVar (T ++ [(tkey, tag)])) =
    (typesName, TclVar.arrayVar (T ++ [(tkey, tag)])) :: U from by rw [assocUpd, if_pos rfl]]

theorem setArray_name_present (T : List (Str × Str)) (U0 : List (Str × TclVar))
    (name : Str) (es : List (Str × Str)) (idx sv : Str)
    (hname : name ≠ typesName) (hU0 : name ∉ U0.map Prod.fst)
    (hes : idx ∉ es.map Prod.fst) :
    tclSetArrayEntry ⟨(typesName, .arrayVar T) :: (U0 ++ [(name, .arrayVar es)])⟩
        name idx sv =
      some ⟨(typesName, .arrayVar T) ::
        (U0 ++ [(name, .arrayVar (es ++ [(idx, sv)]))])⟩ := by
  rw [tclSetArrayEntry]
  rw [show assocLookup ((typesName, TclVar.arrayVar T) :: (U0 ++ [(name, TclVar.arrayVar es)]))
      name = some (TclVar.arrayVar es) from by
    rw [assocLookup, if_neg (fun h => hname h.symm)]
    exact assocLookup_last U0 name _ hU0]
  show some (⟨assocUpd ((typesName, TclVar.arrayVar T) :: (U0 ++ [(name, TclVar.arrayVar es)]))
      name (TclVar.arrayVar (assocUpd es idx sv))⟩ : TclState) = _
  rw [assocUpd_absent es idx sv hes]
  rw [show assocUpd ((typesName, TclVar.arrayVar T) :: (U0 ++ [(name, TclVar.arrayVar es)]))
      name (TclVar.arrayVar (es ++ [(idx, sv)])) =
      (typesName, TclVar.arrayVar T) :: (U0 ++ [(name, TclVar.arrayVar (es ++ [(idx, sv)]))])
    from by
    rw [assocUpd, if_neg (fun h => hname h.symm)]
    rw [assocUpd_present_last U0 name _ _ hU0]]

theorem setArray_name_absent (T : List (Str × Str)) (U : List (Str × TclVar))
    (name : Str) (idx sv : Str)
    (hname : name ≠ typesName) (hU : name ∉ U.map Prod.fst) :
    tclSetArrayEntry ⟨(typesName, .arrayVar T) :: U⟩ name idx sv =
      some ⟨(typesName, .arrayVar T) :: (U ++ [(name, .arrayVar [(idx, sv)])])⟩ := by
  rw [tclSetArrayEntry]
  rw [show assocLookup ((typesName, TclVar.arrayVar T) :: U) name = none from by
    rw [assocLookup, if_neg (fun h => hname h.symm)]
    exact assocLookup_none_of_not_mem U name hU]
  rfl

theorem flattenOps_present (name : Str) (hname : name ≠ typesName) :
    ∀ (ops : List (Str × Str × Str × Str)) (T : List (Str × Str))
      (U0 : List (Str × TclVar)) (es : List (Str × Str)),
    name ∉ U0.map Prod.fst →
    (∀ o ∈ ops, o.1 ∉ T.map Prod.fst) →
    (List.map (fun o : Str × Str × Str × Str => o.1) ops).Nodup →
    (∀ o ∈ ops, o.2.2.1 ∉ es.map Prod.fst) →
    (List.map (fun o : Str × Str × Str × Str => o.2.2.1) ops).Nodup →
    flattenOps name ⟨(typesName, .arrayVar T) :: (U0 ++ [(name, .arrayVar es)])⟩ ops =
      some ⟨(typesName, .arrayVar (T ++ ops.map (fun o => (o.1, o.2.1)))) ::
        (U0 ++ [(name, .arrayVar (es ++ ops.map (fun o => (o.2.2.1, o.2.2.2))))])⟩ := by
  intro ops
  induction ops with
  | nil =>
    intro T U0 es _ _ _ _ _
    rw [flattenOps]
    simp
  | cons o rest ih =>
    intro T U0 es hU0 hT hTnd hes hesnd
    rw [flattenOps]
    rw [setArray_types T _ o.1 o.2.1 (hT o (List.mem_cons_self _ _))]
    simp only [Option.bind_eq_bind, Option.some_bind]
    rw [setArray_name_present (T ++ [(o.1, o.2.1)]) U0 name es o.2.2.1 o.2.2.2 hname hU0
      (hes o (List.mem_cons_self _ _))]
    simp only [Option.bind_eq_bind, Option.some_bind]
    rw [ih (T ++ [(o.1, o.2.1)]) U0 (es ++ [(o.2.2.1, o.2.2.2)]) hU0 ?_ ?_ ?_ ?_]
    · rw [List.append_assoc, List.append_assoc]
      rfl
    · intro o' ho'
      rw [List.map_append]
      intro hmem
      rcases List.mem_append.mp hmem with hmem | hmem
      · exact hT o' (List.mem_cons_of_mem _ ho') hmem
      · simp only [List.map_cons, List.map_nil, List.mem_cons] at hmem
        rcases hmem with hmem | hmem
        · rw [List.map_cons] at hTnd
          have := (List.nodup_cons.mp hTnd).1
          exact this (hmem ▸ List.mem_map.mpr ⟨o', ho', rfl⟩)
        · simp at hmem
    · rw [List.map_cons] at hTnd
      exact (List.nodup_cons.mp hTnd).2
    · intro o' ho'
      rw [List.map_append]
      intro hmem
      rcases List.mem_append.mp hmem with hmem | hmem
      · exact hes o' (List.mem_cons_of_mem _ ho') hmem
      · simp only [List.map_cons, List.map_nil, List.mem_cons] at hmem
        rcases hmem with hmem | hmem
        · rw [List.map_cons] at hesnd
          have := (List.nodup_cons.mp hesnd).1
          exact this (hmem ▸ List.mem_map.mpr ⟨o', ho', rfl⟩)
        · simp at hmem
    · rw [List.map_cons] at hesnd
      exact (List.nodup_cons.mp hesnd).2

theorem flattenOps_absent (name : Str) (hname : name ≠ typesName)
    (ops : List (Str × Str × Str × Str)) (T : List (Str × Str))
    (U : List (Str × TclVar)) (hne : ops ≠ [])
    (hU : name ∉ U.map Prod.fst)
    (hT : ∀ o ∈ ops, o.1 ∉ T.map Prod.fst)
    (hTnd : (List.map (fun o : Str × Str × Str × Str => o.1) ops).Nodup)
    (hesnd : (List.map (fun o : Str × Str × Str × Str => o.2.2.1) ops).Nodup) :
    flattenOps name ⟨(typesName, .arrayVar T) :: U⟩ ops =
      some ⟨(typesName, .arrayVar (T ++ ops.map (fun o => (o.1, o.2.1)))) ::
        (U ++ [(name, .arrayVar (ops.map (fun o => (o.2.2.1, o.2.2.2))))])⟩ := by
  rcases ops with _ | ⟨o, rest⟩
  · exact absurd rfl hne
  · rw [flattenOps]
    rw [setArray_types T _ o.1 o.2.1 (hT o (List.mem_cons_self _ _))]
    simp only [Option.bind_eq_bind, Option.some_bind]
    rw [setArray_name_absent (T ++ [(o.1, o.2.1)]) U name o.2.2.1 o.2.2.2 hname hU]
    simp only [Option.bind_eq_bind, Option.some_bind]
    rw [flattenOps_present name hname rest (T ++ [(o.1, o.2.1)]) U [(o.2.2.1, o.2.2.2)]
      hU ?_ ?_ ?_ ?_]
    · rw [List.append_assoc]
      rfl
    · intro o' ho'
      rw [List.map_append]
      intro hmem
      rcases List.mem_append.mp hmem with hmem | hmem
      · exact hT o' (List.mem_cons_of_mem _ ho') hmem
      · simp only [List.map_cons, List.map_nil, List.mem_cons] at hmem
        rcases hmem with hmem | hmem
        · rw [List.map_cons] at hTnd
          have := (List.nodup_cons.mp hTnd).1
          exact this (hmem ▸ List.mem_map.mpr ⟨o', ho', rfl⟩)
        · simp at hmem
    · rw [List.map_cons] at hTnd
      exact (List.nodup_cons.mp hTnd).2
    · intro o' ho'
      simp only [List.map_cons, List.map_nil, List.mem_cons] at *
      intro hmem
      rcases hmem with hmem | hmem
      · have := (List.nodup_cons.mp hesnd).1
        exact this (hmem ▸ List.mem_map.mpr ⟨o', ho', rfl⟩)
      · simp at hmem
    · exact (List.nodup_cons.mp (by simpa using hesnd)).2

theorem leafPaths_nondict (v : PyVal) (hnd : isDictV v = false) :
    leafPaths v = [([], v)] := by
  cases v with
  | vdict m => simp [isDictV] at hnd
  | vnone => rfl
  | vbool b => rfl
  | vint n => rfl
  | vfloat f => rfl
  | vstr s => rfl
  | vlist l => rfl

theorem varFor_nondict (v : PyVal) (hnd : isDictV v = false) :
    varFor v = .scalar (storedVal v) := by
  cases v with
  | vdict m => simp [isDictV] at hnd
  | vnone => rfl
  | vbool b => rfl
  | vint n => rfl
  | vfloat f => rfl
  | vstr s => rfl
  | vlist l => rfl

mutual
theorem leafPaths_ne_nil (v : PyVal) (hv : safeVal v = true) : leafPaths v ≠ [] := by
  cases v with
  | vdict m =>
    have hm1 : m ≠ [] := by
      simp only [safeVal, Bool.and_eq_true] at hv
      simpa [List.isEmpty_eq_true] using hv.1.1
    have hm2 : safeEntries m = true := by
      simp only [safeVal, Bool.and_eq_true] at hv
      exact hv.2
    show leafPathsEntries m ≠ []
    exact leafPathsEntries_ne_nil m hm1 hm2
  | vnone => simp [leafPaths]
  | vbool b => simp [leafPaths]
  | vint n => simp [leafPaths]
  | vfloat f => simp [leafPaths]
  | vstr s => simp [leafPaths]
  | vlist l => simp [leafPaths]

theorem leafPathsEntries_ne_nil (m : List (Str × PyVal)) (hne : m ≠ [])
    (hm : safeEntries m = true) : leafPathsEntries m ≠ [] := by
  cases m with
  | nil => exact absurd rfl hne
  | cons kv t =>
    obtain ⟨k, v⟩ := kv
    have hv : safeVal v = true := by
      simp only [safeEntries, Bool.and_eq_true] at hm
      exact hm.1.2
    show (leafPaths v).map (fun p => (k :: p.1, p.2)) ++ leafPathsEntries t ≠ []
    have := leafPaths_ne_nil v hv
    intro hcontra
    rw [List.append_eq_nil] at hcontra
    exact this (List.map_eq_nil_iff.mp hcontra.1)
end

theorem setScalar_fresh (X : TclVar) (U : List (Str × TclVar)) (name sv : Str)
    (hname : name ≠ typesName) (hU : name ∉ U.map Prod.fst) :
    tclSetScalar ⟨(typesName, X) :: U⟩ name sv =
      some ⟨(typesName, X) :: (U ++ [(name, .scalar sv)])⟩ := by
  rw [tclSetScalar]
  rw [show assocLookup ((typesName, X) :: U) name = none from by
    rw [assocLookup, if_neg (fun h => hname h.symm)]
    exact assocLookup_none_of_not_mem U name hU]
  show some (⟨assocUpd ((typesName, X) :: U) name (.scalar sv)⟩ : TclState) = _
  rw [show assocUpd ((typesName, X) :: U) name (TclVar.scalar sv) =
    (typesName, X) :: assocUpd U name (TclVar.scalar sv) from by
    rw [assocUpd, if_neg (fun h => hname h.symm)]]
  rw [assocUpd_absent U name _ hU]

theorem set_tcl_var_top_nondict (v : PyVal) (name : Str) (T : List (Str × Str))
    (U : List (Str × TclVar))
    (hv : safeVal v = true) (hnd : isDictV v = false) (hnT : name ≠ typesName)
    (hU : name ∉ U.map Prod.fst)
    (hT : ∀ q ∈ leafPaths v, typeKeyOf name q.1 ∉ T.map Prod.fst) :
    set_tcl_var ⟨(typesName, .arrayVar T) :: U⟩ name v [] =
      some ⟨(typesName, .arrayVar (T ++ typeEntriesFor name v)) ::
        (U ++ [(name, varFor v)])⟩ := by
  rw [set_tcl_var_nondict _ _ _ _ hnd]
  have hfr : name ∉ T.map Prod.fst := by
    have := hT ([], v) (by rw [leafPaths_nondict v hnd]; exact List.mem_cons_self _ _)
    simpa [typeKeyOf] using this
  simp only [List.isEmpty_nil, if_pos]
  rw [setArray_types T U name (pyTypeTag v) hfr]
  simp only [Option.bind_eq_bind, Option.some_bind]
  rw [evalWord_stored_len v hv hnd]
  simp only [Option.bind_eq_bind, Option.some_bind]
  rw [setScalar_fresh _ U name (storedVal v) hnT hU]
  rw [show typeEntriesFor name v = [(name, pyTypeTag v)] from by
    rw [typeEntriesFor, leafPaths_nondict v hnd]
    rfl]
  rw [varFor_nondict v hnd]

theorem set_tcl_var_top_dict (m : List (Str × PyVal)) (name : Str) (T : List (Str × Str))
    (U : List (Str × TclVar))
    (hv : safeVal (.vdict m) = true) (hnT : name ≠ typesName)
    (hU : name ∉ U.map Prod.fst)
    (hT : ∀ q ∈ leafPaths (.vdict m), typeKeyOf name q.1 ∉ T.map Prod.fst) :
    set_tcl_var ⟨(typesName, .arrayVar T) :: U⟩ name (.vdict m) [] =
      some ⟨(typesName, .arrayVar (T ++ typeEntriesFor name (.vdict m))) ::
        (U ++ [(name, varFor (.vdict m))])⟩ := by
  have hm1 : safeEntries m = true := by
    simp only [safeVal, Bool.and_eq_true] at hv
    exact hv.2
  have hm2 : nodupKeysB (m.map Prod.fst) = true := by
    simp only [safeVal, Bool.and_eq_true] at hv
    exact hv.1.2
  have hm3 : m ≠ [] := by
    simp only [safeVal, Bool.and_eq_true] at hv
    simpa [List.isEmpty_eq_true] using hv.1.1
  have hprops := leafPathsEntries_props m hm1 hm2
  show set_tcl_var_entries _ name m [] = _
  rw [set_tcl_var_entries_ops m hm1 _ name []]
  have hopsne : (leafPathsEntries m).map (opOf name []) ≠ [] := by
    intro hc
    exact leafPathsEntries_ne_nil m hm3 hm1 (List.map_eq_nil_iff.mp hc)
  have hsegs : ∀ p ∈ (leafPathsEntries m).map Prod.fst,
      p ≠ [] ∧ ∀ s ∈ p, s.contains ',' = false := by
    intro p hp
    obtain ⟨q, hq, hqe⟩ := List.mem_map.mp hp
    obtain ⟨h1, h2, -⟩ := hprops.1 q hq
    exact ⟨hqe ▸ h1, fun s hs => safeKey_no s ',' (by decide) (h2 s (hqe ▸ hs))⟩
  rw [flattenOps_absent name hnT _ T U hopsne hU ?_ ?_ ?_]
  · rw [List.map_map, List.map_map]
    rfl
  · intro o ho
    obtain ⟨q, hq, hqe⟩ := List.mem_map.mp ho
    rw [← hqe]
    exact hT q hq
  · rw [List.map_map]
    rw [show ((fun o : Str × Str × Str × Str => o.1) ∘ opOf name []) =
      (fun p => typeKeyOf name p) ∘ Prod.fst from rfl, ← List.map_map]
    refine List.Nodup.map_on ?_ hprops.2.1
    intro p1 hp1 p2 hp2 heq
    obtain ⟨hne1, hc1⟩ := hsegs p1 hp1
    obtain ⟨hne2, hc2⟩ := hsegs p2 hp2
    exact typeKeyOf_path_inj name p1 p2 hc1 hc2 hne1 hne2 heq
  · rw [List.map_map]
    rw [show ((fun o : Str × Str × Str × Str => o.2.2.1) ∘ opOf name []) =
      (fun p => joinWithChar ',' p) ∘ Prod.fst from rfl, ← List.map_map]
    refine List.Nodup.map_on ?_ hprops.2.1
    intro p1 hp1 p2 hp2 heq
    obtain ⟨hne1, hc1⟩ := hsegs p1 hp1
    obtain ⟨hne2, hc2⟩ := hsegs p2 hp2
    exact joinComma_inj p1 p2 hc1 hc2 hne1 hne2 heq

theorem set_tcl_var_top (v : PyVal) (name : Str) (T : List (Str × Str))
    (U : List (Str × TclVar))
    (hv : safeVal v = true) (hnT : name ≠ typesName)
    (hU : name ∉ U.map Prod.fst)
    (hT : ∀ q ∈ leafPaths v, typeKeyOf name q.1 ∉ T.map Prod.fst) :
    set_tcl_var ⟨(typesName, .arrayVar T) :: U⟩ name v [] =
      some ⟨(typesName, .arrayVar (T ++ typeEntriesFor name v)) ::
        (U ++ [(name, varFor v)])⟩ := by
  cases v with
  | vdict m => exact set_tcl_var_top_dict m name T U hv hnT hU hT
  | vnone => exact set_tcl_var_top_nondict _ name T U hv (by decide) hnT hU hT
  | vbool b => exact set_tcl_var_top_nondict _ name T U hv (by simp [isDictV]) hnT hU hT
  | vint n => exact set_tcl_var_top_nondict _ name T U hv (by simp [isDictV]) hnT hU hT
  | vfloat f => exact set_tcl_var_top_nondict _ name T U hv (by simp [isDictV]) hnT hU hT
  | vstr s => exact set_tcl_var_top_nondict _ name T U hv (by simp [isDictV]) hnT hU hT
  | vlist l => exact set_tcl_var_top_nondict _ name T U hv (by simp [isDictV]) hnT hU hT

theorem safeTopKey_parts (k : Str) (h : safeTopKey k = true) :
    safeKey k = true ∧ isExcludedVar k = false ∧ k ≠ typesName := by
  simp only [safeTopKey, Bool.and_eq_true, Bool.not_eq_true'] at h
  refine ⟨h.1, h.2, ?_⟩
  intro hk
  rw [hk] at h
  have : isExcludedVar typesName = true := by decide
  rw [this] at h
  exact absurd h.2 (by decide)

theorem dict2tclinterpLoop_state : ∀ (d : PyDict) (T : List (Str × Str))
    (U : List (Str × TclVar)),
    d.all (fun kv => safeTopKey kv.1 && safeVal kv.2) = true →
    nodupKeysB (d.map Prod.fst) = true →
    (∀ kv ∈ d, ∀ q ∈ leafPaths kv.2, typeKeyOf kv.1 q.1 ∉ T.map Prod.fst) →
    (∀ kv ∈ d, kv.1 ∉ U.map Prod.fst) →
    dict2tclinterpLoop ⟨(typesName, .arrayVar T) :: U⟩ d =
      some ⟨(typesName, .arrayVar (T ++ d.flatMap (fun kv => typeEntriesFor kv.1 kv.2))) ::
        (U ++ d.map (fun kv => (kv.1, varFor kv.2)))⟩ := by
  intro d
  induction d with
  | nil =>
    intro T U _ _ _ _
    rw [dict2tclinterpLoop]
    simp
  | cons kv t ih =>
    obtain ⟨k, v⟩ := kv
    intro T U hall hnd hT hU
    simp only [List.all_cons, Bool.and_eq_true] at hall
    obtain ⟨⟨hk, hv⟩, hallt⟩ := hall
    obtain ⟨hkk, hkx, hknT⟩ := safeTopKey_parts k hk
    have hndt : ((t.map Prod.fst).contains k) = false ∧ nodupKeysB (t.map Prod.fst) = true := by
      simp only [List.map_cons, nodupKeysB, Bool.and_eq_true, Bool.not_eq_true'] at hnd
      exact hnd
    rw [dict2tclinterpLoop]
    rw [set_tcl_var_top v k T U hv hknT
      (hU (k, v) (List.mem_cons_self _ _))
      (hT (k, v) (List.mem_cons_self _ _))]
    simp only [Option.bind_eq_bind, Option.some_bind]
    rw [ih (T ++ typeEntriesFor k v) (U ++ [(k, varFor v)]) hallt hndt.2 ?_ ?_]
    · simp [List.flatMap_cons, List.append_assoc]
    · intro kv2 hkv2 q hq
      rw [List.map_append, List.mem_append]
      push_neg
      constructor
      · exact hT kv2 (List.mem_cons_of_mem _ hkv2) q hq
      · have hkv2k : safeKey kv2.1 = true := by
          have := List.all_eq_true.mp hallt kv2 hkv2
          simp only [Bool.and_eq_true] at this
          exact (safeTopKey_parts kv2.1 this.1).1
        have hne : kv2.1 ≠ k := by
          intro hc
          have : kv2.1 ∈ t.map Prod.fst := List.mem_map.mpr ⟨kv2, hkv2, rfl⟩
          rw [hc] at this
          rw [containsStr_of_mem _ _ this] at hndt
          exact absurd hndt.1 (by decide)
        intro hmem
        rw [typeEntriesFor, List.map_map] at hmem
        obtain ⟨p, hp, hpe⟩ := List.mem_map.mp hmem
        exact typeKeyOf_name_inj kv2.1 k q.1 p.1 hkv2k hkk hne hpe.symm
    · intro kv2 hkv2
      rw [List.map_append, List.mem_append]
      push_neg
      constructor
      · exact hU kv2 (List.mem_cons_of_mem _ hkv2)
      · have hne : kv2.1 ≠ k := by
          intro hc
          have : kv2.1 ∈ t.map Prod.fst := List.mem_map.mpr ⟨kv2, hkv2, rfl⟩
          rw [hc] at this
          rw [containsStr_of_mem _ _ this] at hndt
          exact absurd hndt.1 (by decide)
        simp [hne]

theorem dict2tclinterp_expected (d : PyDict) (h : safeRootDict d = true) :
    dict2tclinterp d emptyTclState = some (expectedState d) := by
  simp only [safeRootDict, Bool.and_eq_true] at h
  rw [dict2tclinterp]
  rw [show tclArraySetEmpty emptyTclState typesName =
    some ⟨[(typesName, .arrayVar [])]⟩ from rfl]
  simp only [Option.bind_eq_bind, Option.some_bind]
  rw [dict2tclinterpLoop_state d [] [] h.2 h.1
    (fun kv _ q _ => by simp) (fun kv _ => by simp)]
  rfl

theorem mem_of_containsStr (l : List Str) (c : Str) (h : l.contains c = true) : c ∈ l := by
  induction l with
  | nil => simp [List.contains] at h
  | cons x t ih =>
    rw [List.contains_cons] at h
    rcases Bool.or_eq_true_iff.mp h with h | h
    · exact (beq_iff_eq.mp h) ▸ List.mem_cons_self x t
    · exact List.mem_cons_of_mem x (ih h)

theorem nodupKeysB_of_nodup (l : List Str) (h : l.Nodup) : nodupKeysB l = true := by
  induction l with
  | nil => rfl
  | cons x t ih =>
    obtain ⟨hx, ht⟩ := List.nodup_cons.mp h
    rw [nodupKeysB]
    rw [show t.contains x = false from by
      cases hc : t.contains x
      · rfl
      · exact absurd (mem_of_containsStr t x hc) hx]
    rw [ih ht]
    rfl

theorem typeEntries_keys_nodup (name : Str) (v : PyVal) (hv : safeVal v = true) :
    ((typeEntriesFor name v).map Prod.fst).Nodup := by
  by_cases hnd : isDictV v = true
  · have hm : ∃ m, v = .vdict m := by
      cases v <;> simp [isDictV] at hnd <;> exact ⟨_, rfl⟩
    obtain ⟨m, rfl⟩ := hm
    have hm1 : safeEntries m = true := by
      simp only [safeVal, Bool.and_eq_true] at hv
      exact hv.2
    have hm2 : nodupKeysB (m.map Prod.fst) = true := by
      simp only [safeVal, Bool.and_eq_true] at hv
      exact hv.1.2
    have hprops := leafPathsEntries_props m hm1 hm2
    rw [typeEntriesFor]
    rw [List.map_map]
    rw [show (Prod.fst ∘ fun p : List Str × PyVal => (typeKeyOf name p.1, pyTypeTag p.2)) =
      (fun p => typeKeyOf name p) ∘ Prod.fst from rfl, ← List.map_map]
    refine List.Nodup.map_on ?_ hprops.2.1
    intro p1 hp1 p2 hp2 heq
    obtain ⟨q1, hq1, hq1e⟩ := List.mem_map.mp hp1
    obtain ⟨q2, hq2, hq2e⟩ := List.mem_map.mp hp2
    obtain ⟨h11, h12, -⟩ := hprops.1 q1 hq1
    obtain ⟨h21, h22, -⟩ := hprops.1 q2 hq2
    exact typeKeyOf_path_inj name p1 p2
      (fun s hs => safeKey_no s ',' (by decide) (h12 s (hq1e ▸ hs)))
      (fun s hs => safeKey_no s ',' (by decide) (h22 s (hq2e ▸ hs)))
      (hq1e ▸ h11) (hq2e ▸ h21) heq
  · have hnd' : isDictV v = false := by
      cases h : isDictV v
      · rfl
      · exact absurd h hnd
    rw [typeEntriesFor, leafPaths_nondict v hnd']
    simp

theorem lookupTag_full : ∀ (d : PyDict),
    d.all (fun kv => safeTopKey kv.1 && safeVal kv.2) = true →
    nodupKeysB (d.map Prod.fst) = true →
    ∀ kv ∈ d, ∀ q ∈ leafPaths kv.2,
    assocLookup (d.flatMap (fun kv => typeEntriesFor kv.1 kv.2)) (typeKeyOf kv.1 q.1) =
      some (pyTypeTag q.2) := by
  intro d
  induction d with
  | nil => intro _ _ kv hkv; simp at hkv
  | cons kv0 t ih =>
    obtain ⟨k0, v0⟩ := kv0
    intro hall hnd kv hkv q hq
    simp only [List.all_cons, Bool.and_eq_true] at hall
    obtain ⟨⟨hk0, hv0⟩, hallt⟩ := hall
    have hndt : ((t.map Prod.fst).contains k0) = false ∧
        nodupKeysB (t.map Prod.fst) = true := by
      simp only [List.map_cons, nodupKeysB, Bool.and_eq_true, Bool.not_eq_true'] at hnd
      exact hnd
    rw [List.flatMap_cons]
    rcases List.mem_cons.mp hkv with rfl | hkv'
    · refine assocLookup_append_left _ _ _ _ ?_
      refine assocLookup_of_mem_nodup _ _ _ ?_ ?_
      · rw [typeEntriesFor]
        exact List.mem_map.mpr ⟨q, hq, rfl⟩
      · exact nodupKeysB_of_nodup _ (typeEntries_keys_nodup k0 v0 hv0)
    · rw [assocLookup_append_right]
      · exact ih hallt hndt.2 kv hkv' q hq
      · apply assocLookup_none_of_not_mem
        intro hmem
        rw [typeEntriesFor, List.map_map] at hmem
        obtain ⟨p, hp, hpe⟩ := List.mem_map.mp hmem
        have hkvk : safeKey kv.1 = true := by
          have := List.all_eq_true.mp hallt kv hkv'
          simp only [Bool.and_eq_true] at this
          exact (safeTopKey_parts kv.1 this.1).1
        have hne : kv.1 ≠ k0 := by
          intro hc
          have : kv.1 ∈ t.map Prod.fst := List.mem_map.mpr ⟨kv, hkv', rfl⟩
          rw [hc] at this
          rw [containsStr_of_mem _ _ this] at hndt
          exact absurd hndt.1 (by decide)
        exact typeKeyOf_name_inj kv.1 k0 q.1 p.1 hkvk
          (safeTopKey_parts k0 hk0).1 hne hpe.symm

theorem lookupTypeTag_expected (d : PyDict)
    (hall : d.all (fun kv => safeTopKey kv.1 && safeVal kv.2) = true)
    (hnd : nodupKeysB (d.map Prod.fst) = true)
    (kv : Str × PyVal) (hkv : kv ∈ d) (q : List Str × PyVal) (hq : q ∈ leafPaths kv.2) :
    lookupTypeTag (expectedState d) (typeKeyOf kv.1 q.1) = pyTypeTag q.2 := by
  rw [lookupTypeTag]
  rw [show assocLookup (expectedState d).vars typesName =
    some (TclVar.arrayVar (d.flatMap (fun kv => typeEntriesFor kv.1 kv.2))) from by
    rw [expectedState]
    rw [assocLookup, if_pos rfl]]
  show (match assocLookup (d.flatMap (fun kv => typeEntriesFor kv.1 kv.2))
      (typeKeyOf kv.1 q.1) with
    | some t => t
    | none => chars "unknown") = pyTypeTag q.2
  rw [lookupTag_full d hall hnd kv hkv q hq]


theorem insertLeaves_append : ∀ (l1 l2 : List (List Str × PyVal)) (vd : PyDict),
    insertLeaves vd (l1 ++ l2) = insertLeaves (insertLeaves vd l1) l2 := by
  intro l1
  induction l1 with
  | nil => intro l2 vd; rfl
  | cons q t ih => intro l2 vd; exact ih l2 (insertPath vd q.1 q.2)

theorem assocLookup_none_not_mem {β : Type} (l : List (Str × β)) (k : Str)
    (h : assocLookup l k = none) : k ∉ l.map Prod.fst := by
  induction l with
  | nil => simp
  | cons p t ih =>
    rw [assocLookup] at h
    by_cases hk : p.1 = k
    · rw [if_pos hk] at h; exact absurd h (by simp)
    · rw [if_neg hk] at h
      simp only [List.map_cons, List.mem_cons]
      push_neg
      exact ⟨fun hc => hk hc.symm, ih h⟩

theorem insertLeaves_deep (k1 : Str) : ∀ (pl : List (List Str × PyVal)) (vd cur : PyDict),
    (∀ q ∈ pl, q.1 ≠ []) → assocLookup vd k1 = some (.vdict cur) →
    insertLeaves vd (pl.map (fun q => (k1 :: q.1, q.2))) =
      assocUpd vd k1 (.vdict (insertLeaves cur pl)) := by
  intro pl
  induction pl with
  | nil =>
    intro vd cur _ hlook
    show vd = assocUpd vd k1 (.vdict cur)
    exact (assocUpd_self vd k1 _ hlook).symm
  | cons q rest ih =>
    intro vd cur hpaths hlook
    obtain ⟨s, ss, hq1⟩ : ∃ s ss, q.1 = s :: ss := by
      rcases hq : q.1 with _ | ⟨s, ss⟩
      · exact absurd hq (hpaths q (List.mem_cons_self _ _))
      · exact ⟨s, ss, rfl⟩
    show insertLeaves (insertPath vd (k1 :: q.1) q.2) (rest.map _) = _
    rw [hq1]
    rw [show insertPath vd (k1 :: s :: ss) q.2 =
      assocUpd vd k1 (.vdict (insertPath
        (match assocLookup vd k1 with
         | some (.vdict m) => m
         | _ => []) (s :: ss) q.2)) from rfl]
    rw [hlook]
    rw [ih (assocUpd vd k1 (.vdict (insertPath cur (s :: ss) q.2)))
      (insertPath cur (s :: ss) q.2)
      (fun q' hq' => hpaths q' (List.mem_cons_of_mem _ hq'))
      (assocLookup_upd_self vd k1 _)]
    rw [assocUpd_upd]
    rw [show insertLeaves cur (q :: rest) = insertLeaves (insertPath cur q.1 q.2) rest
      from rfl]
    rw [hq1]

mutual
theorem insertLeaves_value (k1 : Str) (v : PyVal) (hv : safeVal v = true) :
    ∀ (vd : PyDict), assocLookup vd k1 = none →
    insertLeaves vd ((leafPaths v).map (fun q => (k1 :: q.1, q.2))) = vd ++ [(k1, v)] := by
  cases v with
  | vdict m =>
    intro vd hlook
    have hm1 : safeEntries m = true := by
      simp only [safeVal, Bool.and_eq_true] at hv
      exact hv.2
    have hm2 : nodupKeysB (m.map Prod.fst) = true := by
      simp only [safeVal, Bool.and_eq_true] at hv
      exact hv.1.2
    have hm3 : m ≠ [] := by
      simp only [safeVal, Bool.and_eq_true] at hv
      simpa [List.isEmpty_eq_true] using hv.1.1
    have hprops := leafPathsEntries_props m hm1 hm2
    have hfull : insertLeaves ([] : PyDict) (leafPathsEntries m) = m := by
      have := insertLeaves_entries m hm1 hm2 []
        (fun k' hk' => rfl)
      simpa using this
    show insertLeaves vd ((leafPathsEntries m).map (fun q => (k1 :: q.1, q.2))) = _
    rcases hpl : leafPathsEntries m with _ | ⟨q0, rest⟩
    · exact absurd hpl (leafPathsEntries_ne_nil m hm3 hm1)
    · obtain ⟨s, ss, hq1⟩ : ∃ s ss, q0.1 = s :: ss := by
        rcases hq : q0.1 with _ | ⟨s, ss⟩
        · exact absurd hq (hprops.1 q0 (hpl ▸ List.mem_cons_self _ _)).1
        · exact ⟨s, ss, rfl⟩
      rw [List.map_cons]
      show insertLeaves (insertPath vd (k1 :: q0.1) q0.2) (rest.map _) = _
      rw [hq1]
      rw [show insertPath vd (k1 :: s :: ss) q0.2 =
        assocUpd vd k1 (.vdict (insertPath
          (match assocLookup vd k1 with
           | some (.vdict m) => m
           | _ => []) (s :: ss) q0.2)) from rfl]
      rw [hlook]
      have hnm := assocLookup_none_not_mem vd k1 hlook
      rw [assocUpd_absent vd k1 _ hnm]
      rw [insertLeaves_deep k1 rest _ (insertPath ([] : PyDict) (s :: ss) q0.2)
        (fun q' hq' => (hprops.1 q' (hpl ▸ List.mem_cons_of_mem _ hq')).1)
        (assocLookup_last vd k1 _ hnm)]
      rw [assocUpd_present_last vd k1 _ _ hnm]
      have : insertLeaves (insertPath ([] : PyDict) (s :: ss) q0.2) rest =
          insertLeaves ([] : PyDict) (q0 :: rest) := by
        show _ = insertLeaves (insertPath ([] : PyDict) q0.1 q0.2) rest
        rw [hq1]
      rw [this, ← hpl, hfull]
  | vnone =>
    intro vd hlook
    show insertLeaves vd [([k1], .vnone)] = _
    show assocUpd vd k1 .vnone = _
    exact assocUpd_absent vd k1 _ (assocLookup_none_not_mem vd k1 hlook)
  | vbool b =>
    intro vd hlook
    show assocUpd vd k1 (.vbool b) = _
    exact assocUpd_absent vd k1 _ (assocLookup_none_not_mem vd k1 hlook)
  | vint n =>
    intro vd hlook
    show assocUpd vd k1 (.vint n) = _
    exact assocUpd_absent vd k1 _ (assocLookup_none_not_mem vd k1 hlook)
  | vfloat f =>
    intro vd hlook
    show assocUpd vd k1 (.vfloat f) = _
    exact assocUpd_absent vd k1 _ (assocLookup_none_not_mem vd k1 hlook)
  | vstr s =>
    intro vd hlook
    show assocUpd vd k1 (.vstr s) = _
    exact assocUpd_absent vd k1 _ (assocLookup_none_not_mem vd k1 hlook)
  | vlist l =>
    intro vd hlook
    show assocUpd vd k1 (.vlist l) = _
    exact assocUpd_absent vd k1 _ (assocLookup_none_not_mem vd k1 hlook)

theorem insertLeaves_entries (m : List (Str × PyVal)) (hm : safeEntries m = true)
    (hnd : nodupKeysB (m.map Prod.fst) = true) :
    ∀ (vd : PyDict), (∀ k' ∈ m.map Prod.fst, assocLookup vd k' = none) →
    insertLeaves vd (leafPathsEntries m) = vd ++ m := by
  cases m with
  | nil => intro vd _; simp [leafPathsEntries, insertLeaves]
  | cons kv t =>
    obtain ⟨k, v⟩ := kv
    intro vd hlooks
    have hm' : safeKey k = true ∧ safeVal v = true ∧ safeEntries t = true := by
      simp only [safeEntries, Bool.and_eq_true] at hm
      exact ⟨hm.1.1, hm.1.2, hm.2⟩
    have hndt : ((t.map Prod.fst).contains k) = false ∧
        nodupKeysB (t.map Prod.fst) = true := by
      simp only [List.map_cons, nodupKeysB, Bool.and_eq_true, Bool.not_eq_true'] at hnd
      exact hnd
    show insertLeaves vd ((leafPaths v).map (fun p => (k :: p.1, p.2)) ++ leafPathsEntries t) = _
    rw [insertLeaves_append]
    rw [insertLeaves_value k v hm'.2.1 vd
      (hlooks k (by rw [List.map_cons]; exact List.mem_cons_self _ _))]
    rw [insertLeaves_entries t hm'.2.2 hndt.2 (vd ++ [(k, v)]) ?_]
    · rw [List.append_assoc]
      rfl
    · intro k' hk'
      rw [assocLookup_append_right]
      · rw [assocLookup]
        rw [if_neg ?_]
        · rfl
        · intro hc
          rw [hc] at hndt
          rw [containsStr_of_mem _ _ hk'] at hndt
          exact absurd hndt.1 (by decide)
      · exact hlooks k' (by rw [List.map_cons]; exact List.mem_cons_of_mem _ hk')
end

theorem convertArrayEntries_insert (st : TclState) (k : Str) :
    ∀ (pl : List (List Str × PyVal)) (vd : PyDict),
    (∀ q ∈ pl, q.1 ≠ [] ∧ (∀ s ∈ q.1, safeKey s = true) ∧ safeVal q.2 = true ∧
      isDictV q.2 = false ∧
      lookupTypeTag st (k ++ '(' :: joinWithChar ',' q.1 ++ [')']) = pyTypeTag q.2) →
    convertArrayEntries st .auto k vd
      (pl.map (fun q => (joinWithChar ',' q.1, storedVal q.2))) =
    insertLeaves vd pl := by
  intro pl
  induction pl with
  | nil => intro vd _; rfl
  | cons q rest ih =>
    intro vd hcond
    obtain ⟨hqne, hqsegs, hqsafe, hqnd, hqtag⟩ := hcond q (List.mem_cons_self _ _)
    have hcomma : ∀ s ∈ q.1, s.contains ',' = false :=
      fun s hs => safeKey_no s ',' (by decide) (hqsegs s hs)
    rw [List.map_cons]
    simp only [convertArrayEntries]
    rw [hqtag, convert_value_tagged q.2 hqsafe hqnd .auto _]
    show convertArrayEntries st .auto k
        (if (joinWithChar ',' q.1).contains ',' = true then
          insertPath vd (splitOnChar ',' (joinWithChar ',' q.1)) q.2
        else assocUpd vd (joinWithChar ',' q.1) q.2)
        (rest.map (fun q => (joinWithChar ',' q.1, storedVal q.2))) =
      insertLeaves (insertPath vd q.1 q.2) rest
    have hupd : (if (joinWithChar ',' q.1).contains ',' = true then
        insertPath vd (splitOnChar ',' (joinWithChar ',' q.1)) q.2
        else assocUpd vd (joinWithChar ',' q.1) q.2) = insertPath vd q.1 q.2 := by
      obtain ⟨s0, ss, hq1⟩ : ∃ s0 ss, q.1 = s0 :: ss := by
        rcases hq : q.1 with _ | ⟨s0, ss⟩
        · exact absurd hq hqne
        · exact ⟨s0, ss, rfl⟩
      rcases ss with _ | ⟨s1, ss2⟩
      · rw [hq1]
        rw [show joinWithChar ',' [s0] = s0 from rfl]
        rw [hcomma s0 (by rw [hq1]; exact List.mem_cons_self _ _)]
        simp only [Bool.false_eq_true, if_false]
        rfl
      · rw [hq1]
        rw [show joinWithChar ',' (s0 :: s1 :: ss2) =
          s0 ++ ',' :: joinWithChar ',' (s1 :: ss2) from rfl]
        rw [contains_append_cons_self]
        simp only [if_true]
        rw [← show joinWithChar ',' (s0 :: s1 :: ss2) =
          s0 ++ ',' :: joinWithChar ',' (s1 :: ss2) from rfl]
        rw [split_join_comma (s0 :: s1 :: ss2) (by simp)
          (fun s hs => hcomma s (by rw [hq1]; exact hs))]
    rw [hupd]
    exact ih (insertPath vd q.1 q.2)
      (fun q' hq' => hcond q' (List.mem_cons_of_mem _ hq'))

theorem loop_cons_eq (st : TclState) (mode : ConvMode) (name : Str) (var : TclVar)
    (t : List (Str × TclVar)) (acc : PyDict) :
    tclinterp2dictLoop st mode ((name, var) :: t) acc =
      if isExcludedVar name then tclinterp2dictLoop st mode t acc
      else
        match var with
        | .scalar v =>
          match convert_value (v.length + 1) mode v (lookupTypeTag st name) name with
          | some pv => tclinterp2dictLoop st mode t (acc ++ [(name, pv)])
          | none => tclinterp2dictLoop st mode t acc
        | .arrayVar es =>
          let vd := convertArrayEntries st mode name [] es
          if vd.isEmpty then tclinterp2dictLoop st mode t acc
          else tclinterp2dictLoop st mode t (acc ++ [(name, .vdict vd)]) := rfl

theorem tclinterp2dictLoop_decode (st : TclState) : ∀ (d' : PyDict) (acc : PyDict),
    d'.all (fun kv => safeTopKey kv.1 && safeVal kv.2) = true →
    (∀ kv ∈ d', ∀ q ∈ leafPaths kv.2,
      lookupTypeTag st (typeKeyOf kv.1 q.1) = pyTypeTag q.2) →
    tclinterp2dictLoop st .auto (d'.map (fun kv => (kv.1, varFor kv.2))) acc = acc ++ d' := by
  intro d'
  induction d' with
  | nil => intro acc _ _; simp [tclinterp2dictLoop]
  | cons kv t ih =>
    obtain ⟨k, v⟩ := kv
    intro acc hall htags
    simp only [List.all_cons, Bool.and_eq_true] at hall
    obtain ⟨⟨hk, hv⟩, hallt⟩ := hall
    obtain ⟨hkk, hkx, hknT⟩ := safeTopKey_parts k hk
    have htagst : ∀ kv ∈ t, ∀ q ∈ leafPaths kv.2,
        lookupTypeTag st (typeKeyOf kv.1 q.1) = pyTypeTag q.2 :=
      fun kv hkv q hq => htags kv (List.mem_cons_of_mem _ hkv) q hq
    rw [List.map_cons, loop_cons_eq]
    rw [hkx]
    simp only [Bool.false_eq_true, if_false]
    by_cases hnd : isDictV v = true
    · have hm : ∃ m, v = .vdict m := by
        cases v <;> simp [isDictV] at hnd <;> exact ⟨_, rfl⟩
      obtain ⟨m, rfl⟩ := hm
      have hm1 : safeEntries m = true := by
        simp only [safeVal, Bool.and_eq_true] at hv
        exact hv.2
      have hm2 : nodupKeysB (m.map Prod.fst) = true := by
        simp only [safeVal, Bool.and_eq_true] at hv
        exact hv.1.2
      have hm3 : m ≠ [] := by
        simp only [safeVal, Bool.and_eq_true] at hv
        simpa [List.isEmpty_eq_true] using hv.1.1
      have hprops := leafPathsEntries_props m hm1 hm2
      show (if (convertArrayEntries st .auto k []
          ((leafPathsEntries m).map (fun p => (joinWithChar ',' p.1, storedVal p.2)))).isEmpty
        then tclinterp2dictLoop st .auto (t.map (fun kv => (kv.1, varFor kv.2))) acc
        else tclinterp2dictLoop st .auto (t.map (fun kv => (kv.1, varFor kv.2)))
          (acc ++ [(k, .vdict (convertArrayEntries st .auto k []
            ((leafPathsEntries m).map (fun p => (joinWithChar ',' p.1, storedVal p.2)))))]))
        = acc ++ (k, .vdict m) :: t
      rw [convertArrayEntries_insert st k (leafPathsEntries m) [] ?_]
      · rw [insertLeaves_entries m hm1 hm2 [] (fun k' hk' => rfl)]
        rw [List.nil_append]
        show (if m.isEmpty then _ else tclinterp2dictLoop st .auto
          (t.map (fun kv => (kv.1, varFor kv.2))) (acc ++ [(k, .vdict m)])) = _
        rw [if_neg (by simp [List.isEmpty_eq_true, hm3])]
        have h2 : (acc ++ [(k, PyVal.vdict m)]) ++ t = acc ++ (k, PyVal.vdict m) :: t := by
          simp
        exact (ih (acc ++ [(k, .vdict m)]) hallt htagst).trans h2
      · intro q hq
        obtain ⟨h1, h2, h3, h4⟩ := hprops.1 q hq
        refine ⟨h1, h2, h3, h4, ?_⟩
        have := htags (k, .vdict m) (List.mem_cons_self _ _) q hq
        rw [typeKeyOf, if_neg (by simp [List.isEmpty_eq_true, h1])] at this
        simpa [List.append_assoc] using this
    · have hnd' : isDictV v = false := by
        cases h : isDictV v
        · rfl
        · exact absurd h hnd
      rw [varFor_nondict v hnd']
      show (match convert_value ((storedVal v).length + 1) ConvMode.auto (storedVal v)
          (lookupTypeTag st k) k with
        | some pv => tclinterp2dictLoop st .auto (t.map (fun kv => (kv.1, varFor kv.2)))
            (acc ++ [(k, pv)])
        | none => tclinterp2dictLoop st .auto (t.map (fun kv => (kv.1, varFor kv.2)))
            acc) = acc ++ (k, v) :: t
      have htagk : lookupTypeTag st k = pyTypeTag v :=
        htags (k, v) (List.mem_cons_self _ _) ([], v)
          (by rw [leafPaths_nondict v hnd']; exact List.mem_cons_self _ _)
      rw [htagk, convert_value_tagged v hv hnd' .auto k]
      show tclinterp2dictLoop st .auto (t.map (fun kv => (kv.1, varFor kv.2)))
        (acc ++ [(k, v)]) = acc ++ (k, v) :: t
      rw [ih (acc ++ [(k, v)]) hallt htagst]
      simp

theorem tclinterp2dict_expected (d : PyDict) (h : safeRootDict d = true) :
    tclinterp2dict (expectedState d) .auto = d := by
  simp only [safeRootDict, Bool.and_eq_true] at h
  rw [tclinterp2dict]
  rw [show (expectedState d).vars =
    (typesName, .arrayVar (d.flatMap (fun kv => typeEntriesFor kv.1 kv.2))) ::
      d.map (fun kv => (kv.1, varFor kv.2)) from rfl]
  rw [loop_cons_eq]
  rw [show isExcludedVar typesName = true from by decide]
  simp only [if_true]
  rw [tclinterp2dictLoop_decode (expectedState d) d [] h.2 ?_]
  · rfl
  · intro kv hkv q hq
    exact lookupTypeTag_expected d h.2 h.1 kv hkv q hq


/-- C1 (counterexample): the claim asserts that the round trip
`dict2tclinterp` / `tclinterp2dict` (mode auto, metadata consulted)
reproduces every leaf exactly, booleans included, for every mapping of
null/bool/int/float/string/list/sub-mapping values.  For the mapping
`a ↦ [True]` the round trip yields `a ↦ [1]`: a boolean nested inside a
list is stored as `1` with the enclosing list tagged `list`, so it
decodes as the integer 1, not a boolean. -/
theorem dict_roundtrip_claim_cx :
    (dict2tclinterp [(chars "a", .vlist [.vbool true])] emptyTclState).map
        (fun st => tclinterp2dict st .auto) =
      some [(chars "a", .vlist [.vint 1])] ∧
    [(chars "a", PyVal.vlist [.vint 1])] ≠ [(chars "a", PyVal.vlist [.vbool true])] :=
  ⟨rfl, by decide⟩

/-- C1 (amended): for every safe mapping — duplicate-free keys drawn from
alphanumeric/underscore/hyphen characters, top keys not excluded names,
leaves that are null, boolean, integer, well-formed float, storage-safe
string, or list of safe scalar elements, and nested sub-mappings nonempty
with the same guarantees — `dict2tclinterp` into a fresh interpreter
succeeds and `tclinterp2dict` in mode auto returns the original mapping
exactly, every leaf reproduced in value and type. -/
theorem dict2tclinterp_roundtrip_amended (d : PyDict) (h : safeRootDict d = true) :
    ∃ st, dict2tclinterp d emptyTclState = some st ∧ tclinterp2dict st .auto = d :=
  ⟨expectedState d, dict2tclinterp_expected d h, tclinterp2dict_expected d h⟩

theorem dict2tclinterp_roundtrip_amended_witness :
    safeRootDict c1SafeDict = true ∧
    ∃ st, dict2tclinterp c1SafeDict emptyTclState = some st ∧
      tclinterp2dict st .auto = c1SafeDict :=
  ⟨by decide, dict2tclinterp_roundtrip_amended c1SafeDict (by decide)⟩

theorem loop_cons_scalar (st : TclState) (mode : ConvMode) (name : Str) (v : Str)
    (t : List (Str × TclVar)) (acc : PyDict) (hx : isExcludedVar name = false) :
    tclinterp2dictLoop st mode ((name, .scalar v) :: t) acc =
      (match convert_value (v.length + 1) mode v (lookupTypeTag st name) name with
       | some pv => tclinterp2dictLoop st mode t (acc ++ [(name, pv)])
       | none => tclinterp2dictLoop st mode t acc) := by
  rw [loop_cons_eq, if_neg (by simp [hx])]

theorem loop_cons_array (st : TclState) (mode : ConvMode) (name : Str)
    (es : List (Str × Str)) (t : List (Str × TclVar)) (acc : PyDict)
    (hx : isExcludedVar name = false) :
    tclinterp2dictLoop st mode ((name, .arrayVar es) :: t) acc =
      (if (convertArrayEntries st mode name [] es).isEmpty then
        tclinterp2dictLoop st mode t acc
       else tclinterp2dictLoop st mode t
        (acc ++ [(name, .vdict (convertArrayEntries st mode name [] es))])) := by
  rw [loop_cons_eq, if_neg (by simp [hx])]

theorem loop_keys_excluded (st : TclState) (mode : ConvMode) :
    ∀ (vars : List (Str × TclVar)) (acc : PyDict),
    (∀ k ∈ acc.map Prod.fst, isExcludedVar k = false) →
    ∀ k ∈ (tclinterp2dictLoop st mode vars acc).map Prod.fst, isExcludedVar k = false := by
  intro vars
  induction vars with
  | nil => intro acc hacc k hk; exact hacc k hk
  | cons pv t ih =>
    obtain ⟨name, var⟩ := pv
    intro acc hacc k hk
    by_cases hx : isExcludedVar name = true
    · rw [loop_cons_eq, if_pos hx] at hk
      exact ih acc hacc k hk
    · have hxf : isExcludedVar name = false := by
        cases h : isExcludedVar name
        · rfl
        · exact absurd h hx
      have haccx : ∀ (pv2 : PyVal), ∀ k2 ∈ (acc ++ [(name, pv2)]).map Prod.fst,
          isExcludedVar k2 = false := by
        intro pv2 k2 hk2
        rw [List.map_append, List.mem_append] at hk2
        rcases hk2 with hk2 | hk2
        · exact hacc k2 hk2
        · simp only [List.map_cons, List.map_nil, List.mem_cons] at hk2
          rcases hk2 with rfl | hk2
          · exact hxf
          · simp at hk2
      cases var with
      | scalar v =>
        rw [loop_cons_scalar st mode name v t acc hxf] at hk
        cases hcv : convert_value (v.length + 1) mode v (lookupTypeTag st name) name with
        | some pv2 =>
          rw [hcv] at hk
          exact ih (acc ++ [(name, pv2)]) (haccx pv2) k hk
        | none =>
          rw [hcv] at hk
          exact ih acc hacc k hk
      | arrayVar es =>
        rw [loop_cons_array st mode name es t acc hxf] at hk
        by_cases hemp : (convertArrayEntries st mode name [] es).isEmpty = true
        · rw [if_pos hemp] at hk
          exact ih acc hacc k hk
        · rw [if_neg hemp] at hk
          exact ih (acc ++ [(name, .vdict (convertArrayEntries st mode name [] es))])
            (haccx _) k hk

theorem writeMainSection_skip (vars : List (Str × TclVar)) (var : TclVar) :
    writeMainSection ((typesName, var) :: vars) = writeMainSection vars := by
  cases var with
  | scalar v =>
    show (if isExcludedVar typesName then writeMainSection vars else _) = _
    rw [if_pos (by decide)]
  | arrayVar es =>
    show (if isExcludedVar typesName then writeMainSection vars else _) = _
    rw [if_pos (by decide)]

/-- C8: every key of the mapping returned by `tclinterp2dict` is a
non-excluded name (in particular not the metadata array name
`__configkit_types__`, not `tcl_...`/`auto_...`, not
errorInfo/errorCode/env/argv0); and when serializing a namespace the
metadata array is skipped by the regular-variable section and appears
only through the separately headed type section. -/
theorem tclinterp2dict_excludes (st : TclState) (mode : ConvMode) (k : Str)
    (hk : k ∈ (tclinterp2dict st mode).map Prod.fst) :
    (isExcludedVar k = false ∧ k ≠ typesName) ∧
    (∀ (vars : List (Str × TclVar)) (var : TclVar),
      writeMainSection ((typesName, var) :: vars) = writeMainSection vars ∧
      write_tcl_vars_to_file ⟨(typesName, var) :: vars⟩ =
        writeMainSection vars ++ writeTypeSection ⟨(typesName, var) :: vars⟩) := by
  have h1 : isExcludedVar k = false := by
    rw [tclinterp2dict] at hk
    exact loop_keys_excluded st mode st.vars [] (by simp) k hk
  refine ⟨⟨h1, ?_⟩, ?_⟩
  · intro hc
    rw [hc] at h1
    have : isExcludedVar typesName = true := by decide
    rw [this] at h1
    exact absurd h1 (by decide)
  · intro vars var
    refine ⟨writeMainSection_skip vars var, ?_⟩
    rw [write_tcl_vars_to_file]
    rw [show (⟨(typesName, var) :: vars⟩ : TclState).vars = (typesName, var) :: vars from rfl]
    rw [writeMainSection_skip vars var]

theorem tclinterp2dict_excludes_witness :
    (chars "a") ∈ ((tclinterp2dict ⟨[(chars "a", .scalar (chars "x"))]⟩ .auto).map
      Prod.fst) ∧
    ((isExcludedVar (chars "a") = false ∧ chars "a" ≠ typesName) ∧
    (∀ (vars : List (Str × TclVar)) (var : TclVar),
      writeMainSection ((typesName, var) :: vars) = writeMainSection vars ∧
      write_tcl_vars_to_file ⟨(typesName, var) :: vars⟩ =
        writeMainSection vars ++ writeTypeSection ⟨(typesName, var) :: vars⟩)) :=
  ⟨by decide, tclinterp2dict_excludes ⟨[(chars "a", .scalar (chars "x"))]⟩ .auto
    (chars "a") (by decide)⟩

theorem files2dictStep_missing (fs : FileSys) (mode : ConvMode) (acc : PyDict) (p : Str)
    (hp : pathExists fs p = false) :
    files2dictStep fs mode acc p = .error (.fileNotFound p) := by
  rw [files2dictStep]
  rw [show assocLookup fs p = none from by
    rw [pathExists] at hp
    cases h : assocLookup fs p
    · rfl
    · rw [h] at hp; simp at hp]

theorem files2dictLoop_skip_missing (fs : FileSys) (mode : ConvMode) (p : Str)
    (hp : pathExists fs p = false) :
    ∀ (pre post : List Str) (acc : PyDict),
    files2dictLoop fs mode true acc (pre ++ p :: post) =
      files2dictLoop fs mode true acc (pre ++ post) := by
  intro pre
  induction pre with
  | nil =>
    intro post acc
    rw [List.nil_append, List.nil_append, files2dictLoop]
    rw [files2dictStep_missing fs mode acc p hp]
    rfl
  | cons q t ih =>
    intro post acc
    rw [List.cons_append, List.cons_append, files2dictLoop, files2dictLoop]
    cases hq : files2dictStep fs mode acc q with
    | ok acc' => exact ih post acc'
    | error e =>
      exact ih post acc

theorem files2dictLoop_error_missing (fs : FileSys) (mode : ConvMode) (p : Str)
    (hp : pathExists fs p = false) :
    ∀ (pre : List Str),
    (∀ (acc : PyDict), ∀ q ∈ pre, ∃ acc', files2dictStep fs mode acc q = .ok acc') →
    ∀ (post : List Str) (acc : PyDict),
    files2dictLoop fs mode false acc (pre ++ p :: post) = .error (.fileNotFound p) := by
  intro pre
  induction pre with
  | nil =>
    intro _ post acc
    rw [List.nil_append, files2dictLoop]
    rw [files2dictStep_missing fs mode acc p hp]
    rfl
  | cons q t ih =>
    intro hpre post acc
    rw [List.cons_append, files2dictLoop]
    obtain ⟨acc', hacc'⟩ := hpre acc q (List.mem_cons_self _ _)
    rw [hacc']
    exact ih (fun acc2 q2 hq2 => hpre acc2 q2 (List.mem_cons_of_mem _ hq2)) post acc'

/-- C9: when the path list contains a non-existent path (the earlier
paths all stepping successfully), `files2dict` with `skip_errors`
false returns the file-not-found error for that path and no mapping,
and with `skip_errors` true it processes exactly the remaining paths,
silently omitting the missing one. -/
theorem files2dict_missing_path (fs : FileSys) (mode : ConvMode)
    (pre post : List Str) (p : Str) (hp : pathExists fs p = false)
    (hpre : ∀ (acc : PyDict), ∀ q ∈ pre, ∃ acc', files2dictStep fs mode acc q = .ok acc') :
    files2dict fs (pre ++ p :: post) mode false = .error (.fileNotFound p) ∧
    files2dict fs (pre ++ p :: post) mode true =
      files2dictLoop fs mode true [] (pre ++ post) := by
  have hne : (pre ++ p :: post).isEmpty = false := by
    cases pre <;> rfl
  constructor
  · rw [files2dict, if_neg (by simp [hne])]
    exact files2dictLoop_error_missing fs mode p hp pre hpre post []
  · rw [files2dict, if_neg (by simp [hne])]
    exact files2dictLoop_skip_missing fs mode p hp pre post []

theorem files2dict_missing_path_witness :
    pathExists [(chars "b.yaml", FileContent.yamlFile [(chars "k", PyVal.vint 7)])]
      (chars "missing.yaml") = false ∧
    (∀ (acc : PyDict), ∀ q ∈ [chars "b.yaml"], ∃ acc',
      files2dictStep [(chars "b.yaml", FileContent.yamlFile [(chars "k", PyVal.vint 7)])]
        ConvMode.auto acc q = .ok acc') ∧
    (files2dict [(chars "b.yaml", FileContent.yamlFile [(chars "k", PyVal.vint 7)])]
        ([chars "b.yaml"] ++ chars "missing.yaml" :: []) ConvMode.auto false =
      .error (.fileNotFound (chars "missing.yaml")) ∧
    files2dict [(chars "b.yaml", FileContent.yamlFile [(chars "k", PyVal.vint 7)])]
        ([chars "b.yaml"] ++ chars "missing.yaml" :: []) ConvMode.auto true =
      files2dictLoop [(chars "b.yaml", FileContent.yamlFile [(chars "k", PyVal.vint 7)])]
        ConvMode.auto true [] ([chars "b.yaml"] ++ [])) := by
  refine ⟨by decide, ?_, ?_⟩
  · intro acc q hq
    rcases List.mem_singleton.mp hq with rfl
    exact ⟨_, rfl⟩
  · exact files2dict_missing_path _ ConvMode.auto [chars "b.yaml"] [] (chars "missing.yaml")
      (by decide)
      (fun acc q hq => by
        rcases List.mem_singleton.mp hq with rfl
        exact ⟨_, rfl⟩)
